import Mathlib

/-!
# reactivec: a shallow embedding of `reactivec.c`

The development follows the C source function by function.

Conventions of the embedding (LP64, little-endian, as on x86-64):

* `intptr_t` and `size_t` are 64 bits wide; an `intptr_t` is kept as its
  64-bit pattern, a natural number below `2 ^ 64`.  The only operations the
  source performs on `intptr_t` are copies and (in)equality tests, which are
  the same on the pattern and on the signed value.
* caller-owned storage is a byte memory `Nat → Nat`; a byte is read modulo 256.
* a pointer held in `signal->current` is either a numeric address into the
  caller-owned storage (`0` is `NULL`) or the address of the `emit` field of
  the signal that holds it.
* the objects made by `calloc` live in two heaps indexed by address, one for
  `struct rac_signal` and one for `struct rac_bind`; the answers of the
  allocator (the address `calloc` returns, whether `realloc` succeeds) are
  arguments of the functions that allocate.
* a function pointer is a number; the code behind the function pointers is an
  argument of `rac_advance`, so that a callback may be any state transformer.
  `rac_advance` returns the callback invocations it made next to the state.
* `none` stands for a run that does not return normally: a failed `assert`,
  a dereference of `NULL` or of a freed object, an access that runs over the
  end of the `old`/`emit` fields, a store past the end of a registry block
  (in the functions that enforce the size of the block), or an exhausted loop
  budget.
-/

namespace Reactivec

/-! ## Bytes and words -/

/-- The width of `intptr_t` and of `void*` in bytes. -/
def sizeof_intptr : Nat := 8

/-- The byte stored at address `a`. -/
def loadByte (mem : Nat → Nat) (a : Nat) : Nat := mem a % 256

/-- The `n` bytes stored from address `a` on. -/
def loadBytes (mem : Nat → Nat) (a n : Nat) : List Nat :=
  (List.range n).map fun i => loadByte mem (a + i)

/-- Byte `i` of the object representation of the integer `w` (little-endian). -/
def wordByte (w i : Nat) : Nat := w / 256 ^ i % 256

/-- The first `n` bytes of the object representation of the integer `w`. -/
def wordBytes (n w : Nat) : List Nat :=
  (List.range n).map (wordByte w)

/-- The integer whose little-endian representation is the given bytes. -/
def bytesWord : List Nat → Nat
  | [] => 0
  | b :: bs => b % 256 + 256 * bytesWord bs

/-- The pointer-sized word stored at address `a`: `*(void**)a`. -/
def loadWord (mem : Nat → Nat) (a : Nat) : Nat :=
  bytesWord (loadBytes mem a sizeof_intptr)

/-- Modelled from the C library: `memcmp` on two byte strings of the same
length is the difference of the first pair of bytes that differ, and 0 when
there is none. -/
def memcmp : List Nat → List Nat → Int
  | a :: as, b :: bs => if a = b then memcmp as bs else (a : Int) - (b : Int)
  | _, _ => 0

/-! ## Signals -/

/-- A value of `signal->current`. -/
inductive Ptr where
  /-- A numeric address in caller-owned storage; `addr 0` is `NULL`. -/
  | addr (a : Nat)
  /-- The address `&signal->emit` of the signal holding the pointer. -/
  | emit
  deriving DecidableEq, Repr

/-- The C truth value of a pointer: `!p` holds exactly for `NULL`. -/
def Ptr.isNull : Ptr → Bool
  | .addr 0 => true
  | _ => false

/-- The `struct rac_signal` of the source. -/
structure rac_signal where
  current : Ptr
  old : Nat
  emit : Nat
  size : Nat
  deriving DecidableEq, Repr

/-- Byte `i` of the storage `signal->current` points to. -/
def rac_signal.currentByte (mem : Nat → Nat) (signal : rac_signal) (i : Nat) : Nat :=
  match signal.current with
  | .addr a => loadByte mem (a + i)
  | .emit => wordByte signal.emit i

/-- The `n` bytes found at `signal->current`. -/
def rac_signal.currentBytes (mem : Nat → Nat) (signal : rac_signal) (n : Nat) : List Nat :=
  (List.range n).map (signal.currentByte mem)

/-- The pointer-sized word found at `signal->current`:
`(intptr_t)*(void**)signal->current`. -/
def rac_signal.currentWord (mem : Nat → Nat) (signal : rac_signal) : Nat :=
  bytesWord (signal.currentBytes mem sizeof_intptr)

/-- The value of `signal->old` after `memcpy(&signal->old, src, n)`: the first
`n` bytes are replaced, the remaining bytes of the field are kept. -/
def memcpy_old (old : Nat) (src : List Nat) (n : Nat) : Nat :=
  bytesWord (src.take n ++ (wordBytes sizeof_intptr old).drop n)

/-- The function `rac_signal_reset`.  A size above `sizeof(intptr_t)` makes
`memcpy` run over the end of `signal->old`. -/
def rac_signal_reset (mem : Nat → Nat) (signal : rac_signal) : Option rac_signal :=
  if signal.current.isNull then
    some { signal with old := 0 }
  else if signal.size ≠ 0 then
    if signal.size ≤ sizeof_intptr then
      some { signal with
        old := memcpy_old signal.old (signal.currentBytes mem signal.size) signal.size }
    else none
  else
    some { signal with old := signal.currentWord mem }

/-- The function `rac_signal_should_emit`.  A size above `sizeof(intptr_t)`
makes `memcmp` run over the end of `signal->old`. -/
def rac_signal_should_emit (mem : Nat → Nat) (signal : rac_signal) : Option Bool :=
  if signal.current.isNull then
    some (decide (signal.old ≠ 0))
  else if signal.size ≠ 0 then
    if signal.size ≤ sizeof_intptr then
      some (decide (memcmp (signal.currentBytes mem signal.size)
        (wordBytes signal.size signal.old) ≠ 0))
    else none
  else
    some (decide (signal.currentWord mem ≠ signal.old))

/-- The function `rac_signal_emit`. -/
def rac_signal_emit (signal : rac_signal) (value size : Nat) : rac_signal :=
  { signal with current := .emit, old := 0, emit := value, size := size }

/-- The function `rac_signal_value`: the pointer handed to the caller. -/
def rac_signal_value (mem : Nat → Nat) (signal : rac_signal) : Ptr :=
  if signal.current.isNull then
    .addr 0
  else if signal.size ≠ 0 then
    signal.current
  else
    .addr (signal.currentWord mem)

/-! ## Registries

A registry stores pointer-sized words.  The block behind `array->ptr` is
modelled by the words it holds, indexed by slot, together with the size in
bytes that was requested from the allocator.  In this section slot accesses
are not checked against that size: a slot outside the block reads as whatever
word the model holds there, so the bounds of an access are a separate
statement about the indices the code uses.  The section "Registries, with the
size of the block enforced" further down has the same functions with the size
taken into the run. -/

/-- The block `array->ptr` points to. -/
structure rac_block where
  /-- The size in bytes last requested from the allocator for this block. -/
  bytes : Nat
  /-- The word `ptr[i]`. -/
  slot : Nat → Nat

/-- The `struct rac_array` of the source; `ptr = none` is `NULL`. -/
structure rac_array where
  ptr : Option rac_block
  items : Nat
  allocated : Nat

/-- Subtraction of `size_t` values, modulo `2 ^ 64`. -/
def size_t_sub (a b : Nat) : Nat := (a + 2 ^ 64 - b) % 2 ^ 64

/-- Modelled from the C library: `realloc(ptr, size)`.  The flag `ok` tells
whether the allocator grants the request; a granted request yields a block of
the requested size that holds the words of the old block, a refused one
yields `NULL` and leaves the old block alone.  The words are kept whatever the
two sizes are; `realloc_checked` keeps only those inside both blocks. -/
def realloc (ok : Bool) (ptr : Option rac_block) (size : Nat) : Option rac_block :=
  if ok then
    some { bytes := size, slot := fun i => match ptr with
                                          | some b => b.slot i
                                          | none => 0 }
  else none

/-- Modelled from the C library: `memmove(&ptr[dst], &ptr[src], bytes)` inside
one block, in whole words; the source words are read before any is written. -/
def memmove (slot : Nat → Nat) (dst src bytes : Nat) : Nat → Nat :=
  fun j => if dst ≤ j ∧ j < dst + bytes / sizeof_intptr then slot (src + (j - dst)) else slot j

/-- The byte size `rac_array_grow` passes to `realloc`. -/
def rac_array_grow_size (array : rac_array) : Nat :=
  array.allocated + 32 * sizeof_intptr

/-- The function `rac_array_grow`, with the flag it returns. -/
def rac_array_grow (ok : Bool) (array : rac_array) : Bool × rac_array :=
  match realloc ok array.ptr (rac_array_grow_size array) with
  | none => (false, array)
  | some tmp => (true, { array with ptr := some tmp, allocated := array.allocated + 32 })

/-- The byte size `rac_array_shrink` passes to `realloc`. -/
def rac_array_shrink_size (array : rac_array) : Nat :=
  size_t_sub array.allocated (32 * sizeof_intptr)

/-- The function `rac_array_shrink`, with the flag it returns. -/
def rac_array_shrink (ok : Bool) (array : rac_array) : Option (Bool × rac_array) :=
  if array.items ≤ size_t_sub array.allocated 32 then
    match realloc ok array.ptr (rac_array_shrink_size array) with
    | none => some (false, array)
    | some tmp =>
      some (true, { array with ptr := some tmp, allocated := size_t_sub array.allocated 32 })
  else none

/-- The function `rac_array_flush`. -/
def rac_array_flush (_array : rac_array) : rac_array :=
  { ptr := none, items := 0, allocated := 0 }

/-- The function `rac_array_iter`: the item returned (`0` is `NULL`) and the
cursor after the call. -/
def rac_array_iter (array : rac_array) (iter : Nat) : Option (Nat × Nat) :=
  if iter ≥ array.items then some (0, iter)
  else
    match array.ptr with
    | none => none
    | some b => some (b.slot iter, iter + 1)

/-- The statement `array->ptr[array->items++] = item`, with no look at the
size of the block; `rac_array_store_checked` is the store that has to land
inside the block. -/
def rac_array_store (array : rac_array) (item : Nat) : Option rac_array :=
  match array.ptr with
  | none => none
  | some b =>
    some { array with
      ptr := some { b with slot := fun j => if j = array.items then item else b.slot j }
      items := array.items + 1 }

/-- The function `rac_array_add`: the pointer returned (`0` is `NULL`) and the
registry after the call. -/
def rac_array_add (ok : Bool) (array : rac_array) (item : Nat) : Option (Nat × rac_array) :=
  if item = 0 then none
  else if array.allocated ≤ array.items then
    match rac_array_grow ok array with
    | (false, _) => some (0, array)
    | (true, grown) => (rac_array_store grown item).map fun a => (item, a)
  else (rac_array_store array item).map fun a => (item, a)

/-- The scan of `rac_array_remove`: `some none` when the loop ends without a
match, `some (some iter)` when it stops at a match with the cursor at `iter`
(one past the match). -/
def rac_array_remove_scan (array : rac_array) (item : Nat) : Nat → Nat → Option (Option Nat)
  | 0, _ => none
  | fuel + 1, iter =>
    match rac_array_iter array iter with
    | none => none
    | some (current, iter1) =>
      if current = 0 then some none
      else if current ≠ item then rac_array_remove_scan array item fuel iter1
      else some (some iter1)

/-- The byte count of the `memmove` in `rac_array_remove`. -/
def rac_array_remove_count (array : rac_array) (iter : Nat) : Nat :=
  (array.items - (iter - 1)) * sizeof_intptr

/-- The body of the loop of `rac_array_remove` at a match. -/
def rac_array_remove_at (array : rac_array) (iter : Nat) : rac_array :=
  let moved : rac_array :=
    if iter < array.items then
      { array with ptr := array.ptr.map fun b =>
          { b with slot := memmove b.slot (iter - 1) iter (rac_array_remove_count array iter) } }
    else array
  if moved.items > 0 then { moved with items := moved.items - 1 } else moved

/-- The end of `rac_array_remove`, after the loop: flush an empty registry,
shrink one that got a block too large. -/
def rac_array_remove_tail (ok : Bool) (array : rac_array) : Option rac_array :=
  if array.items = 0 then some (rac_array_flush array)
  else if array.items < size_t_sub array.allocated 32 then
    (rac_array_shrink ok array).map Prod.snd
  else some array

/-- The function `rac_array_remove`.  The loop visits each slot at most once,
so a budget of `items + 1` iterations is never exhausted. -/
def rac_array_remove (ok : Bool) (array : rac_array) (item : Nat) : Option rac_array :=
  if item = 0 then none
  else
    match rac_array_remove_scan array item (array.items + 1) 0 with
    | none => none
    | some none => rac_array_remove_tail ok array
    | some (some iter) => rac_array_remove_tail ok (rac_array_remove_at array iter)

/-- The logical content of a registry: the slots `0 .. items - 1`. -/
def rac_array.content (array : rac_array) : List Nat :=
  match array.ptr with
  | none => []
  | some b => (List.range array.items).map b.slot

/-- The empty registry `{ NULL, 0, 0 }`. -/
def rac_array.empty : rac_array := { ptr := none, items := 0, allocated := 0 }

/-- The registries reachable from the empty one by `rac_array_add` and
`rac_array_remove`, whatever the allocator answers. -/
inductive rac_array.Reachable : rac_array → Prop where
  | empty : rac_array.Reachable rac_array.empty
  | add (ok : Bool) (array : rac_array) (item ret : Nat) (array1 : rac_array) :
      rac_array.Reachable array → rac_array_add ok array item = some (ret, array1) →
      rac_array.Reachable array1
  | remove (ok : Bool) (array : rac_array) (item : Nat) (array1 : rac_array) :
      rac_array.Reachable array → rac_array_remove ok array item = some array1 →
      rac_array.Reachable array1

/-! ## The engine -/

/-- The `struct rac_bind` of the source: a function pointer and a signal
pointer (`0` is `NULL`). -/
structure rac_bind where
  function : Nat
  signal : Nat
  deriving DecidableEq, Repr

/-- The `struct rac_machine` of the source. -/
structure rac_machine where
  binds : rac_array
  signals : rac_array

/-- What the callbacks of the demo print. -/
inductive Output where
  /-- The line of `xchanged`, with its `%d` argument. -/
  | x_changed (d : Int)
  /-- The line of `ychanged`, with the pointer given for `%s`. -/
  | y_changed (p : Ptr)
  /-- The line of `side_effect`, with the pointer given for `%s`. -/
  | error (p : Ptr)
  deriving DecidableEq, Repr

/-- The state of the process: the global `rac_machine`, the heap objects made
by `calloc` (by address), the caller-owned storage and the standard output. -/
structure State where
  rac_machine : rac_machine
  signalAt : Nat → Option rac_signal
  bindAt : Nat → Option rac_bind
  mem : Nat → Nat
  stdout : List Output

/-- The code behind the function pointers: the function pointer and the
signal pointer it is called with give a state transformer. -/
abbrev Code := Nat → Nat → State → Option State

/-- The initial state: both registries are `{ NULL, 0, 0 }`. -/
def State.init (mem : Nat → Nat) : State :=
  { rac_machine := { binds := rac_array.empty, signals := rac_array.empty }
    signalAt := fun _ => none
    bindAt := fun _ => none
    mem := mem
    stdout := [] }

/-- The function `rac_signal_add`.  `p` is the pointer `calloc` returns
(`0` when it fails), `ok` the answer of the allocator to a growth request. -/
def rac_signal_add (p : Nat) (ok : Bool) (ptr : Ptr) (value size : Nat) (s : State) :
    Option (Nat × State) :=
  if p = 0 then some (0, s)
  else
    let signal : rac_signal := { current := ptr, old := value, emit := 0, size := size }
    (rac_array_add ok s.rac_machine.signals p).map fun r =>
      (r.1, { s with
        signalAt := fun q => if q = p then some signal else s.signalAt q
        rac_machine := { s.rac_machine with signals := r.2 } })

/-- The function `rac_signal_remove`. -/
def rac_signal_remove (ok : Bool) (signal : Nat) (s : State) : Option State :=
  if signal = 0 then none
  else
    match rac_array_remove ok s.rac_machine.signals signal, s.signalAt signal with
    | some signals, some _ =>
      some { s with
        rac_machine := { s.rac_machine with signals := signals }
        signalAt := fun q => if q = signal then none else s.signalAt q }
    | _, _ => none

/-- The function `rac_signal_emit` on the signal object at address `signal`. -/
def rac_emit_at (signal value size : Nat) (s : State) : Option State :=
  if signal = 0 then none
  else
    (s.signalAt signal).map fun g =>
      { s with signalAt := fun q =>
          if q = signal then some (rac_signal_emit g value size) else s.signalAt q }

/-- The function `rac_bind_call`. -/
def rac_bind_call (code : Code) (bind : Nat) (s : State) : Option State :=
  if bind = 0 then none
  else
    match s.bindAt bind with
    | none => none
    | some b => code b.function b.signal s

/-- The test `rac_signal_should_emit(bind->signal)` of the dispatch loop. -/
def rac_bind_should_emit (bind : Nat) (s : State) : Option Bool :=
  match s.bindAt bind with
  | none => none
  | some b =>
    if b.signal = 0 then none
    else
      match s.signalAt b.signal with
      | none => none
      | some g => rac_signal_should_emit s.mem g

/-- One callback invocation made by `rac_advance`: the binding it goes
through and the state in which the callback starts. -/
structure Call where
  bind : Nat
  pre : State

/-- The first loop of `rac_advance`, from cursor `iter` on: the invocations it
makes, in order, and the state it ends in.  Callbacks may change the binding
registry, so the loop runs on a budget of iterations. -/
def rac_advance_dispatch (code : Code) : Nat → Nat → State → Option (List Call × State)
  | 0, _, _ => none
  | fuel + 1, iter, s =>
    match rac_array_iter s.rac_machine.binds iter with
    | none => none
    | some (bind, iter1) =>
      if bind = 0 then some ([], s)
      else
        match rac_bind_should_emit bind s with
        | none => none
        | some false => rac_advance_dispatch code fuel iter1 s
        | some true =>
          match rac_bind_call code bind s with
          | none => none
          | some s1 =>
            (rac_advance_dispatch code fuel iter1 s1).map fun r =>
              ({ bind := bind, pre := s } :: r.1, r.2)

/-- The call `rac_signal_reset(signal)` on the signal object at address
`signal`. -/
def rac_reset_at (signal : Nat) (s : State) : Option State :=
  if signal = 0 then none
  else
    match s.signalAt signal with
    | none => none
    | some g =>
      (rac_signal_reset s.mem g).map fun g1 =>
        { s with signalAt := fun q => if q = signal then some g1 else s.signalAt q }

/-- The second loop of `rac_advance`, from cursor `iter` on. -/
def rac_advance_reset : Nat → Nat → State → Option State
  | 0, _, _ => none
  | fuel + 1, iter, s =>
    match rac_array_iter s.rac_machine.signals iter with
    | none => none
    | some (signal, iter1) =>
      if signal = 0 then some s
      else
        match rac_reset_at signal s with
        | none => none
        | some s1 => rac_advance_reset fuel iter1 s1

/-- The function `rac_advance`: the callback invocations it makes and the
state it returns in.  `fuel` bounds the iterations of the dispatch loop; the
reset loop leaves the registry alone and needs `items + 1` iterations. -/
def rac_advance (code : Code) (fuel : Nat) (s : State) : Option (List Call × State) :=
  match rac_advance_dispatch code fuel 0 s with
  | none => none
  | some (calls, s1) =>
    (rac_advance_reset (s1.rac_machine.signals.items + 1) 0 s1).map fun s2 => (calls, s2)

/-- The function `rac_call_on_signal`.  `p` is the pointer `calloc` returns
(`0` when it fails), `ok` the answer of the allocator to a growth request. -/
def rac_call_on_signal (p : Nat) (ok : Bool) (function signal : Nat) (s : State) :
    Option (Nat × State) :=
  if p = 0 then some (0, s)
  else
    (rac_array_add ok s.rac_machine.binds p).map fun r =>
      (r.1, { s with
        bindAt := fun q => if q = p then some { function := function, signal := signal }
                           else s.bindAt q
        rac_machine := { s.rac_machine with binds := r.2 } })

/-- The function `rac_bind_remove`. -/
def rac_bind_remove (ok : Bool) (bind : Nat) (s : State) : Option State :=
  if bind = 0 then none
  else
    match rac_array_remove ok s.rac_machine.binds bind, s.bindAt bind with
    | some binds, some _ =>
      some { s with
        rac_machine := { s.rac_machine with binds := binds }
        bindAt := fun q => if q = bind then none else s.bindAt q }
    | _, _ => none

/-! ## The demo -/

/-- The width of `int` in bytes. -/
def sizeof_int : Nat := 4

/-- The `int` stored in four bytes (two's complement). -/
def bytesInt (bytes : List Nat) : Int :=
  if bytesWord bytes < 2 ^ 31 then (bytesWord bytes : Int) else (bytesWord bytes : Int) - 2 ^ 32

/-- The conversion of an `int` to `intptr_t`, as a 64-bit pattern. -/
def intptr_of_int (x : Int) : Nat := (x % 2 ^ 64).toNat

/-- The caller-owned storage after the assignment `x = v` to the `int` at
address `a`. -/
def storeInt (mem : Nat → Nat) (a : Nat) (v : Int) : Nat → Nat :=
  fun q => if a ≤ q ∧ q < a + sizeof_int then wordByte (v % 2 ^ 32).toNat (q - a) else mem q

/-- The `int` at address `a`. -/
def loadInt (mem : Nat → Nat) (a : Nat) : Int :=
  bytesInt (loadBytes mem a sizeof_int)

/-- The read `*(int*)p` of a pointer obtained from `rac_signal_value(signal)`. -/
def derefInt (mem : Nat → Nat) (signal : rac_signal) (p : Ptr) : Option Int :=
  match p with
  | .addr 0 => none
  | .addr a => some (loadInt mem a)
  | .emit => some (bytesInt (wordBytes sizeof_int signal.emit))

/-- The callback `xchanged` of the demo. -/
def xchanged (signal : Nat) (s : State) : Option State :=
  if signal = 0 then none
  else
    match s.signalAt signal with
    | none => none
    | some g =>
      (derefInt s.mem g (rac_signal_value s.mem g)).map fun d =>
        { s with stdout := s.stdout ++ [Output.x_changed d] }

/-- The call `rac_observe(x)` for an `int x` at address `a`, which stands for
`rac_signal_add(&x, x, sizeof(x))`. -/
def rac_observe_int (p : Nat) (ok : Bool) (a : Nat) (s : State) : Option (Nat × State) :=
  rac_signal_add p ok (.addr a) (intptr_of_int (loadInt s.mem a)) sizeof_int s

/-- The registries the scan of `rac_array_remove` and the loops of
`rac_advance` walk through to the end: a registry with items has a block, and
no stored item is `NULL`. -/
def rac_array.Valid (array : rac_array) : Prop :=
  (array.ptr = none → array.items = 0) ∧
  ∀ b, array.ptr = some b → ∀ i < array.items, b.slot i ≠ 0

/-! ## States the loops of `rac_advance` run through -/

/-- The signal pointer `p` is not `NULL`, points to a live signal object, and
the size of that signal stays inside `signal->old`. -/
def State.SignalOk (s : State) (p : Nat) : Prop :=
  p ≠ 0 ∧ ∃ g, s.signalAt p = some g ∧ (g.current.isNull = true ∨ g.size ≤ sizeof_intptr)

/-- The binding pointer `p` points to a live binding object on such a signal. -/
def State.BindOk (s : State) (p : Nat) : Prop :=
  ∃ b, s.bindAt p = some b ∧ s.SignalOk b.signal

/-- Both registries are valid and hold pointers to live objects. -/
def State.Valid (s : State) : Prop :=
  s.rac_machine.binds.Valid ∧ s.rac_machine.signals.Valid ∧
  (∀ p ∈ s.rac_machine.binds.content, s.BindOk p) ∧
  (∀ p ∈ s.rac_machine.signals.content, s.SignalOk p)

/-- The callbacks of the registered bindings that are due in `s` return and
write to the standard output only: they modify neither the signals, nor the
watched storage, nor the registries. -/
def Code.InertOn (code : Code) (s : State) : Prop :=
  ∀ p ∈ s.rac_machine.binds.content, rac_bind_should_emit p s = some true →
    ∀ b, s.bindAt p = some b →
      ∀ out, ∃ out1, code b.function b.signal { s with stdout := out }
        = some { s with stdout := out1 }

/-- The bindings that are due in `s`: those of the registry, in registry
order, whose signal satisfies `rac_signal_should_emit`. -/
def State.due (s : State) : List Nat :=
  s.rac_machine.binds.content.filter fun p => rac_bind_should_emit p s = some true

/-- Two signal objects that differ in the baseline `old` at most. -/
def rac_signal.SameShape (g g1 : rac_signal) : Prop :=
  g1.current = g.current ∧ g1.emit = g.emit ∧ g1.size = g.size

/-- Two states with the same live signal objects, up to their baselines. -/
def State.SameShape (s s1 : State) : Prop :=
  ∀ p, (s.signalAt p = none ∧ s1.signalAt p = none) ∨
    ∃ g g1, s.signalAt p = some g ∧ s1.signalAt p = some g1 ∧ g.SameShape g1

/-- The callback `ychanged` of the demo. -/
def ychanged (signal : Nat) (s : State) : Option State :=
  if signal = 0 then none
  else
    match s.signalAt signal with
    | none => none
    | some g => some { s with stdout := s.stdout ++ [Output.y_changed (rac_signal_value s.mem g)] }

/-- The code of the demo: function pointer 1 is `xchanged`, function pointer 2
is `ychanged`; a call through any other function pointer does not return. -/
def demo_code : Code := fun f signal s =>
  if f = 1 then xchanged signal s
  else if f = 2 then ychanged signal s
  else none

/-- The binding `p` watches the signal `t`. -/
def State.watches (s : State) (t p : Nat) : Bool :=
  decide ((s.bindAt p).map rac_bind.signal = some t)

/-- The scenario of `main` on `x`, with `a` for 5 and `b` for 35: `int x = a`
at address 1000, `bind1 = rac_call_on_signal(xchanged, rac_observe(x))`, the
check of the signal, `x = b`, and two calls of `rac_advance`.  The result is
the answer of the check, the bindings invoked by the first `rac_advance` and
the output after it, and the same for the second `rac_advance`; `calloc`
returns the addresses 16 and 48. -/
def observe_scenario (a b : Int) :
    Option (Bool × List Nat × List Output × List Nat × List Output) :=
  match rac_observe_int 16 true 1000 (State.init (storeInt (fun _ => 0) 1000 a)) with
  | none => none
  | some (signal, s1) =>
    match rac_call_on_signal 48 true 1 signal s1 with
    | none => none
    | some (bind1, s2) =>
      match rac_bind_should_emit bind1 s2 with
      | none => none
      | some e =>
        match rac_advance demo_code 2 { s2 with mem := storeInt s2.mem 1000 b } with
        | none => none
        | some (calls1, s4) =>
          match rac_advance demo_code 2 s4 with
          | none => none
          | some (calls2, s5) =>
            some (e, calls1.map Call.bind, s4.stdout, calls2.map Call.bind, s5.stdout)

/-- The state of the scenario of `main` on `x` once the signal and the binding
are registered: the signal object at address 16 watches the `int` at address
1000 with baseline `old`, the binding object at address 48 calls `xchanged`. -/
def observe_state (mem : Nat → Nat) (old : Nat) (out : List Output) : State :=
  { rac_machine :=
      { binds := { ptr := some { bytes := 32 * sizeof_intptr,
                                 slot := fun j => if j = 0 then 48 else 0 }
                   items := 1, allocated := 32 }
        signals := { ptr := some { bytes := 32 * sizeof_intptr,
                                   slot := fun j => if j = 0 then 16 else 0 }
                     items := 1, allocated := 32 } }
    signalAt := fun q =>
      if q = 16 then
        some { current := .addr 1000, old := old, emit := 0, size := sizeof_int }
      else none
    bindAt := fun q => if q = 48 then some { function := 1, signal := 16 } else none
    mem := mem
    stdout := out }

/-! ## Traversals and bounds of a registry -/

/-- The loop `for (size_t iter = 0; (item = rac_array_iter(array, &iter));)`
of the source with an empty body, from cursor `iter` on: the items it yields,
in order, and the number of calls of `rac_array_iter` it makes. -/
def rac_array_traverse (array : rac_array) : Nat → Nat → Option (List Nat × Nat)
  | 0, _ => none
  | fuel + 1, iter =>
    match rac_array_iter array iter with
    | none => none
    | some (item, iter1) =>
      if item = 0 then some ([], 1)
      else (rac_array_traverse array fuel iter1).map fun r => (item :: r.1, r.2 + 1)

/-- The registries reachable from the empty one by `rac_array_add`,
`rac_array_remove` and `rac_array_flush`, whatever the allocator answers. -/
inductive rac_array.ReachableF : rac_array → Prop where
  | empty : rac_array.ReachableF rac_array.empty
  | add (ok : Bool) (array : rac_array) (item ret : Nat) (array1 : rac_array) :
      rac_array.ReachableF array → rac_array_add ok array item = some (ret, array1) →
      rac_array.ReachableF array1
  | remove (ok : Bool) (array : rac_array) (item : Nat) (array1 : rac_array) :
      rac_array.ReachableF array → rac_array_remove ok array item = some array1 →
      rac_array.ReachableF array1
  | flush (array : rac_array) :
      rac_array.ReachableF array → rac_array.ReachableF (rac_array_flush array)

/-- The registry after the items of a list were added one after the other,
the allocator granting every request. -/
def rac_array_add_all (array : rac_array) : List Nat → Option rac_array
  | [] => some array
  | item :: items =>
    match rac_array_add true array item with
    | none => none
    | some (_, array1) => rac_array_add_all array1 items

/-- Slot `j` lies inside the block: its last byte is below the size requested
from the allocator. -/
def rac_block.holds (b : rac_block) (j : Nat) : Prop :=
  (j + 1) * sizeof_intptr ≤ b.bytes

/-- Modelled from the C library: the slots `memmove(dst, &ptr[src], bytes)`
reads, in whole words. -/
def memmove_reads (src bytes : Nat) : List Nat :=
  List.range' src (bytes / sizeof_intptr)

/-! ## Callbacks that emit -/

/-- The largest size an object can have, `PTRDIFF_MAX` of `<stdint.h>`. -/
def PTRDIFF_MAX : Nat := 2 ^ 63 - 1

/-- Modelled from the C library: `realloc(ptr, size)` with the contents it
guarantees.  The flag `ok` tells whether the allocator has the memory; a
request above `PTRDIFF_MAX` is refused whatever the flag.  A granted request
yields a block of `size` bytes that holds the words of the old block up to the
lesser of the old and the new size; the bytes past the old size are
indeterminate in C and read as 0 here.  A refused request yields `NULL` and
leaves the old block alone. -/
def realloc_checked (ok : Bool) (ptr : Option rac_block) (size : Nat) : Option rac_block :=
  if ok = true ∧ size ≤ PTRDIFF_MAX then
    some { bytes := size
           slot := fun i => match ptr with
                            | some b =>
                              if (i + 1) * sizeof_intptr ≤ b.bytes ∧ (i + 1) * sizeof_intptr ≤ size
                              then b.slot i else 0
                            | none => 0 }
  else none

/-- The function `rac_array_grow` over `realloc_checked`. -/
def rac_array_grow_checked (ok : Bool) (array : rac_array) : Bool × rac_array :=
  match realloc_checked ok array.ptr (rac_array_grow_size array) with
  | none => (false, array)
  | some tmp => (true, { array with ptr := some tmp, allocated := array.allocated + 32 })

/-- The function `rac_array_shrink` over `realloc_checked`. -/
def rac_array_shrink_checked (ok : Bool) (array : rac_array) : Option (Bool × rac_array) :=
  if array.items ≤ size_t_sub array.allocated 32 then
    match realloc_checked ok array.ptr (rac_array_shrink_size array) with
    | none => some (false, array)
    | some tmp =>
      some (true, { array with ptr := some tmp, allocated := size_t_sub array.allocated 32 })
  else none

/-- The statement `array->ptr[array->items++] = item`, defined when the slot
of index `items` lies inside the block. -/
def rac_array_store_checked (array : rac_array) (item : Nat) : Option rac_array :=
  match array.ptr with
  | none => none
  | some b =>
    if (array.items + 1) * sizeof_intptr ≤ b.bytes then
      some { array with
        ptr := some { b with slot := fun j => if j = array.items then item else b.slot j }
        items := array.items + 1 }
    else none

/-- The function `rac_array_add` over `rac_array_grow_checked` and
`rac_array_store_checked`. -/
def rac_array_add_checked (ok : Bool) (array : rac_array) (item : Nat) :
    Option (Nat × rac_array) :=
  if item = 0 then none
  else if array.allocated ≤ array.items then
    match rac_array_grow_checked ok array with
    | (false, _) => some (0, array)
    | (true, grown) => (rac_array_store_checked grown item).map fun a => (item, a)
  else (rac_array_store_checked array item).map fun a => (item, a)

/-- The end of `rac_array_remove` over `rac_array_shrink_checked`. -/
def rac_array_remove_tail_checked (ok : Bool) (array : rac_array) : Option rac_array :=
  if array.items = 0 then some (rac_array_flush array)
  else if array.items < size_t_sub array.allocated 32 then
    (rac_array_shrink_checked ok array).map Prod.snd
  else some array

/-- The function `rac_array_remove` over `rac_array_remove_tail_checked`. -/
def rac_array_remove_checked (ok : Bool) (array : rac_array) (item : Nat) : Option rac_array :=
  if item = 0 then none
  else
    match rac_array_remove_scan array item (array.items + 1) 0 with
    | none => none
    | some none => rac_array_remove_tail_checked ok array
    | some (some iter) => rac_array_remove_tail_checked ok (rac_array_remove_at array iter)

/-- The registries the program can build: those reachable from the empty one
by `rac_array_add` and `rac_array_remove` with the size of the block enforced,
whatever the allocator answers. -/
inductive rac_array.ReachableChecked : rac_array → Prop where
  | empty : rac_array.ReachableChecked rac_array.empty
  | add (ok : Bool) (array : rac_array) (item ret : Nat) (array1 : rac_array) :
      rac_array.ReachableChecked array →
      rac_array_add_checked ok array item = some (ret, array1) →
      rac_array.ReachableChecked array1
  | remove (ok : Bool) (array : rac_array) (item : Nat) (array1 : rac_array) :
      rac_array.ReachableChecked array →
      rac_array_remove_checked ok array item = some array1 →
      rac_array.ReachableChecked array1

/-- The registry after the items of a list were added one after the other
with the size of the block enforced, the allocator granting every request. -/
def rac_array_add_all_checked (array : rac_array) : List Nat → Option rac_array
  | [] => some array
  | item :: items =>
    match rac_array_add_checked true array item with
    | none => none
    | some (_, array1) => rac_array_add_all_checked array1 items

/-- The registry after the items of a list were removed one after the other
with the size of the block enforced, the allocator granting what it can. -/
def rac_array_remove_all_checked (array : rac_array) : List Nat → Option rac_array
  | [] => some array
  | item :: items =>
    match rac_array_remove_checked true array item with
    | none => none
    | some array1 => rac_array_remove_all_checked array1 items

/-- What the enforced runs keep true of a registry: it is empty with no
block, or it holds items in a first block of 256 bytes with capacity 32, or in
a block of 288 bytes with capacity 64; the items lie inside the block and none
is `NULL`. -/
def rac_array.InBlock (array : rac_array) : Prop :=
  (array.ptr = none ∧ array.items = 0 ∧ array.allocated = 0) ∨
  ∃ b, array.ptr = some b ∧ 0 < array.items ∧
    array.items * sizeof_intptr ≤ b.bytes ∧
    ((array.allocated = 32 ∧ b.bytes = 256) ∨ (array.allocated = 64 ∧ b.bytes = 288)) ∧
    ∀ i < array.items, b.slot i ≠ 0

/-- Two registries with the same counters, blocks of the same size and the
same stored items. -/
def rac_array.Agree (a a1 : rac_array) : Prop :=
  a1.items = a.items ∧ a1.allocated = a.allocated ∧
  a1.ptr.map rac_block.bytes = a.ptr.map rac_block.bytes ∧
  ∀ b b1, a.ptr = some b → a1.ptr = some b1 → ∀ j < a.items, b1.slot j = b.slot j

/-! ## Concrete inputs -/

/-- The `int` watched by the witness of C1, at address 1000, holding 5. -/
def C1_mem : Nat → Nat := storeInt (fun _ => 0) 1000 5

/-- The signal of the witness of C1: `rac_observe(x)` for that `int`. -/
def C1_signal : rac_signal := { current := .addr 1000, old := 5, emit := 0, size := 4 }

/-- The storage of the witness of C2: the pointer variable `y` at address
2000 holds the address 3000. -/
def C2_mem : Nat → Nat := fun q => if q = 2000 then 184 else if q = 2001 then 11 else 0

/-- The signal of the witness of C2: `rac_observep(y)`. -/
def C2_signal : rac_signal := { current := .addr 2000, old := 3000, emit := 0, size := 0 }

/-- A registry holding the given items in its first block of 32 slots. -/
def rac_array.ofList (l : List Nat) : rac_array :=
  { ptr := some { bytes := 32 * sizeof_intptr, slot := fun j => l.getD j 0 }
    items := l.length
    allocated := 32 }

/-- The storage of `main` before the loop: the `int x` at address 1000 holds
5, the pointer `y` at address 2000 holds the address 3000 of a string. -/
def main_mem : Nat → Nat :=
  fun q => if q = 1000 then 5 else if q = 2000 then 184 else if q = 2001 then 11 else 0

/-- The state of `main` before the loop, with the objects at the addresses
16 (`input_signal`), 32 (`exception_signal`), 48 (the signal on `x`),
64 (`bind1`), 80 (the signal on `y`) and 96 (`bind2`). -/
def main_state : State :=
  { rac_machine := { binds := rac_array.ofList [64, 96]
                     signals := rac_array.ofList [16, 32, 48, 80] }
    signalAt := fun q =>
      if q = 16 then some { current := .addr 0, old := 0, emit := 0, size := 0 }
      else if q = 32 then some { current := .addr 0, old := 0, emit := 0, size := 0 }
      else if q = 48 then some { current := .addr 1000, old := 5, emit := 0, size := 4 }
      else if q = 80 then some { current := .addr 2000, old := 3000, emit := 0, size := 0 }
      else none
    bindAt := fun q =>
      if q = 64 then some { function := 1, signal := 48 }
      else if q = 96 then some { function := 2, signal := 80 }
      else none
    mem := main_mem
    stdout := [] }

/-- The state of the witness of C6: as in `main`, with a third binding, at
address 112, that calls `ychanged` on the signal on `x`, and `x` set to 35. -/
def C6_state : State :=
  { main_state with
    rac_machine := { main_state.rac_machine with binds := rac_array.ofList [64, 96, 112] }
    bindAt := fun q =>
      if q = 112 then some { function := 2, signal := 48 } else main_state.bindAt q
    mem := storeInt main_mem 1000 35 }

/-- The state of the witness of C4: a pure-event signal at address 16 and a
binding at address 64 that calls `ychanged` on it. -/
def C4_state : State :=
  { rac_machine := { binds := rac_array.ofList [64], signals := rac_array.ofList [16] }
    signalAt := fun q =>
      if q = 16 then some { current := .addr 0, old := 0, emit := 0, size := 0 } else none
    bindAt := fun q => if q = 64 then some { function := 2, signal := 16 } else none
    mem := fun _ => 0
    stdout := [] }

/-- The registry of the witness of C10: the items 5, 6 and 7 were added to the
empty registry. -/
def C10_array : rac_array :=
  { ptr := some { bytes := 256
                  slot := fun j => if j = 2 then 7 else if j = 1 then 6
                                   else if j = 0 then 5 else 0 }
    items := 3
    allocated := 32 }

/-- The registry of the witness of C13: the item 5 was added to the empty
registry. -/
def C13_array : rac_array :=
  { ptr := some { bytes := 256, slot := fun j => if j = 0 then 5 else 0 }
    items := 1
    allocated := 32 }

/-- The registry after the items 1 to 32 were added to the empty registry: it
is full, 32 items in a block of 32 slots. -/
def full_array : Option rac_array :=
  rac_array_add_all rac_array.empty (List.range' 1 32)

/-- The registry after the items 1 to 257 were added to the empty registry
and the item 1 was removed: 256 items in a capacity of 288. -/
def nine_blocks_array : Option rac_array :=
  (rac_array_add_all rac_array.empty (List.range' 1 257)).bind
    fun a => rac_array_remove true a 1

/-- A registry with three items: 5, 6 and 7 were added to the empty
registry. -/
def sample_array : rac_array :=
  { ptr := some { bytes := 256
                  slot := fun j => if j = 2 then 7 else if j = 1 then 6
                                   else if j = 0 then 5 else 0 }
    items := 3
    allocated := 32 }

/-- The registry with 36 items: the items 1 to 36 were added with the size of
the block enforced. -/
def last_slot_array : Option rac_array :=
  rac_array_add_all_checked rac_array.empty (List.range' 1 36)

/-- The registry with a shrink pending: the items 1 to 33 were added, then the
items 1 and 2 were removed, with the size of the block enforced; 31 items are
left in a capacity of 64. -/
def pending_shrink_array : Option rac_array :=
  (rac_array_add_all_checked rac_array.empty (List.range' 1 33)).bind fun a =>
    rac_array_remove_all_checked a [1, 2]

/-! ## Bytes and words: lemmas -/

theorem wordByte_lt (w i : Nat) : wordByte w i < 256 := by
  unfold wordByte
  exact Nat.mod_lt _ (by norm_num)

theorem loadByte_lt (mem : Nat → Nat) (a : Nat) : loadByte mem a < 256 := by
  unfold loadByte
  exact Nat.mod_lt _ (by norm_num)

theorem wordByte_succ (w i : Nat) : wordByte w (i + 1) = wordByte (w / 256) i := by
  unfold wordByte
  rw [pow_succ, mul_comm, Nat.div_div_eq_div_mul]

theorem wordBytes_length (n w : Nat) : (wordBytes n w).length = n := by
  simp [wordBytes]

theorem wordBytes_succ (n w : Nat) :
    wordBytes (n + 1) w = w % 256 :: wordBytes n (w / 256) := by
  unfold wordBytes
  rw [List.range_succ_eq_map, List.map_cons, List.map_map]
  congr 1
  · simp [wordByte]
  · apply List.map_congr_left
    intro i _
    simp [wordByte_succ]

theorem bytesWord_wordBytes (n w : Nat) : bytesWord (wordBytes n w) = w % 256 ^ n := by
  induction n generalizing w with
  | zero => simp [wordBytes, bytesWord, Nat.mod_one]
  | succ n ih =>
    rw [wordBytes_succ, bytesWord, ih, Nat.mod_mod, pow_succ', Nat.mod_mul]

theorem wordByte_bytesWord (l : List Nat) (i : Nat) (h : i < l.length) :
    wordByte (bytesWord l) i = l[i] % 256 := by
  induction l generalizing i with
  | nil => simp at h
  | cons b bs ih =>
    cases i with
    | zero =>
      simp [wordByte, bytesWord, Nat.add_mul_mod_self_left]
    | succ i =>
      have hi : i < bs.length := by simpa using h
      rw [wordByte_succ]
      have hdiv : bytesWord (b :: bs) / 256 = bytesWord bs := by
        show (b % 256 + 256 * bytesWord bs) / 256 = bytesWord bs
        omega
      rw [hdiv, ih i hi]
      simp

theorem wordBytes_bytesWord (n : Nat) (l : List Nat) (hn : n ≤ l.length)
    (hb : ∀ b ∈ l, b < 256) : wordBytes n (bytesWord l) = l.take n := by
  apply List.ext_getElem
  · simp [wordBytes, hn]
  · intro i h1 h2
    have hi : i < n := by simpa [wordBytes] using h1
    have hl : i < l.length := by omega
    simp only [wordBytes, List.getElem_map, List.getElem_range, List.getElem_take]
    rw [wordByte_bytesWord l i hl]
    exact Nat.mod_eq_of_lt (hb _ (List.getElem_mem _))

theorem memcmp_eq_zero (as bs : List Nat) (h : as.length = bs.length) :
    memcmp as bs = 0 ↔ as = bs := by
  induction as generalizing bs with
  | nil =>
    cases bs with
    | nil => simp [memcmp]
    | cons b bs => simp at h
  | cons a as ih =>
    cases bs with
    | nil => simp at h
    | cons b bs =>
      have hl : as.length = bs.length := by simpa using h
      by_cases hab : a = b
      · simp [memcmp, hab, ih bs hl]
      · have : (a : Int) - (b : Int) ≠ 0 := by
          intro h0
          apply hab
          omega
        simp [memcmp, hab, this]

theorem currentBytes_length (mem : Nat → Nat) (signal : rac_signal) (n : Nat) :
    (signal.currentBytes mem n).length = n := by
  simp [rac_signal.currentBytes]

theorem currentByte_lt (mem : Nat → Nat) (signal : rac_signal) (i : Nat) :
    signal.currentByte mem i < 256 := by
  unfold rac_signal.currentByte
  cases signal.current with
  | addr a => exact loadByte_lt _ _
  | emit => exact wordByte_lt _ _

theorem currentBytes_lt (mem : Nat → Nat) (signal : rac_signal) (n : Nat) :
    ∀ b ∈ signal.currentBytes mem n, b < 256 := by
  intro b hb
  simp only [rac_signal.currentBytes, List.mem_map] at hb
  obtain ⟨i, _, rfl⟩ := hb
  exact currentByte_lt _ _ _

theorem wordBytes_lt (n w : Nat) : ∀ b ∈ wordBytes n w, b < 256 := by
  intro b hb
  simp only [wordBytes, List.mem_map] at hb
  obtain ⟨i, _, rfl⟩ := hb
  exact wordByte_lt _ _

/-- After `memcpy(&old, src, n)` the first `n` bytes of `old` are `src`. -/
theorem wordBytes_memcpy_old (old : Nat) (src : List Nat) (n : Nat)
    (hl : src.length = n) (hb : ∀ b ∈ src, b < 256) :
    wordBytes n (memcpy_old old src n) = src := by
  unfold memcpy_old
  rw [wordBytes_bytesWord]
  · subst hl
    simp
  · subst hl
    simp
  · intro b hb1
    rcases List.mem_append.mp hb1 with h | h
    · exact hb b (List.mem_of_mem_take h)
    · exact wordBytes_lt _ _ b (List.mem_of_mem_drop h)

theorem currentBytes_eq_iff (mem mem' : Nat → Nat) (s s' : rac_signal) (n : Nat) :
    s'.currentBytes mem' n = s.currentBytes mem n ↔
      ∀ i < n, s'.currentByte mem' i = s.currentByte mem i := by
  unfold rac_signal.currentBytes
  constructor
  · intro h i hi
    have := congrArg (fun l => l[i]?) h
    simpa [hi] using this
  · intro h
    apply List.map_congr_left
    intro i hi
    exact h i (List.mem_range.mp hi)

/-! ## Signals: change detection -/

/-- The sized branch of `rac_signal_should_emit`. -/
theorem should_emit_sized (mem : Nat → Nat) (s : rac_signal)
    (hcur : s.current.isNull = false) (hs : s.size ≠ 0) (h8 : s.size ≤ sizeof_intptr) :
    rac_signal_should_emit mem s =
      some (decide (memcmp (s.currentBytes mem s.size) (wordBytes s.size s.old) ≠ 0)) := by
  simp [rac_signal_should_emit, hcur, hs, h8]

/-- The pointer-identity branch of `rac_signal_should_emit`. -/
theorem should_emit_pointer (mem : Nat → Nat) (s : rac_signal)
    (hcur : s.current.isNull = false) (h0 : s.size = 0) :
    rac_signal_should_emit mem s = some (decide (s.currentWord mem ≠ s.old)) := by
  simp [rac_signal_should_emit, hcur, h0]

/-- What `rac_signal_should_emit` answers for a sized signal right after a
reset made in memory `mem`, when it is asked in memory `mem'`. -/
theorem should_emit_after_reset_sized (mem mem' : Nat → Nat) (signal : rac_signal)
    (hcur : signal.current.isNull = false) (h1 : 1 ≤ signal.size)
    (h8 : signal.size ≤ sizeof_intptr) :
    ∃ s', rac_signal_reset mem signal = some s' ∧
      s'.current = signal.current ∧ s'.emit = signal.emit ∧ s'.size = signal.size ∧
      rac_signal_should_emit mem' s' =
        some (decide (s'.currentBytes mem' signal.size ≠ signal.currentBytes mem signal.size)) := by
  have hs : signal.size ≠ 0 := by omega
  refine ⟨{ signal with
      old := memcpy_old signal.old (signal.currentBytes mem signal.size) signal.size },
    by simp [rac_signal_reset, hcur, hs, h8], rfl, rfl, rfl, ?_⟩
  rw [should_emit_sized mem' { signal with
      old := memcpy_old signal.old (signal.currentBytes mem signal.size) signal.size } hcur hs h8]
  simp only [wordBytes_memcpy_old _ _ _ (currentBytes_length _ _ _) (currentBytes_lt _ _ _)]
  congr 1
  rw [decide_eq_decide, not_iff_not]
  exact memcmp_eq_zero _ _ (by simp [currentBytes_length])

/-- Claim C1.  Dirty check of a sized signal: for a signal with a non-null
current address and a size between 1 and `sizeof(intptr_t)`, `rac_signal_reset`
returns, and the next `rac_signal_should_emit` answers false when each of the
watched bytes is what it was at the reset, and true when one of them differs. -/
theorem C1_dirty_check_sized (mem mem' : Nat → Nat) (signal : rac_signal)
    (hcur : signal.current.isNull = false) (h1 : 1 ≤ signal.size)
    (h8 : signal.size ≤ sizeof_intptr) :
    ∃ s', rac_signal_reset mem signal = some s' ∧
      ((∀ i < signal.size, s'.currentByte mem' i = signal.currentByte mem i) →
        rac_signal_should_emit mem' s' = some false) ∧
      ((∃ i < signal.size, s'.currentByte mem' i ≠ signal.currentByte mem i) →
        rac_signal_should_emit mem' s' = some true) := by
  obtain ⟨s', hr, _, _, _, he⟩ := should_emit_after_reset_sized mem mem' signal hcur h1 h8
  refine ⟨s', hr, ?_, ?_⟩
  · intro h
    rw [he]
    simp [(currentBytes_eq_iff mem mem' signal s' signal.size).mpr h]
  · intro h
    rw [he]
    have : ¬ s'.currentBytes mem' signal.size = signal.currentBytes mem signal.size := by
      rw [currentBytes_eq_iff]
      push_neg
      exact h
    simp [this]

/-- Witness of C1: an `int` at address 1000 is watched, reset at 5 and then
set to 35. -/
theorem C1_dirty_check_sized_witness :
    ∃ s', rac_signal_reset C1_mem C1_signal = some s' ∧
      ((∀ i < C1_signal.size, s'.currentByte (storeInt C1_mem 1000 35) i
          = C1_signal.currentByte C1_mem i) →
        rac_signal_should_emit (storeInt C1_mem 1000 35) s' = some false) ∧
      ((∃ i < C1_signal.size, s'.currentByte (storeInt C1_mem 1000 35) i
          ≠ C1_signal.currentByte C1_mem i) →
        rac_signal_should_emit (storeInt C1_mem 1000 35) s' = some true) :=
  C1_dirty_check_sized C1_mem (storeInt C1_mem 1000 35) C1_signal (by decide) (by decide)
    (by decide)

/-- Claim C2.  Pointer identity: for a signal of size 0 with a non-null
current address, `rac_signal_reset` captures the pointer stored there, and the
next `rac_signal_should_emit` is true exactly when the pointer stored there
differs from the captured one; the answer is the same in any two memories
that agree on the bytes of that pointer, whatever the rest of memory (the
pointee included) holds. -/
theorem C2_pointer_identity (mem mem' : Nat → Nat) (signal : rac_signal)
    (hcur : signal.current.isNull = false) (h0 : signal.size = 0) :
    ∃ s', rac_signal_reset mem signal = some s' ∧
      s'.old = signal.currentWord mem ∧
      rac_signal_should_emit mem' s' =
        some (decide (s'.currentWord mem' ≠ signal.currentWord mem)) ∧
      ∀ mem'' : Nat → Nat,
        (∀ i < sizeof_intptr, s'.currentByte mem'' i = s'.currentByte mem' i) →
        rac_signal_should_emit mem'' s' = rac_signal_should_emit mem' s' := by
  refine ⟨{ signal with old := signal.currentWord mem },
    by simp [rac_signal_reset, hcur, h0], rfl, ?_, ?_⟩
  · rw [should_emit_pointer mem' { signal with old := signal.currentWord mem } hcur h0]
  · intro mem'' h
    have hb := (currentBytes_eq_iff mem' mem''
      { signal with old := signal.currentWord mem }
      { signal with old := signal.currentWord mem } sizeof_intptr).mpr h
    rw [should_emit_pointer mem' { signal with old := signal.currentWord mem } hcur h0,
      should_emit_pointer mem'' { signal with old := signal.currentWord mem } hcur h0]
    have hw : rac_signal.currentWord mem'' { signal with old := signal.currentWord mem }
        = rac_signal.currentWord mem' { signal with old := signal.currentWord mem } :=
      congrArg bytesWord hb
    rw [hw]

/-- Witness of C2: the pointee at address 3000 is overwritten, the pointer is
not. -/
theorem C2_pointer_identity_witness :
    ∃ s', rac_signal_reset C2_mem C2_signal = some s' ∧
      s'.old = C2_signal.currentWord C2_mem ∧
      rac_signal_should_emit (fun q => if q = 3000 then 1 else C2_mem q) s' =
        some (decide (s'.currentWord (fun q => if q = 3000 then 1 else C2_mem q)
          ≠ C2_signal.currentWord C2_mem)) ∧
      ∀ mem'' : Nat → Nat,
        (∀ i < sizeof_intptr, s'.currentByte mem'' i
          = s'.currentByte (fun q => if q = 3000 then 1 else C2_mem q) i) →
        rac_signal_should_emit mem'' s'
          = rac_signal_should_emit (fun q => if q = 3000 then 1 else C2_mem q) s' :=
  C2_pointer_identity C2_mem (fun q => if q = 3000 then 1 else C2_mem q) C2_signal
    (by decide) (by decide)

theorem wordBytes_mod (n w : Nat) : wordBytes n (w % 256 ^ n) = wordBytes n w := by
  rw [← bytesWord_wordBytes n w, wordBytes_bytesWord n _ (by simp [wordBytes_length])
    (wordBytes_lt n w)]
  rw [List.take_of_length_le (by simp [wordBytes_length])]

theorem wordBytes_eq_zero_iff (n w : Nat) : wordBytes n w = wordBytes n 0 ↔ w % 256 ^ n = 0 := by
  constructor
  · intro h
    have := congrArg bytesWord h
    simpa [bytesWord_wordBytes] using this
  · intro h
    rw [← wordBytes_mod n w, h]

theorem currentBytes_emit (mem : Nat → Nat) (signal : rac_signal) (v n k : Nat) :
    (rac_signal_emit signal v n).currentBytes mem k = wordBytes k v := rfl

/-- What `rac_signal_should_emit` answers right after `rac_signal_emit`. -/
theorem should_emit_after_emit (mem : Nat → Nat) (signal : rac_signal) (v n : Nat) :
    (n = 0 → rac_signal_should_emit mem (rac_signal_emit signal v n)
        = some (decide (v % 2 ^ 64 ≠ 0))) ∧
    (1 ≤ n → n ≤ sizeof_intptr → rac_signal_should_emit mem (rac_signal_emit signal v n)
        = some (decide (v % 256 ^ n ≠ 0))) := by
  constructor
  · intro h0
    subst h0
    rw [should_emit_pointer mem (rac_signal_emit signal v 0) rfl rfl]
    unfold rac_signal.currentWord
    rw [currentBytes_emit, bytesWord_wordBytes]
    rfl
  · intro h1 h8
    rw [should_emit_sized mem (rac_signal_emit signal v n) rfl (by show n ≠ 0; omega) h8]
    show some (decide (memcmp ((rac_signal_emit signal v n).currentBytes mem n)
      (wordBytes n 0) ≠ 0)) = _
    rw [currentBytes_emit]
    congr 1
    rw [decide_eq_decide, not_iff_not, memcmp_eq_zero _ _ (by simp [wordBytes_length])]
    exact wordBytes_eq_zero_iff n v

/-- Claim C3, counterexample.  A pure-event signal on which the value 0 is
emitted, as a pointer (`size = 0`) and as an `int` (`size = 4`): right after
the emit `rac_signal_should_emit` answers false. -/
theorem C3_emit_zero_counterexample :
    rac_signal_should_emit (fun _ => 0)
        (rac_signal_emit { current := .addr 0, old := 0, emit := 0, size := 0 } 0 0)
      = some false ∧
    rac_signal_should_emit (fun _ => 0)
        (rac_signal_emit { current := .addr 0, old := 0, emit := 0, size := 0 } 0 4)
      = some false := by
  constructor <;> decide

/-- Claim C3, amended.  For every signal in any prior state and every value
`v`: right after `rac_signal_emit(signal, v, n)`, `rac_signal_should_emit`
returns true exactly when the bytes of `v` it compares with the zeroed baseline
are not all zero: all of `v` when `n = 0`, the `n` low-order bytes of `v` when
`1 ≤ n ≤ sizeof(intptr_t)`. -/
theorem C3_emit_forces_change_amended (mem : Nat → Nat) (signal : rac_signal) (v n : Nat) :
    (n = 0 → rac_signal_should_emit mem (rac_signal_emit signal v n)
        = some (decide (v % 2 ^ 64 ≠ 0))) ∧
    (1 ≤ n → n ≤ sizeof_intptr → rac_signal_should_emit mem (rac_signal_emit signal v n)
        = some (decide (v % 256 ^ n ≠ 0))) :=
  should_emit_after_emit mem signal v n

/-- Witness of C3 (amended): the emit `rac_emit(s, ch)` of the demo, a `char`
of value 121 on a pure-event signal. -/
theorem C3_emit_forces_change_amended_witness :
    rac_signal_should_emit (fun _ => 0)
        (rac_signal_emit { current := .addr 0, old := 0, emit := 0, size := 0 } 121 1)
      = some (decide (121 % 256 ^ 1 ≠ 0)) :=
  (C3_emit_forces_change_amended (fun _ => 0)
    { current := .addr 0, old := 0, emit := 0, size := 0 } 121 1).2 (by decide) (by decide)

/-- The function `rac_signal_reset` writes `old` only. -/
theorem reset_frame (mem : Nat → Nat) (signal s' : rac_signal)
    (h : rac_signal_reset mem signal = some s') :
    s'.current = signal.current ∧ s'.emit = signal.emit ∧ s'.size = signal.size := by
  unfold rac_signal_reset at h
  split_ifs at h <;> simp at h <;> subst h <;> exact ⟨rfl, rfl, rfl⟩

/-- The function `rac_signal_reset` returns unless the size runs over `old`. -/
theorem reset_returns (mem : Nat → Nat) (signal : rac_signal)
    (h : signal.current.isNull = true ∨ signal.size ≤ sizeof_intptr) :
    ∃ s', rac_signal_reset mem signal = some s' := by
  unfold rac_signal_reset
  split_ifs with h1 h2 h3
  · exact ⟨_, rfl⟩
  · exact ⟨_, rfl⟩
  · simp [h1] at h
    exact absurd h h3
  · exact ⟨_, rfl⟩

theorem currentBytes_congr (mem : Nat → Nat) (s s' : rac_signal) (n : Nat)
    (hc : s'.current = s.current) (he : s'.emit = s.emit) :
    s'.currentBytes mem n = s.currentBytes mem n := by
  unfold rac_signal.currentBytes rac_signal.currentByte
  rw [hc, he]

/-- With the watched storage untouched, a signal that was just reset does not
ask to be emitted. -/
theorem should_emit_after_reset (mem : Nat → Nat) (signal s' : rac_signal)
    (h : rac_signal_reset mem signal = some s') :
    rac_signal_should_emit mem s' = some false := by
  obtain ⟨hc, he, hsz⟩ := reset_frame mem signal s' h
  by_cases hnull : signal.current.isNull = true
  · simp [rac_signal_reset, hnull] at h
    subst h
    simp [rac_signal_should_emit, hnull]
  · have hcur : signal.current.isNull = false := by simpa using hnull
    by_cases h0 : signal.size = 0
    · simp [rac_signal_reset, hcur, h0] at h
      subst h
      rw [should_emit_pointer mem
        { current := signal.current, old := signal.currentWord mem, emit := signal.emit,
          size := 0 } hcur rfl]
      have : rac_signal.currentWord mem
          { current := signal.current, old := signal.currentWord mem, emit := signal.emit,
            size := 0 } = signal.currentWord mem :=
        congrArg bytesWord (currentBytes_congr mem signal _ sizeof_intptr rfl rfl)
      simp [this]
    · by_cases h8 : signal.size ≤ sizeof_intptr
      · obtain ⟨t, ht, _, _, _, hte⟩ :=
          should_emit_after_reset_sized mem mem signal hcur (by omega) h8
        rw [h] at ht
        cases ht
        rw [hte, currentBytes_congr mem signal s' signal.size hc he]
        simp
      · simp [rac_signal_reset, hcur, h0, h8] at h

/-- Claim C8, counterexample.  The signal `rac_observe(x)` of an `int` at
address 1000, and a pure-event signal: after `rac_signal_emit` and the next
`rac_signal_reset`, `current` is still the address of the scratch slot and not
what it was before the emit. -/
theorem C8_emit_retarget_counterexample :
    (rac_signal_reset (fun _ => 0)
        (rac_signal_emit { current := .addr 1000, old := 5, emit := 0, size := 4 } 1 4)).map
      (fun s' => decide (s'.current = Ptr.addr 1000)) = some false ∧
    (rac_signal_reset (fun _ => 0)
        (rac_signal_emit { current := .addr 0, old := 0, emit := 0, size := 0 } 1 4)).map
      (fun s' => decide (s'.current = Ptr.addr 0)) = some false := by
  constructor <;> decide

/-- Claim C8, amended.  Emit retargets the signal for good: for every signal,
every value `v` and every size `n ≤ sizeof(intptr_t)`, after `rac_signal_emit`
followed by the next `rac_signal_reset` the current-value pointer still targets
the scratch slot, which still holds `v` with size `n`; the signal stays in the
state holding an emitted value, and no longer asks to be emitted. -/
theorem C8_emit_retarget_amended (mem : Nat → Nat) (signal : rac_signal) (v n : Nat)
    (h8 : n ≤ sizeof_intptr) :
    ∃ s', rac_signal_reset mem (rac_signal_emit signal v n) = some s' ∧
      s'.current = Ptr.emit ∧ s'.emit = v ∧ s'.size = n ∧
      rac_signal_should_emit mem s' = some false := by
  obtain ⟨s', hs'⟩ := reset_returns mem (rac_signal_emit signal v n) (Or.inr h8)
  obtain ⟨hc, he, hsz⟩ := reset_frame mem _ s' hs'
  exact ⟨s', hs', hc, he, hsz, should_emit_after_reset mem _ s' hs'⟩

/-- Witness of C8 (amended): the emit `rac_emit(s, ch)` of the demo on an
observing signal. -/
theorem C8_emit_retarget_amended_witness :
    ∃ s', rac_signal_reset (fun _ => 0)
        (rac_signal_emit { current := .addr 1000, old := 5, emit := 0, size := 4 } 121 1)
          = some s' ∧
      s'.current = Ptr.emit ∧ s'.emit = 121 ∧ s'.size = 1 ∧
      rac_signal_should_emit (fun _ => 0) s' = some false :=
  C8_emit_retarget_amended (fun _ => 0)
    { current := .addr 1000, old := 5, emit := 0, size := 4 } 121 1 (by decide)

/-! ## Registries: removal -/

theorem memmove_remove (array : rac_array) (slot : Nat → Nat) (k j : Nat) (hk : 1 ≤ k) :
    memmove slot (k - 1) k (rac_array_remove_count array k) j
      = if k - 1 ≤ j ∧ j < array.items then slot (j + 1) else slot j := by
  unfold memmove rac_array_remove_count sizeof_intptr
  rw [Nat.mul_div_cancel _ (by norm_num : 0 < 8)]
  by_cases h1 : k - 1 ≤ j
  · by_cases h2 : j < array.items
    · have h3 : j < k - 1 + (array.items - (k - 1)) := by omega
      have h4 : k + (j - (k - 1)) = j + 1 := by omega
      simp [h1, h2, h3, h4]
    · have h3 : ¬ j < k - 1 + (array.items - (k - 1)) := by omega
      simp [h2, h3]
  · simp [h1]

/-- The registry after the loop body of `rac_array_remove` ran at a match
with the cursor at `k`: slot `k - 1` is dropped. -/
theorem remove_at_spec (array : rac_array) (b : rac_block) (k : Nat)
    (hp : array.ptr = some b) (hk : 1 ≤ k) (hki : k ≤ array.items) :
    ∃ b1, (rac_array_remove_at array k).ptr = some b1 ∧
      (rac_array_remove_at array k).items = array.items - 1 ∧
      (rac_array_remove_at array k).allocated = array.allocated ∧
      ∀ j < array.items - 1, b1.slot j = if k - 1 ≤ j then b.slot (j + 1) else b.slot j := by
  have hpos : array.items > 0 := by omega
  by_cases hlt : k < array.items
  · have h : rac_array_remove_at array k =
        { array with
          ptr := some { b with
            slot := memmove b.slot (k - 1) k (rac_array_remove_count array k) }
          items := array.items - 1 } := by
      simp [rac_array_remove_at, hlt, hpos, hp]
    rw [h]
    refine ⟨_, rfl, rfl, rfl, ?_⟩
    intro j hj
    show memmove b.slot (k - 1) k (rac_array_remove_count array k) j = _
    rw [memmove_remove array b.slot k j hk]
    have : j < array.items := by omega
    simp [this]
  · have h : rac_array_remove_at array k = { array with items := array.items - 1 } := by
      simp [rac_array_remove_at, hlt, hpos]
    rw [h]
    refine ⟨b, hp, rfl, rfl, ?_⟩
    intro j hj
    have : ¬ k - 1 ≤ j := by omega
    simp [this]

theorem remove_scan_step (array : rac_array) (b : rac_block) (item fuel iter : Nat)
    (hp : array.ptr = some b) (hlt : iter < array.items) :
    rac_array_remove_scan array item (fuel + 1) iter =
      if b.slot iter = 0 then some none
      else if b.slot iter ≠ item then rac_array_remove_scan array item fuel (iter + 1)
      else some (some (iter + 1)) := by
  have hge : ¬ iter ≥ array.items := by omega
  rw [rac_array_remove_scan]
  simp only [rac_array_iter, hge, if_false, hp]

theorem remove_scan_end (array : rac_array) (item fuel iter : Nat)
    (hge : array.items ≤ iter) :
    rac_array_remove_scan array item (fuel + 1) iter = some none := by
  have hge1 : iter ≥ array.items := hge
  rw [rac_array_remove_scan]
  simp only [rac_array_iter, hge1, if_true]

/-- What the scan of `rac_array_remove` can return. -/
theorem remove_scan_result (array : rac_array) (b : rac_block) (item : Nat)
    (hp : array.ptr = some b) (fuel iter : Nat) (hf1 : 1 ≤ fuel)
    (hf : array.items + 1 ≤ fuel + iter) :
    ∃ r, rac_array_remove_scan array item fuel iter = some r ∧
      ∀ k, r = some k → iter < k ∧ k ≤ array.items := by
  induction fuel generalizing iter with
  | zero => omega
  | succ fuel ih =>
    by_cases hge : array.items ≤ iter
    · rw [remove_scan_end array item fuel iter hge]
      exact ⟨none, rfl, by simp⟩
    · rw [remove_scan_step array b item fuel iter hp (by omega)]
      by_cases h0 : b.slot iter = 0
      · rw [if_pos h0]
        exact ⟨none, rfl, by simp⟩
      · rw [if_neg h0]
        by_cases hne : b.slot iter ≠ item
        · rw [if_pos hne]
          obtain ⟨r, hr, hk⟩ := ih (iter + 1) (by omega) (by omega)
          refine ⟨r, hr, ?_⟩
          intro k hk1
          have := hk k hk1
          omega
        · rw [if_neg hne]
          refine ⟨_, rfl, ?_⟩
          intro k hk1
          cases hk1
          omega

/-- The scan of `rac_array_remove` stops at the first slot holding the item. -/
theorem remove_scan_first (array : rac_array) (b : rac_block) (item i : Nat)
    (hp : array.ptr = some b) (hi : i < array.items) (hm : b.slot i = item) (h0 : item ≠ 0)
    (hbefore : ∀ j < i, b.slot j ≠ item ∧ b.slot j ≠ 0)
    (fuel iter : Nat) (hle : iter ≤ i) (hf : i + 1 ≤ fuel + iter) :
    rac_array_remove_scan array item fuel iter = some (some (i + 1)) := by
  induction fuel generalizing iter with
  | zero => omega
  | succ fuel ih =>
    rw [remove_scan_step array b item fuel iter hp (by omega)]
    by_cases hii : iter = i
    · subst hii
      rw [if_neg (by rw [hm]; exact h0), if_neg (by simp [hm])]
    · have hlt : iter < i := by omega
      obtain ⟨h1, h2⟩ := hbefore iter hlt
      rw [if_neg h2, if_pos h1]
      exact ih (iter + 1) (by omega) (by omega)

theorem content_of_some (array : rac_array) (b : rac_block) (hp : array.ptr = some b) :
    array.content = (List.range array.items).map b.slot := by
  simp [rac_array.content, hp]

theorem content_of_items_zero (array : rac_array) (h : array.items = 0) :
    array.content = [] := by
  unfold rac_array.content
  cases array.ptr <;> simp [h]

theorem content_length (array : rac_array) (h : array.Valid) :
    array.content.length = array.items := by
  unfold rac_array.content
  cases hp : array.ptr with
  | none => simp [h.1 hp]
  | some b => simp

/-- The end of `rac_array_remove` returns and keeps the stored items. -/
theorem remove_tail_spec (ok : Bool) (array : rac_array) (hv : array.Valid) :
    ∃ a1, rac_array_remove_tail ok array = some a1 ∧ a1.items = array.items ∧
      a1.content = array.content ∧ a1.Valid := by
  unfold rac_array_remove_tail
  by_cases h0 : array.items = 0
  · rw [if_pos h0]
    refine ⟨rac_array_flush array, rfl, by simp [rac_array_flush, h0], ?_, ?_⟩
    · rw [content_of_items_zero array h0]
      rfl
    · exact ⟨fun _ => rfl, fun b hb => by simp [rac_array_flush] at hb⟩
  · rw [if_neg h0]
    by_cases hlt : array.items < size_t_sub array.allocated 32
    · rw [if_pos hlt]
      have hle : array.items ≤ size_t_sub array.allocated 32 := Nat.le_of_lt hlt
      cases ok with
      | false =>
        exact ⟨array, by simp [rac_array_shrink, hle, realloc], rfl, rfl, hv⟩
      | true =>
        cases hp : array.ptr with
        | none => exact absurd (hv.1 hp) h0
        | some b =>
          refine ⟨{ array with
              ptr := some { bytes := rac_array_shrink_size array, slot := fun i => b.slot i }
              allocated := size_t_sub array.allocated 32 },
            by simp [rac_array_shrink, hle, realloc, hp], rfl, ?_, ?_⟩
          · simp [rac_array.content, hp]
          · refine ⟨fun h => by simp at h, ?_⟩
            intro b1 hb1 i hi
            simp only [Option.some.injEq] at hb1
            subst hb1
            exact hv.2 b hp i hi
    · rw [if_neg hlt]
      exact ⟨array, rfl, rfl, rfl, hv⟩

/-- The loop body of `rac_array_remove` keeps a registry valid. -/
theorem remove_at_valid (array : rac_array) (k : Nat) (hv : array.Valid)
    (hk : 1 ≤ k) (hki : k ≤ array.items) : (rac_array_remove_at array k).Valid := by
  cases hp : array.ptr with
  | none => have := hv.1 hp; omega
  | some b =>
    obtain ⟨b1, hb1, hit, _, hs⟩ := remove_at_spec array b k hp hk hki
    refine ⟨fun h => (by rw [hb1] at h; cases h), ?_⟩
    intro b2 hb2 i hi
    rw [hb1] at hb2
    cases hb2
    rw [hit] at hi
    rw [hs i hi]
    split
    · exact hv.2 b hp (i + 1) (by omega)
    · exact hv.2 b hp i (by omega)

/-- The function `rac_array_remove` keeps a registry valid. -/
theorem remove_valid (ok : Bool) (array : rac_array) (item : Nat) (a1 : rac_array)
    (hv : array.Valid) (h : rac_array_remove ok array item = some a1) : a1.Valid := by
  unfold rac_array_remove at h
  split_ifs at h with h0
  split at h
  · cases h
  · obtain ⟨a2, ha2, _, _, hv2⟩ := remove_tail_spec ok array hv
    rw [ha2] at h
    cases h
    exact hv2
  · rename_i iter hscan
    have hk : 1 ≤ iter ∧ iter ≤ array.items := by
      cases hp : array.ptr with
      | none =>
        have hi := hv.1 hp
        rw [hi, remove_scan_end array item 0 0 (by omega)] at hscan
        cases hscan
      | some b =>
        obtain ⟨r, hr, hk⟩ := remove_scan_result array b item hp (array.items + 1) 0
          (by omega) (by omega)
        rw [hr] at hscan
        cases hscan
        have := hk iter rfl
        omega
    obtain ⟨a2, ha2, _, _, hv2⟩ :=
      remove_tail_spec ok _ (remove_at_valid array iter hv hk.1 hk.2)
    rw [ha2] at h
    cases h
    exact hv2

/-- The function `rac_array_add` keeps a registry valid. -/
theorem add_valid (ok : Bool) (array : rac_array) (item ret : Nat) (a1 : rac_array)
    (hv : array.Valid) (h : rac_array_add ok array item = some (ret, a1)) : a1.Valid := by
  have hstore : ∀ a : rac_array, a.Valid → item ≠ 0 → ∀ a2, rac_array_store a item = some a2 →
      a2.Valid := by
    intro a hva hi a2 ha2
    unfold rac_array_store at ha2
    cases hp : a.ptr with
    | none => simp [hp] at ha2
    | some b =>
      simp only [hp, Option.some.injEq] at ha2
      subst ha2
      refine ⟨fun h => by simp at h, ?_⟩
      intro b1 hb1 i hi1
      simp only [Option.some.injEq] at hb1
      subst hb1
      show (if i = a.items then item else b.slot i) ≠ 0
      split
      · exact hi
      · exact hva.2 b hp i (by simp at hi1; omega)
  unfold rac_array_add at h
  split_ifs at h with h0 hfull
  · cases ok with
    | false => simp [rac_array_grow, realloc] at h; rw [← h.2]; exact hv
    | true =>
      simp only [rac_array_grow, realloc, if_true, Option.map_eq_some'] at h
      obtain ⟨a2, ha2, heq⟩ := h
      cases heq
      refine hstore _ ?_ h0 _ ha2
      refine ⟨fun h => by simp at h, ?_⟩
      intro b1 hb1 i hi1
      simp only [Option.some.injEq] at hb1
      subst hb1
      cases hp : array.ptr with
      | none => have := hv.1 hp; simp at hi1; omega
      | some b => exact hv.2 b hp i hi1
  · simp only [Option.map_eq_some'] at h
    obtain ⟨a2, ha2, heq⟩ := h
    cases heq
    exact hstore array hv h0 _ ha2

/-- Every reachable registry is valid. -/
theorem reachable_valid (array : rac_array) (h : array.Reachable) : array.Valid := by
  induction h with
  | empty => exact ⟨fun _ => rfl, fun b hb => by simp [rac_array.empty] at hb⟩
  | add ok array item ret array1 _ hadd ih => exact add_valid ok array item ret array1 ih hadd
  | remove ok array item array1 _ hrem ih => exact remove_valid ok array item array1 ih hrem

theorem getElem?_range_map (f : Nat → Nat) (n j : Nat) :
    ((List.range n).map f)[j]? = if j < n then some (f j) else none := by
  by_cases h : j < n
  · simp [h, List.getElem?_range h]
  · rw [if_neg h]
    exact List.getElem?_eq_none (by simpa using h)

/-- Dropping the slot of the first occurrence of an item from the slots of a
registry gives the list with that item erased. -/
theorem range_map_erase (f g : Nat → Nat) (n : Nat) (item : Nat) (l₁ l₂ : List Nat)
    (hc : (List.range n).map f = l₁ ++ item :: l₂) (hnot : item ∉ l₁)
    (hg : ∀ j < n - 1, g j = if l₁.length ≤ j then f (j + 1) else f j) :
    (List.range (n - 1)).map g = ((List.range n).map f).erase item := by
  have hn : n = l₁.length + 1 + l₂.length := by
    have := congrArg List.length hc
    simp at this
    omega
  have hf : ∀ j, (l₁ ++ item :: l₂)[j]? = if j < n then some (f j) else none := by
    intro j
    rw [← hc]
    exact getElem?_range_map f n j
  rw [hc, List.erase_append_right _ hnot, List.erase_cons_head]
  apply List.ext_getElem?
  intro j
  rw [getElem?_range_map]
  by_cases hj : j < n - 1
  · rw [if_pos hj, hg j hj]
    by_cases hle : l₁.length ≤ j
    · rw [if_pos hle, List.getElem?_append_right hle]
      have h1 := hf (j + 1)
      rw [if_pos (by omega), List.getElem?_append_right (by omega)] at h1
      have h2 : j + 1 - l₁.length = (j - l₁.length) + 1 := by omega
      rw [h2, List.getElem?_cons_succ] at h1
      exact h1.symm
    · rw [if_neg hle, List.getElem?_append_left (by omega)]
      have h1 := hf j
      rw [if_pos (by omega), List.getElem?_append_left (by omega)] at h1
      exact h1.symm
  · rw [if_neg hj]
    symm
    apply List.getElem?_eq_none
    simp
    omega

/-- Removing a stored item from a valid registry. -/
theorem remove_stored (ok : Bool) (array : rac_array) (item : Nat) (hv : array.Valid)
    (hi : item ∈ array.content) :
    ∃ array1, rac_array_remove ok array item = some array1 ∧
      array1.content = array.content.erase item ∧ array1.items + 1 = array.items ∧
      array1.Valid := by
  cases hp : array.ptr with
  | none => simp [rac_array.content, hp] at hi
  | some b =>
    have hcontent := content_of_some array b hp
    rw [hcontent] at hi
    obtain ⟨l₁, l₂, hc, hnot⟩ := List.eq_append_cons_of_mem hi
    have hn : array.items = l₁.length + 1 + l₂.length := by
      have := congrArg List.length hc
      simp at this
      omega
    have hf : ∀ j, (l₁ ++ item :: l₂)[j]? = if j < array.items then some (b.slot j) else none := by
      intro j
      rw [← hc]
      exact getElem?_range_map b.slot array.items j
    have hm : b.slot l₁.length = item := by
      have h1 := hf l₁.length
      rw [if_pos (by omega), List.getElem?_append_right (Nat.le_refl _)] at h1
      simp at h1
      exact h1.symm
    have h0 : item ≠ 0 := by
      rw [← hm]
      exact hv.2 b hp _ (by omega)
    have hbefore : ∀ j < l₁.length, b.slot j ≠ item ∧ b.slot j ≠ 0 := by
      intro j hj
      refine ⟨?_, hv.2 b hp j (by omega)⟩
      have h1 := hf j
      rw [if_pos (by omega), List.getElem?_append_left hj] at h1
      intro heq
      apply hnot
      rw [← heq]
      exact List.getElem?_mem h1
    have hscan := remove_scan_first array b item l₁.length hp (by omega) hm h0 hbefore
      (array.items + 1) 0 (Nat.zero_le _) (by omega)
    obtain ⟨b1, hb1, hit, _, hs⟩ := remove_at_spec array b (l₁.length + 1) hp (by omega)
      (by omega)
    obtain ⟨a1, ha1, hai, hac, hav⟩ := remove_tail_spec ok _
      (remove_at_valid array (l₁.length + 1) hv (by omega) (by omega))
    refine ⟨a1, ?_, ?_, ?_, hav⟩
    · unfold rac_array_remove
      rw [if_neg h0, hscan]
      exact ha1
    · rw [hac, content_of_some _ b1 hb1, hit, hcontent]
      exact range_map_erase b.slot b1.slot array.items item l₁ l₂ hc hnot
        (fun j hj => by simpa using hs j hj)
    · rw [hai, hit]
      omega

/-- Claim C10.  For every registry reachable from the empty one by add and
remove and every item stored in it, `rac_array_remove` returns, the logical
content after the call is the content before with the first occurrence of the
item deleted and the other items in their order, and `items` went down by
exactly 1. -/
theorem C10_remove_erases_one (ok : Bool) (array : rac_array) (item : Nat)
    (hr : array.Reachable) (hi : item ∈ array.content) :
    ∃ array1, rac_array_remove ok array item = some array1 ∧
      array1.content = array.content.erase item ∧ array1.items + 1 = array.items := by
  obtain ⟨a1, h1, h2, h3, _⟩ := remove_stored ok array item (reachable_valid array hr) hi
  exact ⟨a1, h1, h2, h3⟩

/-! ## The loops of `rac_advance` -/

theorem should_emit_returns (mem : Nat → Nat) (g : rac_signal)
    (h : g.current.isNull = true ∨ g.size ≤ sizeof_intptr) :
    ∃ e, rac_signal_should_emit mem g = some e := by
  unfold rac_signal_should_emit
  split_ifs with h1 h2 h3
  · exact ⟨_, rfl⟩
  · exact ⟨_, rfl⟩
  · simp [h1] at h
    exact absurd h h3
  · exact ⟨_, rfl⟩

theorem bind_should_emit_returns (s : State) (p : Nat) (h : s.BindOk p) :
    ∃ e, rac_bind_should_emit p s = some e := by
  obtain ⟨b, hb, hne, g, hg, hsz⟩ := h
  obtain ⟨e, he⟩ := should_emit_returns s.mem g hsz
  exact ⟨e, by simp [rac_bind_should_emit, hb, hne, hg, he]⟩

theorem content_drop (array : rac_array) (b : rac_block) (iter : Nat)
    (hp : array.ptr = some b) (hlt : iter < array.items) :
    array.content.drop iter = b.slot iter :: array.content.drop (iter + 1) := by
  rw [content_of_some array b hp]
  have hl : iter < ((List.range array.items).map b.slot).length := by simpa using hlt
  rw [List.drop_eq_getElem_cons hl]
  simp

theorem content_drop_of_le (array : rac_array) (iter : Nat) (hv : array.Valid)
    (hge : array.items ≤ iter) : array.content.drop iter = [] := by
  apply List.drop_of_length_le
  rw [content_length array hv]
  exact hge

theorem iter_of_lt (array : rac_array) (b : rac_block) (iter : Nat)
    (hp : array.ptr = some b) (hlt : iter < array.items) :
    rac_array_iter array iter = some (b.slot iter, iter + 1) := by
  have hge : ¬ iter ≥ array.items := by omega
  simp [rac_array_iter, hge, hp]

theorem iter_of_ge (array : rac_array) (iter : Nat) (hge : array.items ≤ iter) :
    rac_array_iter array iter = some (0, iter) := by
  have hge1 : iter ≥ array.items := hge
  simp [rac_array_iter, hge1]

theorem mem_content_of_lt (array : rac_array) (b : rac_block) (i : Nat)
    (hp : array.ptr = some b) (hlt : i < array.items) : b.slot i ∈ array.content := by
  rw [content_of_some array b hp]
  exact List.mem_map.mpr ⟨i, List.mem_range.mpr hlt, rfl⟩

/-- The dispatch loop with callbacks that only print: it returns, the
invocations it makes are the due bindings from the cursor on, in registry
order, and each callback starts in the entry state (up to what was printed). -/
theorem dispatch_spec (code : Code) (s : State) (hv : s.rac_machine.binds.Valid)
    (hok : ∀ p ∈ s.rac_machine.binds.content, s.BindOk p) (hin : code.InertOn s)
    (fuel iter : Nat) (out : List Output) (hf1 : 1 ≤ fuel)
    (hf : s.rac_machine.binds.items + 1 ≤ fuel + iter) :
    ∃ calls out1, rac_advance_dispatch code fuel iter { s with stdout := out }
        = some (calls, { s with stdout := out1 }) ∧
      calls.map Call.bind = (s.rac_machine.binds.content.drop iter).filter
        (fun p => rac_bind_should_emit p s = some true) ∧
      ∀ c ∈ calls, ∃ o, c.pre = { s with stdout := o } := by
  induction fuel generalizing iter out with
  | zero => omega
  | succ fuel ih =>
    rw [rac_advance_dispatch]
    by_cases hge : s.rac_machine.binds.items ≤ iter
    · have h1 : rac_array_iter ({ s with stdout := out } : State).rac_machine.binds iter
          = some (0, iter) := iter_of_ge _ iter hge
      rw [h1]
      refine ⟨[], out, by simp, ?_, by simp⟩
      rw [content_drop_of_le _ iter hv hge]
      rfl
    · have hlt : iter < s.rac_machine.binds.items := by omega
      cases hp : s.rac_machine.binds.ptr with
      | none => have := hv.1 hp; omega
      | some b =>
        have h1 : rac_array_iter ({ s with stdout := out } : State).rac_machine.binds iter
            = some (b.slot iter, iter + 1) := iter_of_lt _ b iter hp hlt
        have hmem := mem_content_of_lt _ b iter hp hlt
        have hne : b.slot iter ≠ 0 := hv.2 b hp iter hlt
        obtain ⟨e, he⟩ := bind_should_emit_returns s _ (hok _ hmem)
        have he1 : rac_bind_should_emit (b.slot iter) { s with stdout := out } = some e := he
        rw [h1]
        simp only [hne, if_false, he1]
        rw [content_drop _ b iter hp hlt]
        cases e with
        | false =>
          obtain ⟨calls, out1, hc, hm, hpre⟩ := ih (iter + 1) out (by omega) (by omega)
          refine ⟨calls, out1, hc, ?_, hpre⟩
          rw [hm, List.filter_cons_of_neg (by simp [he])]
        | true =>
          obtain ⟨bd, hbd, _⟩ := hok _ hmem
          obtain ⟨out1, hcall⟩ := hin _ hmem he bd hbd out
          have hcall1 : rac_bind_call code (b.slot iter) { s with stdout := out }
              = some { s with stdout := out1 } := by
            simp only [rac_bind_call, hne, if_false]
            rw [hbd]
            exact hcall
          obtain ⟨calls, out2, hc, hm, hpre⟩ := ih (iter + 1) out1 (by omega) (by omega)
          simp only [hcall1, hc, Option.map_some']
          refine ⟨_, out2, rfl, ?_, ?_⟩
          · rw [List.map_cons, hm, List.filter_cons_of_pos (by simp [he])]
          · intro c hcmem
            rcases List.mem_cons.mp hcmem with h | h
            · exact ⟨out, by rw [h]⟩
            · exact hpre c h

theorem sameShape_refl (s : State) : s.SameShape s := by
  intro p
  cases h : s.signalAt p with
  | none => exact Or.inl ⟨rfl, rfl⟩
  | some g => exact Or.inr ⟨g, g, rfl, rfl, rfl, rfl, rfl⟩

theorem sameShape_trans (s s1 s2 : State) (h1 : s.SameShape s1) (h2 : s1.SameShape s2) :
    s.SameShape s2 := by
  intro p
  rcases h1 p with ⟨ha, hb⟩ | ⟨g, g1, ha, hb, hs⟩
  · rcases h2 p with ⟨hc, hd⟩ | ⟨g1, g2, hc, _, _⟩
    · exact Or.inl ⟨ha, hd⟩
    · rw [hb] at hc
      cases hc
  · rcases h2 p with ⟨hc, _⟩ | ⟨g1', g2, hc, hd, hs2⟩
    · rw [hb] at hc
      cases hc
    · rw [hb] at hc
      cases hc
      exact Or.inr ⟨g, g2, ha, hd, hs2.1.trans hs.1, hs2.2.1.trans hs.2.1,
        hs2.2.2.trans hs.2.2⟩

theorem signalOk_of_sameShape (s s1 : State) (h : s.SameShape s1) (p : Nat)
    (hp : s.SignalOk p) : s1.SignalOk p := by
  obtain ⟨hne, g, hg, hsz⟩ := hp
  rcases h p with ⟨ha, _⟩ | ⟨g', g1, ha, hb, hc, _, hs⟩
  · rw [hg] at ha
    cases ha
  · rw [hg] at ha
    cases ha
    exact ⟨hne, g1, hb, by rw [hc, hs]; exact hsz⟩

/-- One call `rac_signal_reset(signal)` of the reset loop. -/
theorem reset_at_spec (s : State) (p : Nat) (hp : s.SignalOk p) :
    ∃ g g1, s.signalAt p = some g ∧ rac_signal_reset s.mem g = some g1 ∧
      rac_reset_at p s = some { s with
        signalAt := fun q => if q = p then some g1 else s.signalAt q } := by
  obtain ⟨hne, g, hg, hsz⟩ := hp
  obtain ⟨g1, hg1⟩ := reset_returns s.mem g hsz
  exact ⟨g, g1, hg, hg1, by simp [rac_reset_at, hne, hg, hg1]⟩

/-- The reset loop: it returns, it writes baselines only, and every signal of
the registry from the cursor on is left as `rac_signal_reset` made it. -/
theorem reset_loop_spec (fuel : Nat) (s : State) (iter : Nat)
    (hv : s.rac_machine.signals.Valid)
    (hok : ∀ p ∈ s.rac_machine.signals.content, s.SignalOk p)
    (hf1 : 1 ≤ fuel) (hf : s.rac_machine.signals.items + 1 ≤ fuel + iter) :
    ∃ s1, rac_advance_reset fuel iter s = some s1 ∧
      s1.rac_machine = s.rac_machine ∧ s1.bindAt = s.bindAt ∧ s1.mem = s.mem ∧
      s1.stdout = s.stdout ∧ s.SameShape s1 ∧
      (∀ p ∈ s.rac_machine.signals.content.drop iter,
        ∃ g0 g1, rac_signal_reset s.mem g0 = some g1 ∧ s1.signalAt p = some g1) ∧
      (∀ p, p ∉ s.rac_machine.signals.content.drop iter → s1.signalAt p = s.signalAt p) := by
  induction fuel generalizing s iter with
  | zero => omega
  | succ fuel ih =>
    rw [rac_advance_reset]
    by_cases hge : s.rac_machine.signals.items ≤ iter
    · rw [iter_of_ge _ iter hge, content_drop_of_le _ iter hv hge]
      exact ⟨s, by simp, rfl, rfl, rfl, rfl, sameShape_refl s, by simp, by simp⟩
    · have hlt : iter < s.rac_machine.signals.items := by omega
      cases hp : s.rac_machine.signals.ptr with
      | none => have := hv.1 hp; omega
      | some b =>
        have hmem := mem_content_of_lt _ b iter hp hlt
        have hne : b.slot iter ≠ 0 := hv.2 b hp iter hlt
        obtain ⟨g, g1, hg, hg1, hreset⟩ := reset_at_spec s _ (hok _ hmem)
        obtain ⟨hc, he, hsz⟩ := reset_frame s.mem g g1 hg1
        rw [iter_of_lt _ b iter hp hlt]
        simp only [hne, if_false, hreset]
        rw [content_drop _ b iter hp hlt]
        have hshape : s.SameShape { s with
            signalAt := fun q => if q = b.slot iter then some g1 else s.signalAt q } := by
          intro q
          by_cases hq : q = b.slot iter
          · subst hq
            exact Or.inr ⟨g, g1, hg, by simp, hc, he, hsz⟩
          · cases h : s.signalAt q with
            | none => exact Or.inl ⟨rfl, by simp [hq, h]⟩
            | some g' => exact Or.inr ⟨g', g', rfl, by simp [hq, h], rfl, rfl, rfl⟩
        obtain ⟨s2, hs2, hm, hb, hmm, hst, hsh, hin, hout⟩ := ih
          { s with signalAt := fun q => if q = b.slot iter then some g1 else s.signalAt q }
          (iter + 1) hv
          (fun q hq => signalOk_of_sameShape s _ hshape q (hok q hq))
          (by omega) (by simp only; omega)
        refine ⟨s2, hs2, hm, hb, hmm, hst, sameShape_trans _ _ _ hshape hsh, ?_, ?_⟩
        · intro q hq
          by_cases hq1 : q ∈ List.drop (iter + 1) s.rac_machine.signals.content
          · exact hin q hq1
          · have hq2 : q = b.slot iter := by
              rcases List.mem_cons.mp hq with h | h
              · exact h
              · exact absurd h hq1
            refine ⟨g, g1, hg1, ?_⟩
            rw [hout q hq1]
            simp [hq2]
        · intro q hq
          have hq1 : q ≠ b.slot iter := fun h => hq (by rw [h]; exact List.mem_cons_self _ _)
          have hq2 : q ∉ List.drop (iter + 1) s.rac_machine.signals.content :=
            fun h => hq (List.mem_cons_of_mem _ h)
          rw [hout q hq2]
          simp [hq1]

theorem bindOk_of_sameShape (s s1 : State) (h : s.SameShape s1) (hb : s1.bindAt = s.bindAt)
    (p : Nat) (hp : s.BindOk p) : s1.BindOk p := by
  obtain ⟨b, hbp, hsig⟩ := hp
  exact ⟨b, by rw [hb]; exact hbp, signalOk_of_sameShape s s1 h _ hsig⟩

/-- One `rac_advance` with callbacks that only print: it returns, it invokes
the due bindings in registry order, each callback starts in the entry state
(up to what was printed), and afterwards every registered signal is as
`rac_signal_reset` left it. -/
theorem advance_spec (code : Code) (s : State) (fuel : Nat) (hv : s.Valid)
    (hin : code.InertOn s) (hf : s.rac_machine.binds.items + 1 ≤ fuel) :
    ∃ calls s2, rac_advance code fuel s = some (calls, s2) ∧
      calls.map Call.bind = s.due ∧
      (∀ c ∈ calls, ∃ o, c.pre = { s with stdout := o }) ∧
      s2.rac_machine = s.rac_machine ∧ s2.bindAt = s.bindAt ∧ s2.mem = s.mem ∧
      s.SameShape s2 ∧ s2.Valid ∧
      (∀ p ∈ s.rac_machine.signals.content,
        ∃ g0 g1, rac_signal_reset s.mem g0 = some g1 ∧ s2.signalAt p = some g1) ∧
      (∀ p, p ∉ s.rac_machine.signals.content → s2.signalAt p = s.signalAt p) := by
  obtain ⟨hvb, hvs, hokb, hoks⟩ := hv
  obtain ⟨calls, out1, hd, hm, hpre⟩ :=
    dispatch_spec code s hvb hokb hin fuel 0 s.stdout (by omega) (by omega)
  have hs : ({ s with stdout := s.stdout } : State) = s := rfl
  rw [hs] at hd
  obtain ⟨s2, hr, hmach, hbind, hmem, _, hshape, hin2, hout2⟩ :=
    reset_loop_spec (s.rac_machine.signals.items + 1) { s with stdout := out1 } 0 hvs hoks
      (by omega) (by simp only; omega)
  refine ⟨calls, s2, ?_, ?_, hpre, hmach, hbind, hmem, hshape, ?_, ?_, ?_⟩
  · unfold rac_advance
    rw [hd]
    simp only
    rw [hr]
    rfl
  · simpa [State.due] using hm
  · refine ⟨by rw [hmach]; exact hvb, by rw [hmach]; exact hvs, ?_, ?_⟩
    · intro p hp
      rw [hmach] at hp
      exact bindOk_of_sameShape { s with stdout := out1 } s2 hshape hbind p (hokb p hp)
    · intro p hp
      rw [hmach] at hp
      exact signalOk_of_sameShape { s with stdout := out1 } s2 hshape p (hoks p hp)
  · intro p hp
    simpa using hin2 p hp
  · intro p hp
    simpa using hout2 p (by simpa using hp)

/-! ## The `int` of the demo -/

theorem loadBytes_storeInt (mem : Nat → Nat) (x : Nat) (v : Int) :
    loadBytes (storeInt mem x v) x sizeof_int = wordBytes sizeof_int (v % 2 ^ 32).toNat := by
  unfold loadBytes wordBytes
  apply List.map_congr_left
  intro i hi
  have hi4 : i < sizeof_int := List.mem_range.mp hi
  have h1 : x ≤ x + i ∧ x + i < x + sizeof_int := ⟨by omega, by omega⟩
  simp only [loadByte, storeInt, h1, and_self, if_true, Nat.add_sub_cancel_left]
  exact Nat.mod_eq_of_lt (wordByte_lt _ _)

theorem bytesInt_wordBytes (v : Int) (hlo : -2 ^ 31 ≤ v) (hhi : v < 2 ^ 31) :
    bytesInt (wordBytes sizeof_int (v % 2 ^ 32).toNat) = v := by
  unfold bytesInt
  rw [bytesWord_wordBytes]
  have h256 : (256 : Nat) ^ sizeof_int = 2 ^ 32 := by norm_num [sizeof_int]
  rw [h256]
  have hlt : (v % 2 ^ 32).toNat % 2 ^ 32 = (v % 2 ^ 32).toNat := by
    apply Nat.mod_eq_of_lt
    omega
  rw [hlt]
  split_ifs with h <;> omega

theorem loadInt_storeInt (mem : Nat → Nat) (x : Nat) (v : Int) (hlo : -2 ^ 31 ≤ v)
    (hhi : v < 2 ^ 31) : loadInt (storeInt mem x v) x = v := by
  unfold loadInt
  rw [loadBytes_storeInt, bytesInt_wordBytes v hlo hhi]

theorem wordBytes_intptr_of_int (v : Int) :
    wordBytes sizeof_int (intptr_of_int v) = wordBytes sizeof_int (v % 2 ^ 32).toNat := by
  rw [← wordBytes_mod sizeof_int (intptr_of_int v)]
  congr 1
  have h256 : (256 : Nat) ^ sizeof_int = 2 ^ 32 := by norm_num [sizeof_int]
  rw [h256]
  unfold intptr_of_int
  omega

theorem wordBytes_int_inj (a b : Int) (ha : -2 ^ 31 ≤ a) (ha' : a < 2 ^ 31)
    (hb : -2 ^ 31 ≤ b) (hb' : b < 2 ^ 31)
    (h : wordBytes sizeof_int (a % 2 ^ 32).toNat = wordBytes sizeof_int (b % 2 ^ 32).toNat) :
    a = b := by
  have h1 := congrArg bytesInt h
  rwa [bytesInt_wordBytes a ha ha', bytesInt_wordBytes b hb hb'] at h1

/-- The check of the signal `rac_observe(x)` made when `x` held `a`, asked
when `x` holds `b`. -/
theorem should_emit_int (mem : Nat → Nat) (x : Nat) (a b : Int) (hx : x ≠ 0)
    (ha : -2 ^ 31 ≤ a) (ha' : a < 2 ^ 31) (hb : -2 ^ 31 ≤ b) (hb' : b < 2 ^ 31) :
    rac_signal_should_emit (storeInt mem x b)
      { current := .addr x, old := intptr_of_int a, emit := 0, size := sizeof_int }
      = some (decide (a ≠ b)) := by
  have hcur : (Ptr.addr x).isNull = false := by
    cases x with
    | zero => exact absurd rfl hx
    | succ x => rfl
  rw [should_emit_sized _ _ hcur (by show sizeof_int ≠ 0; decide)
    (by show sizeof_int ≤ sizeof_intptr; decide)]
  have hb4 : rac_signal.currentBytes (storeInt mem x b)
      { current := .addr x, old := intptr_of_int a, emit := 0, size := sizeof_int } sizeof_int
      = wordBytes sizeof_int (b % 2 ^ 32).toNat := loadBytes_storeInt mem x b
  simp only [hb4, wordBytes_intptr_of_int]
  congr 1
  rw [decide_eq_decide, not_iff_not, memcmp_eq_zero _ _ (by simp [wordBytes_length])]
  constructor
  · intro h
    exact (wordBytes_int_inj b a hb hb' ha ha' h).symm
  · intro h
    rw [h]

/-! ## The scenario of `main` on `x` -/

/-- The registration calls of the scenario build `observe_state`. -/
theorem observe_build (mem : Nat → Nat) :
    (match rac_observe_int 16 true 1000 (State.init mem) with
      | none => none
      | some (signal, s1) => rac_call_on_signal 48 true 1 signal s1)
      = some (48, observe_state mem (intptr_of_int (loadInt mem 1000)) []) := by
  simp [rac_observe_int, rac_signal_add, State.init, rac_array_add, rac_array.empty,
    rac_array_grow, rac_array_grow_size, realloc, rac_array_store, rac_call_on_signal,
    observe_state]

/-- The check of the binding of the scenario is the check of its signal. -/
theorem observe_bind_should_emit (mem : Nat → Nat) (old : Nat) (out : List Output) :
    rac_bind_should_emit 48 (observe_state mem old out)
      = rac_signal_should_emit mem
          { current := .addr 1000, old := old, emit := 0, size := sizeof_int } := by
  simp [rac_bind_should_emit, observe_state]

/-- One `rac_advance` in the scenario when the signal does not ask to be
emitted. -/
theorem observe_advance_false (mem : Nat → Nat) (old : Nat) (out : List Output)
    (h : rac_signal_should_emit mem
      { current := .addr 1000, old := old, emit := 0, size := sizeof_int } = some false) :
    rac_advance demo_code 2 (observe_state mem old out)
      = some ([], observe_state mem
          (memcpy_old old (loadBytes mem 1000 sizeof_int) sizeof_int) out) := by
  have hb := observe_bind_should_emit mem old out
  rw [h] at hb
  have h0 : ¬ sizeof_int = 0 := by decide
  have h8 : sizeof_int ≤ sizeof_intptr := by decide
  unfold rac_advance
  rw [rac_advance_dispatch]
  simp only [observe_state] at hb ⊢
  simp [rac_array_iter, hb, rac_advance_dispatch, rac_advance_reset, rac_reset_at,
    rac_signal_reset, Ptr.isNull, h0, h8]
  funext q
  by_cases hq : q = 16
  · simp only [hq, if_true]
    rfl
  · simp only [hq, if_false]

/-- One `rac_advance` in the scenario when the signal asks to be emitted. -/
theorem observe_advance_true (mem : Nat → Nat) (old : Nat) (out : List Output)
    (h : rac_signal_should_emit mem
      { current := .addr 1000, old := old, emit := 0, size := sizeof_int } = some true) :
    rac_advance demo_code 2 (observe_state mem old out)
      = some ([{ bind := 48, pre := observe_state mem old out }],
          observe_state mem
            (memcpy_old old (loadBytes mem 1000 sizeof_int) sizeof_int)
            (out ++ [Output.x_changed (loadInt mem 1000)])) := by
  have hb := observe_bind_should_emit mem old out
  rw [h] at hb
  have h0 : ¬ sizeof_int = 0 := by decide
  have h8 : sizeof_int ≤ sizeof_intptr := by decide
  unfold rac_advance
  rw [rac_advance_dispatch]
  simp only [observe_state] at hb ⊢
  simp [rac_array_iter, hb, rac_advance_dispatch, rac_advance_reset, rac_reset_at,
    rac_signal_reset, Ptr.isNull, h0, h8, rac_bind_call, demo_code,
    xchanged, rac_signal_value, derefInt]
  funext q
  by_cases hq : q = 16
  · simp only [hq, if_true]
    rfl
  · simp only [hq, if_false]

/-- Claim C5.  The observe / mutate / advance scenario of `main`, for every
pair of distinct `int` values `a` and `b`: the signal made by `rac_observe` on
an `int` holding `a` does not ask to be emitted while the `int` holds `a`;
once the `int` is set to `b`, one `rac_advance` invokes the binding once, and
`xchanged` reads `b` through `rac_signal_value`; a second `rac_advance`
invokes nothing and prints nothing more. -/
theorem C5_observe_mutate_advance (a b : Int) (ha : -2 ^ 31 ≤ a) (ha1 : a < 2 ^ 31)
    (hb : -2 ^ 31 ≤ b) (hb1 : b < 2 ^ 31) (hab : a ≠ b) :
    observe_scenario a b
      = some (false, [48], [Output.x_changed b], [], [Output.x_changed b]) := by
  have hbuild := observe_build (storeInt (fun _ => 0) 1000 a)
  rw [loadInt_storeInt _ _ a ha ha1] at hbuild
  have hcheck := should_emit_int (fun _ => 0) 1000 a a (by decide) ha ha1 ha ha1
  have hfirst := should_emit_int (storeInt (fun _ => 0) 1000 a) 1000 a b (by decide)
    ha ha1 hb hb1
  have hsecond := should_emit_after_reset (storeInt (storeInt (fun _ => 0) 1000 a) 1000 b)
    { current := .addr 1000, old := intptr_of_int a, emit := 0, size := sizeof_int }
    { current := .addr 1000,
      old := memcpy_old (intptr_of_int a)
        (loadBytes (storeInt (storeInt (fun _ => 0) 1000 a) 1000 b) 1000 sizeof_int) sizeof_int,
      emit := 0, size := sizeof_int } (by
        simp [rac_signal_reset, Ptr.isNull, sizeof_int, sizeof_intptr]
        rfl)
  simp only [ne_eq, not_true_eq_false, decide_False] at hcheck
  simp only [ne_eq, hab, not_false_eq_true, decide_True] at hfirst
  have hmem : ∀ (m : Nat → Nat) (old : Nat) (out : List Output),
      ({ observe_state m old out with mem := storeInt (observe_state m old out).mem 1000 b }
        : State) = observe_state (storeInt m 1000 b) old out := fun _ _ _ => rfl
  unfold observe_scenario
  cases h1 : rac_observe_int 16 true 1000 (State.init (storeInt (fun _ => 0) 1000 a)) with
  | none =>
    rw [h1] at hbuild
    cases hbuild
  | some r =>
    obtain ⟨signal, s1⟩ := r
    rw [h1] at hbuild
    simp only at hbuild ⊢
    rw [hbuild]
    simp only
    rw [observe_bind_should_emit, hcheck]
    simp only
    rw [hmem, observe_advance_true _ _ _ hfirst]
    simp only
    rw [observe_advance_false _ _ _ hsecond, loadInt_storeInt _ _ b hb hb1]
    rfl

/-! ## The dispatch pass -/

/-- For a binding that watches the live signal `t`, the check of the dispatch
loop is the check of `t`. -/
theorem bind_should_emit_of_watches (s : State) (t p : Nat) (g : rac_signal) (ht : t ≠ 0)
    (hg : s.signalAt t = some g) (hw : s.watches t p = true) :
    rac_bind_should_emit p s = rac_signal_should_emit s.mem g := by
  unfold State.watches at hw
  cases hb : s.bindAt p with
  | none => simp [hb] at hw
  | some b =>
    simp only [hb, Option.map_some', decide_eq_true_eq, Option.some.injEq] at hw
    simp [rac_bind_should_emit, hb, hw, ht, hg]

/-- The due bindings that watch one signal: all the bindings on it when it
asks to be emitted, none otherwise. -/
theorem due_filter_watches (s : State) (t : Nat) (g : rac_signal) (ht : t ≠ 0)
    (hg : s.signalAt t = some g) :
    s.due.filter (s.watches t) =
      if rac_signal_should_emit s.mem g = some true
      then s.rac_machine.binds.content.filter (s.watches t) else [] := by
  unfold State.due
  rw [List.filter_filter]
  split_ifs with h
  · apply List.filter_congr
    intro p _
    by_cases hw : s.watches t p = true
    · rw [bind_should_emit_of_watches s t p g ht hg hw, h]
      simp [hw]
    · simp [hw]
  · rw [List.filter_eq_nil_iff]
    intro p _
    by_cases hw : s.watches t p = true
    · rw [bind_should_emit_of_watches s t p g ht hg hw]
      simp [h]
    · simp [hw]

/-- Claim C6.  The dispatch pass with callbacks that modify neither signals,
nor watched storage, nor the registries: `rac_advance` returns, and the
sequence of bindings it invokes is the binding registry, in registry order,
filtered to the bindings whose signal satisfies `rac_signal_should_emit` at
entry.  For each live signal: when it is changed, every binding that watches
it is invoked; when it is unchanged, none is. -/
theorem C6_dispatch_pass (code : Code) (s : State) (fuel : Nat) (hv : s.Valid)
    (hin : code.InertOn s) (hf : s.rac_machine.binds.items + 1 ≤ fuel) :
    ∃ calls s2, rac_advance code fuel s = some (calls, s2) ∧
      calls.map Call.bind = s.rac_machine.binds.content.filter
        (fun p => rac_bind_should_emit p s = some true) ∧
      ∀ t g, t ≠ 0 → s.signalAt t = some g →
        (rac_signal_should_emit s.mem g = some true →
          (calls.map Call.bind).filter (s.watches t)
            = s.rac_machine.binds.content.filter (s.watches t)) ∧
        (rac_signal_should_emit s.mem g = some false →
          (calls.map Call.bind).filter (s.watches t) = []) := by
  obtain ⟨calls, s2, hadv, hdue, _⟩ := advance_spec code s fuel hv hin hf
  refine ⟨calls, s2, hadv, hdue, ?_⟩
  intro t g ht hg
  rw [hdue, due_filter_watches s t g ht hg]
  constructor
  · intro h
    rw [if_pos h]
  · intro h
    rw [if_neg (by rw [h]; simp)]

/-! ## The order of the two passes -/

/-- The dispatch loop with callbacks that leave the signal objects alone: each
callback starts with the signal objects of the entry state, through a binding
whose signal asks to be emitted at that moment. -/
theorem dispatch_pre (code : Code)
    (hcode : ∀ f sig s s1, code f sig s = some s1 → s1.signalAt = s.signalAt)
    (fuel iter : Nat) (s : State) (calls : List Call) (s1 : State)
    (h : rac_advance_dispatch code fuel iter s = some (calls, s1)) :
    s1.signalAt = s.signalAt ∧
      ∀ c ∈ calls, c.pre.signalAt = s.signalAt ∧ rac_bind_should_emit c.bind c.pre = some true := by
  induction fuel generalizing iter s calls s1 with
  | zero => simp [rac_advance_dispatch] at h
  | succ fuel ih =>
    rw [rac_advance_dispatch] at h
    cases hit : rac_array_iter s.rac_machine.binds iter with
    | none => simp [hit] at h
    | some r =>
      obtain ⟨bind, iter1⟩ := r
      simp only [hit] at h
      by_cases h0 : bind = 0
      · simp only [h0, if_true, Option.some.injEq, Prod.mk.injEq] at h
        obtain ⟨hc, hs⟩ := h
        subst hc hs
        exact ⟨rfl, by simp⟩
      · simp only [h0, if_false] at h
        cases he : rac_bind_should_emit bind s with
        | none => simp [he] at h
        | some e =>
          cases e with
          | false =>
            simp only [he] at h
            exact ih iter1 s calls s1 h
          | true =>
            simp only [he] at h
            cases hcall : rac_bind_call code bind s with
            | none => simp [hcall] at h
            | some s' =>
              simp only [hcall, Option.map_eq_some', Prod.mk.injEq] at h
              obtain ⟨r, hr, hc, hs⟩ := h
              obtain ⟨calls', s1'⟩ := r
              simp only at hc hs
              subst hc hs
              have hsig : s'.signalAt = s.signalAt := by
                unfold rac_bind_call at hcall
                split_ifs at hcall
                cases hb : s.bindAt bind with
                | none => simp [hb] at hcall
                | some b =>
                  simp only [hb] at hcall
                  exact hcode _ _ _ _ hcall
              obtain ⟨h1, h2⟩ := ih iter1 s' calls' s1' hr
              refine ⟨h1.trans hsig, ?_⟩
              intro c hc
              rcases List.mem_cons.mp hc with hc | hc
              · subst hc
                exact ⟨rfl, he⟩
              · obtain ⟨h3, h4⟩ := h2 c hc
                exact ⟨h3.trans hsig, h4⟩

/-- What a callback reads through `rac_signal_value` when the signal it is
called for asks to be emitted: the watched storage, whose content differs
from the baseline. -/
theorem value_of_should_emit (mem : Nat → Nat) (g : rac_signal)
    (h : rac_signal_should_emit mem g = some true) (hcur : g.current.isNull = false) :
    (g.size ≠ 0 → rac_signal_value mem g = g.current ∧
        g.currentBytes mem g.size ≠ wordBytes g.size g.old) ∧
    (g.size = 0 → rac_signal_value mem g = .addr (g.currentWord mem) ∧
        g.currentWord mem ≠ g.old) := by
  constructor
  · intro hs
    refine ⟨by simp [rac_signal_value, hcur, hs], ?_⟩
    intro heq
    unfold rac_signal_should_emit at h
    simp only [hcur, hs, ne_eq, not_false_eq_true, if_true, Bool.false_eq_true, if_false] at h
    split_ifs at h with h8
    simp only [Option.some.injEq, decide_eq_true_eq] at h
    apply h
    rw [heq]
    exact (memcmp_eq_zero _ _ rfl).mpr rfl
  · intro hs
    refine ⟨by simp [rac_signal_value, hcur, hs], ?_⟩
    rw [should_emit_pointer mem g hcur hs] at h
    simpa using h

/-- Claim C7.  Two-pass ordering, for callbacks that leave the signal objects
alone (they do not emit): a returning `rac_advance` is its dispatch loop
followed by its reset loop, and all the invocations are made by the dispatch
loop.  When a callback starts, every signal object, baseline included, is as
at entry to `rac_advance`; the signal it is called for asks to be emitted, and
`rac_signal_value` on it gives the watched storage (for a sized signal) or
the pointer stored there (for a pointer-identity signal), which differs from
the baseline. -/
theorem C7_two_pass_ordering (code : Code)
    (hcode : ∀ f sig s s1, code f sig s = some s1 → s1.signalAt = s.signalAt)
    (fuel : Nat) (s : State) (calls : List Call) (s2 : State)
    (h : rac_advance code fuel s = some (calls, s2)) :
    ∃ s1, rac_advance_dispatch code fuel 0 s = some (calls, s1) ∧
      rac_advance_reset (s1.rac_machine.signals.items + 1) 0 s1 = some s2 ∧
      ∀ c ∈ calls, c.pre.signalAt = s.signalAt ∧
        ∃ b g, c.pre.bindAt c.bind = some b ∧ s.signalAt b.signal = some g ∧
          rac_signal_should_emit c.pre.mem g = some true ∧
          (g.current.isNull = false →
            (g.size ≠ 0 → rac_signal_value c.pre.mem g = g.current ∧
              g.currentBytes c.pre.mem g.size ≠ wordBytes g.size g.old) ∧
            (g.size = 0 → rac_signal_value c.pre.mem g = .addr (g.currentWord c.pre.mem) ∧
              g.currentWord c.pre.mem ≠ g.old)) := by
  unfold rac_advance at h
  cases hd : rac_advance_dispatch code fuel 0 s with
  | none => simp [hd] at h
  | some r =>
    obtain ⟨calls1, s1⟩ := r
    simp only [hd, Option.map_eq_some', Prod.mk.injEq] at h
    obtain ⟨s2', hr, hc, hs⟩ := h
    subst hc hs
    refine ⟨s1, rfl, hr, ?_⟩
    intro c hc
    obtain ⟨_, hpre⟩ := dispatch_pre code hcode fuel 0 s calls1 s1 hd
    obtain ⟨hsig, hemit⟩ := hpre c hc
    refine ⟨hsig, ?_⟩
    unfold rac_bind_should_emit at hemit
    cases hb : c.pre.bindAt c.bind with
    | none => simp [hb] at hemit
    | some b =>
      simp only [hb] at hemit
      split_ifs at hemit with h0
      cases hg : c.pre.signalAt b.signal with
      | none => simp [hg] at hemit
      | some g =>
        simp only [hg] at hemit
        rw [hsig] at hg
        exact ⟨b, g, rfl, hg, hemit, value_of_should_emit c.pre.mem g hemit⟩

/-! ## Emit, then advance -/

/-- The call `rac_signal_emit` on a registered signal of a valid state. -/
theorem emit_at_spec (s : State) (t v n : Nat) (hv : s.Valid)
    (ht : t ∈ s.rac_machine.signals.content) (hn : n ≤ sizeof_intptr) :
    ∃ g, s.signalAt t = some g ∧ t ≠ 0 ∧
      rac_emit_at t v n s = some { s with
        signalAt := fun q => if q = t then some (rac_signal_emit g v n) else s.signalAt q } ∧
      State.Valid { s with
        signalAt := fun q => if q = t then some (rac_signal_emit g v n) else s.signalAt q } := by
  obtain ⟨hvb, hvs, hokb, hoks⟩ := hv
  obtain ⟨h0, g, hg, _⟩ := hoks t ht
  have hsig : ∀ p, s.SignalOk p → State.SignalOk { s with
      signalAt := fun q => if q = t then some (rac_signal_emit g v n) else s.signalAt q } p := by
    intro p hp
    obtain ⟨hp0, g', hg', hsz⟩ := hp
    by_cases hpt : p = t
    · exact ⟨hp0, rac_signal_emit g v n, by simp [hpt], Or.inr hn⟩
    · exact ⟨hp0, g', by simp [hpt, hg'], hsz⟩
  refine ⟨g, hg, h0, by simp [rac_emit_at, h0, hg], hvb, hvs, ?_, ?_⟩
  · intro p hp
    obtain ⟨b, hb, hs⟩ := hokb p hp
    exact ⟨b, hb, hsig _ hs⟩
  · intro p hp
    exact hsig p (hoks p hp)

/-- Claim C4.  An emitted value is consumed by one advance: for a registered
signal, a value `v` and a size `n ≤ sizeof(intptr_t)`, `rac_signal_emit`
followed by one `rac_advance` (whose callbacks do not emit) leaves the signal
with `rac_signal_should_emit` false and the registries and binding objects as
they were, and a second `rac_advance` invokes no binding that watches the
signal. -/
theorem C4_emit_consumed (code : Code) (s : State) (t v n fuel : Nat) (hv : s.Valid)
    (ht : t ∈ s.rac_machine.signals.content) (hn : n ≤ sizeof_intptr)
    (hf : s.rac_machine.binds.items + 1 ≤ fuel) :
    ∃ s1, rac_emit_at t v n s = some s1 ∧
      (code.InertOn s1 →
        ∃ calls s2, rac_advance code fuel s1 = some (calls, s2) ∧
          (∃ g2, s2.signalAt t = some g2 ∧ rac_signal_should_emit s2.mem g2 = some false) ∧
          s2.rac_machine = s1.rac_machine ∧ s2.bindAt = s1.bindAt ∧ s2.Valid ∧
          (code.InertOn s2 →
            ∃ calls2 s3, rac_advance code fuel s2 = some (calls2, s3) ∧
              ∀ c ∈ calls2, s2.watches t c.bind = false)) := by
  obtain ⟨g, hg, h0, hemit, hv1⟩ := emit_at_spec s t v n hv ht hn
  refine ⟨_, hemit, ?_⟩
  intro hin1
  obtain ⟨calls, s2, hadv, _, _, hmach, hbind, hmem, _, hv2, hreset, _⟩ :=
    advance_spec code _ fuel hv1 hin1 hf
  obtain ⟨g0, g1, hr, hg1⟩ := hreset t ht
  have hfalse : rac_signal_should_emit s2.mem g1 = some false := by
    rw [hmem]
    exact should_emit_after_reset _ g0 g1 hr
  refine ⟨calls, s2, hadv, ⟨g1, hg1, hfalse⟩, hmach, hbind, hv2, ?_⟩
  intro hin2
  obtain ⟨calls2, s3, hadv2, hdue2, _⟩ :=
    advance_spec code s2 fuel hv2 hin2 (by rw [hmach]; exact hf)
  refine ⟨calls2, s3, hadv2, ?_⟩
  intro c hc
  have hmemb : c.bind ∈ s2.due := by
    rw [← hdue2]
    exact List.mem_map_of_mem _ hc
  have hdue : rac_bind_should_emit c.bind s2 = some true := by
    simpa using (List.mem_filter.mp hmemb).2
  by_contra hw
  have hw1 : s2.watches t c.bind = true := by simpa using hw
  rw [bind_should_emit_of_watches s2 t c.bind g1 h0 hg1 hw1, hfalse] at hdue
  cases hdue

/-! ## Removing a binding -/

/-- Claim C9.  A removed binding never fires again: for a valid state whose
binding registry holds `b` (once, as every pointer `calloc` returned),
`rac_bind_remove` returns; the registry then holds the other bindings in their
order and no longer `b`, the other binding objects are untouched; and in every
later state with that registry, whatever happened to the signals and to the
watched storage, `rac_advance` invokes exactly the remaining bindings whose
signal changed, in registry order, and never `b`. -/
theorem C9_removed_binding_silent (ok : Bool) (s : State) (b : Nat) (hv : s.Valid)
    (hnd : s.rac_machine.binds.content.Nodup) (hb : b ∈ s.rac_machine.binds.content) :
    ∃ s1, rac_bind_remove ok b s = some s1 ∧
      s1.rac_machine.binds.content = s.rac_machine.binds.content.erase b ∧
      b ∉ s1.rac_machine.binds.content ∧ s1.Valid ∧
      (∀ p, p ≠ b → s1.bindAt p = s.bindAt p) ∧
      ∀ (code : Code) (s2 : State) (fuel : Nat),
        s2.rac_machine.binds = s1.rac_machine.binds → s2.Valid → code.InertOn s2 →
        s1.rac_machine.binds.items + 1 ≤ fuel →
        ∃ calls s3, rac_advance code fuel s2 = some (calls, s3) ∧
          calls.map Call.bind = (s.rac_machine.binds.content.erase b).filter
            (fun p => rac_bind_should_emit p s2 = some true) ∧
          ∀ c ∈ calls, c.bind ≠ b := by
  obtain ⟨hvb, hvs, hokb, hoks⟩ := hv
  obtain ⟨binds1, hrem, hcont, _, hvb1⟩ := remove_stored ok _ b hvb hb
  obtain ⟨bd, hbd, _⟩ := hokb b hb
  have hb0 : b ≠ 0 := by
    intro h
    subst h
    simp [rac_array_remove] at hrem
  have hnot : b ∉ binds1.content := by
    rw [hcont]
    exact hnd.not_mem_erase
  refine ⟨{ s with
      rac_machine := { s.rac_machine with binds := binds1 }
      bindAt := fun q => if q = b then none else s.bindAt q }, ?_, hcont, hnot, ?_, ?_, ?_⟩
  · simp [rac_bind_remove, hb0, hrem, hbd]
  · refine ⟨hvb1, hvs, ?_, hoks⟩
    intro p hp
    have hp1 : p ∈ s.rac_machine.binds.content := by
      have : p ∈ s.rac_machine.binds.content.erase b := by rw [← hcont]; exact hp
      exact List.mem_of_mem_erase this
    have hpb : p ≠ b := fun h => hnot (by rw [← h]; exact hp)
    obtain ⟨bp, hbp, hs⟩ := hokb p hp1
    exact ⟨bp, by simp [hpb, hbp], hs⟩
  · intro p hp
    simp [hp]
  · intro code s2 fuel hbinds hv2 hin2 hf
    obtain ⟨calls, s3, hadv, hdue, _⟩ :=
      advance_spec code s2 fuel hv2 hin2 (by rw [hbinds]; exact hf)
    have hc2 : s2.rac_machine.binds.content = s.rac_machine.binds.content.erase b := by
      rw [hbinds]
      exact hcont
    refine ⟨calls, s3, hadv, ?_, ?_⟩
    · rw [hdue, State.due, hc2]
    · intro c hc hcb
      have hmemb : c.bind ∈ s2.due := by
        rw [← hdue]
        exact List.mem_map_of_mem _ hc
      have : c.bind ∈ s2.rac_machine.binds.content := (List.mem_filter.mp hmemb).1
      rw [hbinds, hcb] at this
      exact hnot this

/-! ## Concrete runs -/

theorem content_ofList (l : List Nat) : (rac_array.ofList l).content = l := by
  unfold rac_array.content rac_array.ofList
  apply List.ext_getElem?
  intro j
  rw [getElem?_range_map]
  by_cases h : j < l.length
  · rw [if_pos h]
    show some (l.getD j 0) = l[j]?
    rw [List.getD_eq_getElem?_getD, List.getElem?_eq_getElem h]
    rfl
  · rw [if_neg h, List.getElem?_eq_none (by omega)]

theorem valid_ofList (l : List Nat) (h : 0 ∉ l) : (rac_array.ofList l).Valid := by
  refine ⟨fun hp => by simp [rac_array.ofList] at hp, ?_⟩
  intro b hb i hi
  simp only [rac_array.ofList, Option.some.injEq] at hb hi
  subst hb
  intro h0
  apply h
  have hi' : i < l.length := hi
  have : l.getD i 0 = l[i] := by
    rw [List.getD_eq_getElem?_getD, List.getElem?_eq_getElem hi']
    rfl
  simp only at h0
  rw [this] at h0
  rw [← h0]
  exact List.getElem_mem _

/-- The callbacks of the demo only print, when the signal they are called for
is live and, for `xchanged`, sized with a non-null current address. -/
theorem demo_inertOn (s : State)
    (h : ∀ p ∈ s.rac_machine.binds.content, ∃ b g, s.bindAt p = some b ∧ b.signal ≠ 0 ∧
      s.signalAt b.signal = some g ∧
      (b.function = 2 ∨ (b.function = 1 ∧ g.current.isNull = false ∧ g.size ≠ 0))) :
    demo_code.InertOn s := by
  intro p hp _ b hb out
  obtain ⟨b', g, hb', h0, hg, hfn⟩ := h p hp
  rw [hb] at hb'
  cases hb'
  rcases hfn with h2 | ⟨h1, hcur, hsz⟩
  · exact ⟨out ++ [Output.y_changed (rac_signal_value s.mem g)],
      by simp [demo_code, ychanged, h2, h0, hg]⟩
  · have hval : rac_signal_value s.mem g = g.current := by
      simp [rac_signal_value, hcur, hsz]
    have hd : ∃ d, derefInt s.mem g g.current = some d := by
      unfold derefInt
      cases hc : g.current with
      | addr a =>
        cases a with
        | zero => simp [hc, Ptr.isNull] at hcur
        | succ a => exact ⟨_, rfl⟩
      | emit => exact ⟨_, rfl⟩
    obtain ⟨d, hd⟩ := hd
    exact ⟨out ++ [Output.x_changed d],
      by simp [demo_code, xchanged, h1, h0, hg, hval, hd]⟩

theorem demo_inertOn_of_valid (s : State) (hv : s.Valid)
    (hfn : ∀ p ∈ s.rac_machine.binds.content, ∀ b, s.bindAt p = some b → b.function = 2) :
    demo_code.InertOn s := by
  apply demo_inertOn
  intro p hp
  obtain ⟨b, hb, h0, g, hg, _⟩ := hv.2.2.1 p hp
  exact ⟨b, g, hb, h0, hg, Or.inl (hfn p hp b hb)⟩

theorem demo_keeps_signals (f sig : Nat) (s s1 : State) (h : demo_code f sig s = some s1) :
    s1.signalAt = s.signalAt := by
  unfold demo_code at h
  split_ifs at h
  · unfold xchanged at h
    split_ifs at h
    cases hg : s.signalAt sig with
    | none => simp [hg] at h
    | some g =>
      simp only [hg, Option.map_eq_some'] at h
      obtain ⟨d, _, hs⟩ := h
      rw [← hs]
  · unfold ychanged at h
    split_ifs at h
    cases hg : s.signalAt sig with
    | none => simp [hg] at h
    | some g =>
      simp only [hg, Option.some.injEq] at h
      rw [← h]

theorem main_state_valid : main_state.Valid := by
  refine ⟨valid_ofList _ (by decide), valid_ofList _ (by decide), ?_, ?_⟩
  · intro p hp
    have hp1 : p ∈ [64, 96] := by rw [← content_ofList [64, 96]]; exact hp
    simp only [List.mem_cons, List.mem_singleton, List.not_mem_nil, or_false] at hp1
    rcases hp1 with rfl | rfl
    · exact ⟨⟨1, 48⟩, rfl, by decide, _, rfl, Or.inr (by decide)⟩
    · exact ⟨⟨2, 80⟩, rfl, by decide, _, rfl, Or.inr (by decide)⟩
  · intro p hp
    have hp1 : p ∈ [16, 32, 48, 80] := by rw [← content_ofList [16, 32, 48, 80]]; exact hp
    simp only [List.mem_cons, List.mem_singleton, List.not_mem_nil, or_false] at hp1
    rcases hp1 with rfl | rfl | rfl | rfl
    · exact ⟨by decide, _, rfl, Or.inr (by decide)⟩
    · exact ⟨by decide, _, rfl, Or.inr (by decide)⟩
    · exact ⟨by decide, _, rfl, Or.inr (by decide)⟩
    · exact ⟨by decide, _, rfl, Or.inr (by decide)⟩

theorem C6_state_valid : C6_state.Valid := by
  refine ⟨valid_ofList _ (by decide), valid_ofList _ (by decide), ?_, main_state_valid.2.2.2⟩
  intro p hp
  have hp1 : p ∈ [64, 96, 112] := by rw [← content_ofList [64, 96, 112]]; exact hp
  simp only [List.mem_cons, List.mem_singleton, List.not_mem_nil, or_false] at hp1
  rcases hp1 with rfl | rfl | rfl
  · exact ⟨⟨1, 48⟩, rfl, by decide, _, rfl, Or.inr (by decide)⟩
  · exact ⟨⟨2, 80⟩, rfl, by decide, _, rfl, Or.inr (by decide)⟩
  · exact ⟨⟨2, 48⟩, rfl, by decide, _, rfl, Or.inr (by decide)⟩

theorem C6_state_inert : demo_code.InertOn C6_state := by
  apply demo_inertOn
  intro p hp
  have hp1 : p ∈ [64, 96, 112] := by rw [← content_ofList [64, 96, 112]]; exact hp
  simp only [List.mem_cons, List.mem_singleton, List.not_mem_nil, or_false] at hp1
  rcases hp1 with rfl | rfl | rfl
  · exact ⟨⟨1, 48⟩, _, rfl, by decide, rfl, Or.inr ⟨rfl, rfl, by decide⟩⟩
  · exact ⟨⟨2, 80⟩, _, rfl, by decide, rfl, Or.inl rfl⟩
  · exact ⟨⟨2, 48⟩, _, rfl, by decide, rfl, Or.inl rfl⟩

theorem C4_state_valid : C4_state.Valid := by
  refine ⟨valid_ofList _ (by decide), valid_ofList _ (by decide), ?_, ?_⟩
  · intro p hp
    have hp1 : p ∈ [64] := by rw [← content_ofList [64]]; exact hp
    simp only [List.mem_singleton] at hp1
    subst hp1
    exact ⟨⟨2, 16⟩, rfl, by decide, _, rfl, Or.inr (by decide)⟩
  · intro p hp
    have hp1 : p ∈ [16] := by rw [← content_ofList [16]]; exact hp
    simp only [List.mem_singleton] at hp1
    subst hp1
    exact ⟨by decide, _, rfl, Or.inr (by decide)⟩

theorem C4_state_functions (p : Nat) (hp : p ∈ C4_state.rac_machine.binds.content)
    (b : rac_bind) (hb : C4_state.bindAt p = some b) : b.function = 2 := by
  have hp1 : p ∈ [64] := by rw [← content_ofList [64]]; exact hp
  simp only [List.mem_singleton] at hp1
  subst hp1
  cases hb
  rfl

/-- Witness of C4: the scenario of the specification, a pure-event signal on
which `1` is emitted with the size of an `int`. -/
theorem C4_emit_consumed_witness :
    ∃ s1 calls s2 calls2 s3, rac_emit_at 16 1 sizeof_int C4_state = some s1 ∧
      rac_advance demo_code 2 s1 = some (calls, s2) ∧
      (∃ g2, s2.signalAt 16 = some g2 ∧ rac_signal_should_emit s2.mem g2 = some false) ∧
      rac_advance demo_code 2 s2 = some (calls2, s3) ∧
      ∀ c ∈ calls2, s2.watches 16 c.bind = false := by
  have hmem : 16 ∈ C4_state.rac_machine.signals.content := by
    rw [show C4_state.rac_machine.signals.content = [16] from content_ofList [16]]
    exact List.mem_singleton.mpr rfl
  obtain ⟨s1, h1, h2⟩ := C4_emit_consumed demo_code C4_state 16 1 sizeof_int 2
    C4_state_valid hmem (by decide) (by decide)
  obtain ⟨g, _, _, he, hv1⟩ := emit_at_spec C4_state 16 1 sizeof_int C4_state_valid hmem
    (by decide)
  rw [he] at h1
  cases h1
  obtain ⟨calls, s2, h3, h4, hm, hb, hv2, h5⟩ :=
    h2 (demo_inertOn_of_valid _ hv1 C4_state_functions)
  obtain ⟨calls2, s3, h6, h7⟩ := h5 (demo_inertOn_of_valid s2 hv2 (by
    rw [hm, hb]
    exact C4_state_functions))
  exact ⟨_, calls, s2, calls2, s3, he, h3, h4, h6, h7⟩

/-- Witness of C6: two bindings watch the signal on `x`, which changed, and
one the signal on `y`, which did not. -/
theorem C6_dispatch_pass_witness :
    ∃ calls s2, rac_advance demo_code 4 C6_state = some (calls, s2) ∧
      calls.map Call.bind = [64, 112] := by
  obtain ⟨calls, s2, h1, h2, _⟩ :=
    C6_dispatch_pass demo_code C6_state 4 C6_state_valid C6_state_inert (by decide)
  refine ⟨calls, s2, h1, ?_⟩
  rw [h2, show C6_state.rac_machine.binds.content = [64, 96, 112] from
    content_ofList [64, 96, 112]]
  decide

/-- Witness of C7: the scenario of `main` on `x`, at the `rac_advance` that
follows `x = 35`. -/
theorem C7_two_pass_ordering_witness :
    ∃ calls s2,
      rac_advance demo_code 2
        (observe_state (storeInt (fun _ => 0) 1000 35) (intptr_of_int 5) [])
          = some (calls, s2) ∧
      calls.map Call.bind = [48] ∧
      ∀ c ∈ calls,
        c.pre.signalAt
          = (observe_state (storeInt (fun _ => 0) 1000 35) (intptr_of_int 5) []).signalAt ∧
        ∃ b g, c.pre.bindAt c.bind = some b ∧
          (observe_state (storeInt (fun _ => 0) 1000 35) (intptr_of_int 5) []).signalAt b.signal
            = some g ∧
          rac_signal_should_emit c.pre.mem g = some true ∧
          (g.current.isNull = false →
            (g.size ≠ 0 → rac_signal_value c.pre.mem g = g.current ∧
              g.currentBytes c.pre.mem g.size ≠ wordBytes g.size g.old) ∧
            (g.size = 0 → rac_signal_value c.pre.mem g = .addr (g.currentWord c.pre.mem) ∧
              g.currentWord c.pre.mem ≠ g.old)) := by
  have hemit := should_emit_int (fun _ => 0) 1000 5 35 (by decide) (by norm_num)
    (by norm_num) (by norm_num) (by norm_num)
  have hadv := observe_advance_true (storeInt (fun _ => 0) 1000 35) (intptr_of_int 5) []
    hemit
  obtain ⟨_, _, _, h⟩ := C7_two_pass_ordering demo_code demo_keeps_signals 2 _ _ _ hadv
  exact ⟨_, _, hadv, rfl, h⟩

/-- Witness of C9: `main` removes `bind1` and then `bind2`; in between `x` is
set to 35 and `rac_advance` is called. -/
theorem C9_removed_binding_silent_witness :
    ∃ s1 s2, rac_bind_remove true 64 main_state = some s1 ∧
      s1.rac_machine.binds.content = [96] ∧
      (∃ calls s3,
        rac_advance demo_code 3 { s1 with mem := storeInt s1.mem 1000 35 }
          = some (calls, s3) ∧
        ∀ c ∈ calls, c.bind ≠ 64) ∧
      rac_bind_remove true 96 s1 = some s2 ∧ s2.rac_machine.binds.content = [] := by
  have hc : main_state.rac_machine.binds.content = [64, 96] := content_ofList [64, 96]
  obtain ⟨s1, h1, h2, _, hv1, hb1, hall⟩ := C9_removed_binding_silent true main_state 64
    main_state_valid (by rw [hc]; decide) (by rw [hc]; decide)
  have hc1 : s1.rac_machine.binds.content = [96] := by
    rw [h2, hc]
    decide
  have hitems : s1.rac_machine.binds.items = 1 := by
    rw [← content_length _ hv1.1, hc1]
    rfl
  have hv2 : State.Valid { s1 with mem := storeInt s1.mem 1000 35 } :=
    ⟨hv1.1, hv1.2.1, hv1.2.2.1, hv1.2.2.2⟩
  have hin : demo_code.InertOn { s1 with mem := storeInt s1.mem 1000 35 } := by
    refine demo_inertOn_of_valid { s1 with mem := storeInt s1.mem 1000 35 } hv2 ?_
    intro p hp b hb
    have hp1 : p ∈ [96] := by rw [← hc1]; exact hp
    simp only [List.mem_singleton] at hp1
    subst hp1
    have hb2 : s1.bindAt 96 = some b := hb
    rw [hb1 96 (by decide)] at hb2
    cases hb2
    rfl
  obtain ⟨calls, s3, h3, _, h5⟩ :=
    hall demo_code { s1 with mem := storeInt s1.mem 1000 35 } 3 rfl hv2 hin
      (by rw [hitems]; decide)
  obtain ⟨s2, h6, h7, _⟩ := C9_removed_binding_silent true s1 96 hv1
    (by rw [hc1]; decide) (by rw [hc1]; decide)
  exact ⟨s1, s2, h1, hc1, ⟨calls, s3, h3, h5⟩, h6, by rw [h7, hc1]; decide⟩

theorem C10_array_reachable : C10_array.Reachable :=
  rac_array.Reachable.add true _ 7 7 C10_array
    (rac_array.Reachable.add true _ 6 6
      { ptr := some { bytes := 256, slot := fun j => if j = 1 then 6 else if j = 0 then 5 else 0 }
        items := 2, allocated := 32 }
      (rac_array.Reachable.add true rac_array.empty 5 5
        { ptr := some { bytes := 256, slot := fun j => if j = 0 then 5 else 0 }
          items := 1, allocated := 32 }
        rac_array.Reachable.empty rfl)
      rfl)
    rfl

/-- Witness of C10: the item 6 is removed from the registry holding 5, 6, 7. -/
theorem C10_remove_erases_one_witness :
    ∃ array1, rac_array_remove true C10_array 6 = some array1 ∧
      array1.content = [5, 7] ∧ array1.items + 1 = 3 := by
  obtain ⟨a1, h1, h2, h3⟩ := C10_remove_erases_one true C10_array 6 C10_array_reachable
    (by decide)
  exact ⟨a1, h1, by rw [h2]; decide, h3⟩

/-- Witness of C5: the values of `main`, 5 and 35. -/
theorem C5_observe_mutate_advance_witness :
    observe_scenario 5 35
      = some (false, [48], [Output.x_changed 35], [], [Output.x_changed 35]) :=
  C5_observe_mutate_advance 5 35 (by norm_num) (by norm_num) (by norm_num) (by norm_num)
    (by norm_num)

/-! ## Registries: adding -/

theorem sample_array_reachable : sample_array.Reachable :=
  rac_array.Reachable.add true _ 7 7 sample_array
    (rac_array.Reachable.add true _ 6 6
      { ptr := some { bytes := 256, slot := fun j => if j = 1 then 6 else if j = 0 then 5 else 0 }
        items := 2, allocated := 32 }
      (rac_array.Reachable.add true rac_array.empty 5 5
        { ptr := some { bytes := 256, slot := fun j => if j = 0 then 5 else 0 }
          items := 1, allocated := 32 }
        rac_array.Reachable.empty rfl)
      rfl)
    rfl

/-- The statement `array->ptr[array->items++] = item` on a registry with a
block. -/
theorem store_spec (array : rac_array) (b : rac_block) (item : Nat)
    (hp : array.ptr = some b) :
    rac_array_store array item = some { array with
      ptr := some { b with slot := fun j => if j = array.items then item else b.slot j }
      items := array.items + 1 } := by
  simp [rac_array_store, hp]

/-- Claim C12.  Failed add is atomic: for a registry whose storage pointer is
null only when it has no free slot, and a non-null item (the
function asserts it), `rac_array_add` returns; it returns `NULL` if and only if
the registry is full (`allocated ≤ items`) and the growth allocation fails,
and in that case the registry (storage pointer, `items`, `allocated`) is
exactly what it was before the call. -/
theorem C12_failed_add_atomic (ok : Bool) (array : rac_array) (item : Nat) (hi : item ≠ 0)
    (hp : array.ptr = none → array.allocated ≤ array.items) :
    ∃ ret array1, rac_array_add ok array item = some (ret, array1) ∧
      (ret = 0 ↔ (array.allocated ≤ array.items ∧ ok = false)) ∧
      (ret = 0 → array1 = array) ∧
      (ok = false ↔ realloc ok array.ptr (rac_array_grow_size array) = none) := by
  have hre : ok = false ↔ realloc ok array.ptr (rac_array_grow_size array) = none := by
    cases ok <;> simp [realloc]
  by_cases hfull : array.allocated ≤ array.items
  · cases ok with
    | false =>
      exact ⟨0, array, by simp [rac_array_add, hi, hfull, rac_array_grow, realloc],
        by simp [hfull], fun _ => rfl, hre⟩
    | true =>
      refine ⟨item, { ptr := some { bytes := rac_array_grow_size array
                                    slot := fun j => if j = array.items then item
                                      else match array.ptr with
                                           | some b => b.slot j
                                           | none => 0 }
                      items := array.items + 1
                      allocated := array.allocated + 32 },
        by simp [rac_array_add, hi, hfull, rac_array_grow, realloc, rac_array_store],
        by simp [hi], fun h => absurd h hi, hre⟩
  · cases hb : array.ptr with
    | none => exact absurd (hp hb) hfull
    | some b =>
      refine ⟨item, { array with
          ptr := some { b with slot := fun j => if j = array.items then item else b.slot j }
          items := array.items + 1 },
        by simp [rac_array_add, hi, hfull, store_spec array b item hb],
        by simp [hi, hfull], fun h => absurd h hi, ?_⟩
      rw [← hb]
      exact hre

/-! ## Registries: iterating -/

/-- The traversal loop from cursor `iter` on. -/
theorem traverse_spec (array : rac_array) (hv : array.Valid) (fuel iter : Nat)
    (hf1 : 1 ≤ fuel) (hf : array.items + 1 ≤ fuel + iter) (hle : iter ≤ array.items) :
    rac_array_traverse array fuel iter
      = some (array.content.drop iter, array.items - iter + 1) := by
  induction fuel generalizing iter with
  | zero => omega
  | succ fuel ih =>
    rw [rac_array_traverse]
    by_cases hge : array.items ≤ iter
    · rw [iter_of_ge array iter hge, content_drop_of_le array iter hv hge]
      have : array.items - iter = 0 := by omega
      simp [this]
    · have hlt : iter < array.items := by omega
      cases hp : array.ptr with
      | none => have := hv.1 hp; omega
      | some b =>
        have hne : b.slot iter ≠ 0 := hv.2 b hp iter hlt
        rw [iter_of_lt array b iter hp hlt]
        simp only [hne, if_false]
        rw [ih (iter + 1) (by omega) (by omega) (by omega), content_drop array b iter hp hlt]
        have : array.items - (iter + 1) + 1 + 1 = array.items - iter + 1 := by omega
        simp [this]

/-- Claim C15.  Iteration yields every stored item once, in order, and stops:
for a registry holding non-null items, the call of `rac_array_iter` with a
cursor `i < items` returns `ptr[i]`, which is not `NULL`, and advances the
cursor by 1; the call with cursor `items` returns `NULL` and leaves the cursor
alone; so the traversal from cursor 0 yields exactly the stored items in
order and makes exactly `items + 1` calls. -/
theorem C15_iteration (array : rac_array) (hv : array.Valid) :
    (∀ i < array.items, ∃ b, array.ptr = some b ∧ b.slot i ≠ 0 ∧
      rac_array_iter array i = some (b.slot i, i + 1)) ∧
    rac_array_iter array array.items = some (0, array.items) ∧
    rac_array_traverse array (array.items + 1) 0 = some (array.content, array.items + 1) := by
  refine ⟨?_, iter_of_ge array _ (Nat.le_refl _), ?_⟩
  · intro i hi
    cases hp : array.ptr with
    | none => have := hv.1 hp; omega
    | some b => exact ⟨b, rfl, hv.2 b hp i hi, iter_of_lt array b i hp hi⟩
  · rw [traverse_spec array hv (array.items + 1) 0 (by omega) (by omega) (by omega)]
    simp

/-! ## Signals: the value accessor -/

/-- Claim C16.  Emit / value round trip: after `rac_signal_emit(signal, v, n)`
with `v` an `intptr_t`, `rac_signal_value` gives back the emitted value: the
pointer `v` itself when `n = 0`; when `n` is not 0, the address of the scratch
slot, whose first `n` bytes (for `n ≤ sizeof(intptr_t)`) are the `n` low-order
bytes of `v`.  For a signal with a null current pointer, as a pure-event
signal that was never emitted on has, `rac_signal_value` returns `NULL`. -/
theorem C16_emit_value_round_trip (mem : Nat → Nat) (signal : rac_signal) (v n : Nat)
    (hv : v < 2 ^ 64) :
    (n = 0 → rac_signal_value mem (rac_signal_emit signal v n) = Ptr.addr v) ∧
    (n ≠ 0 → rac_signal_value mem (rac_signal_emit signal v n) = Ptr.emit ∧
      (n ≤ sizeof_intptr →
        (rac_signal_emit signal v n).currentBytes mem n = wordBytes n v ∧
        ∀ i < n, (rac_signal_emit signal v n).currentByte mem i = v / 256 ^ i % 256)) ∧
    (signal.current = Ptr.addr 0 → rac_signal_value mem signal = Ptr.addr 0) := by
  refine ⟨?_, ?_, ?_⟩
  · intro h0
    subst h0
    have hw : (rac_signal_emit signal v 0).currentWord mem = v := by
      unfold rac_signal.currentWord
      rw [currentBytes_emit, bytesWord_wordBytes]
      have : (256 : Nat) ^ sizeof_intptr = 2 ^ 64 := by norm_num [sizeof_intptr]
      rw [this]
      exact Nat.mod_eq_of_lt hv
    have hval : rac_signal_value mem (rac_signal_emit signal v 0)
        = Ptr.addr ((rac_signal_emit signal v 0).currentWord mem) := by
      simp [rac_signal_value, rac_signal_emit, Ptr.isNull]
    rw [hval, hw]
  · intro hn
    refine ⟨by simp [rac_signal_value, rac_signal_emit, Ptr.isNull, hn], ?_⟩
    intro _
    exact ⟨currentBytes_emit mem signal v n n, fun i _ => rfl⟩
  · intro hc
    simp [rac_signal_value, hc, Ptr.isNull]

/-! ## Registries: the capacity invariant -/

theorem remove_at_fields (array : rac_array) (k : Nat) :
    (rac_array_remove_at array k).items ≤ array.items ∧
      (rac_array_remove_at array k).allocated = array.allocated := by
  unfold rac_array_remove_at
  by_cases h1 : k < array.items
  · by_cases h2 : array.items > 0
    · simp [h1, h2]
    · simp [h1, h2]
  · by_cases h2 : array.items > 0
    · simp [h1, h2]
    · simp [h1, h2]

/-- The end of `rac_array_remove` establishes the capacity invariant. -/
theorem remove_tail_capacity (ok : Bool) (array a1 : rac_array)
    (hle : array.items ≤ array.allocated) (h : rac_array_remove_tail ok array = some a1) :
    a1.items ≤ a1.allocated ∧ (a1.items = 0 → a1.allocated = 0 ∧ a1.ptr = none) := by
  unfold rac_array_remove_tail at h
  by_cases h0 : array.items = 0
  · rw [if_pos h0] at h
    cases h
    exact ⟨Nat.le_refl _, fun _ => ⟨rfl, rfl⟩⟩
  · rw [if_neg h0] at h
    by_cases hlt : array.items < size_t_sub array.allocated 32
    · rw [if_pos hlt] at h
      have hle1 : array.items ≤ size_t_sub array.allocated 32 := Nat.le_of_lt hlt
      cases ok with
      | false =>
        simp [rac_array_shrink, hle1, realloc] at h
        subst h
        exact ⟨hle, fun h => absurd h h0⟩
      | true =>
        simp [rac_array_shrink, hle1, realloc] at h
        subst h
        exact ⟨hle1, fun h => absurd h h0⟩
    · rw [if_neg hlt] at h
      cases h
      exact ⟨hle, fun h => absurd h h0⟩

/-- The capacity invariant after `rac_array_remove`. -/
theorem remove_capacity (ok : Bool) (array : rac_array) (item : Nat) (a1 : rac_array)
    (hle : array.items ≤ array.allocated) (h : rac_array_remove ok array item = some a1) :
    a1.items ≤ a1.allocated ∧ (a1.items = 0 → a1.allocated = 0 ∧ a1.ptr = none) := by
  unfold rac_array_remove at h
  split_ifs at h
  split at h
  · cases h
  · exact remove_tail_capacity ok array a1 hle h
  · rename_i iter _
    have hf := remove_at_fields array iter
    exact remove_tail_capacity ok _ a1 (by rw [hf.2]; omega) h

/-- The capacity invariant after `rac_array_add`. -/
theorem add_capacity (ok : Bool) (array : rac_array) (item ret : Nat) (a1 : rac_array)
    (hle : array.items ≤ array.allocated)
    (h0 : array.items = 0 → array.allocated = 0 ∧ array.ptr = none)
    (h : rac_array_add ok array item = some (ret, a1)) :
    a1.items ≤ a1.allocated ∧ (a1.items = 0 → a1.allocated = 0 ∧ a1.ptr = none) := by
  unfold rac_array_add at h
  split_ifs at h with hi hfull
  · cases ok with
    | false =>
      simp [rac_array_grow, realloc] at h
      rw [← h.2]
      exact ⟨hle, h0⟩
    | true =>
      simp [rac_array_grow, realloc, rac_array_store] at h
      rw [← h.2]
      exact ⟨by simp only; omega, fun h => by simp at h⟩
  · cases hp : array.ptr with
    | none => simp [rac_array_store, hp] at h
    | some b =>
      simp [rac_array_store, hp] at h
      rw [← h.2]
      exact ⟨by simp only; omega, fun h => by simp at h⟩

/-- Every registry reachable by add, remove and flush is valid and satisfies
the capacity invariant. -/
theorem reachableF_invariant (array : rac_array) (h : array.ReachableF) :
    array.Valid ∧ array.items ≤ array.allocated ∧
      (array.items = 0 → array.allocated = 0 ∧ array.ptr = none) := by
  induction h with
  | empty =>
    exact ⟨⟨fun _ => rfl, fun b hb => by simp [rac_array.empty] at hb⟩, Nat.le_refl _,
      fun _ => ⟨rfl, rfl⟩⟩
  | add ok array item ret array1 _ hadd ih =>
    exact ⟨add_valid ok array item ret array1 ih.1 hadd,
      add_capacity ok array item ret array1 ih.2.1 ih.2.2 hadd⟩
  | remove ok array item array1 _ hrem ih =>
    exact ⟨remove_valid ok array item array1 ih.1 hrem,
      remove_capacity ok array item array1 ih.2.1 hrem⟩
  | flush array _ _ =>
    exact ⟨⟨fun _ => rfl, fun b hb => by simp [rac_array_flush] at hb⟩, Nat.le_refl _,
      fun _ => ⟨rfl, rfl⟩⟩

theorem reachableF_of_reachable (array : rac_array) (h : array.Reachable) :
    array.ReachableF := by
  induction h with
  | empty => exact rac_array.ReachableF.empty
  | add ok array item ret array1 _ hadd ih =>
    exact rac_array.ReachableF.add ok array item ret array1 ih hadd
  | remove ok array item array1 _ hrem ih =>
    exact rac_array.ReachableF.remove ok array item array1 ih hrem

/-- Claim C13.  Registry capacity invariant: in every registry reachable from
the empty one by `rac_array_add`, `rac_array_remove` and `rac_array_flush`,
`items ≤ allocated`, and `items = 0` implies `allocated = 0` with a null
storage pointer; in particular, removing the only item of a one-item registry
returns and leaves capacity 0. -/
theorem C13_capacity_invariant (array : rac_array) (h : array.ReachableF) :
    array.items ≤ array.allocated ∧
    (array.items = 0 → array.allocated = 0 ∧ array.ptr = none) ∧
    ∀ (ok : Bool) (item : Nat), array.items = 1 → item ∈ array.content →
      ∃ a1, rac_array_remove ok array item = some a1 ∧
        a1.items = 0 ∧ a1.allocated = 0 ∧ a1.ptr = none := by
  obtain ⟨hv, hle, h0⟩ := reachableF_invariant array h
  refine ⟨hle, h0, ?_⟩
  intro ok item h1 hi
  obtain ⟨a1, hrem, _, hit, _⟩ := remove_stored ok array item hv hi
  have hz : a1.items = 0 := by omega
  obtain ⟨_, _, hz1⟩ :=
    reachableF_invariant a1 (rac_array.ReachableF.remove ok array item a1 h hrem)
  exact ⟨a1, hrem, hz, (hz1 hz).1, (hz1 hz).2⟩

/-- Witness of C13: the only item of a one-item registry is removed. -/
theorem C13_capacity_invariant_witness :
    C13_array.items ≤ C13_array.allocated ∧
    ∃ a1, rac_array_remove true C13_array 5 = some a1 ∧
      a1.items = 0 ∧ a1.allocated = 0 ∧ a1.ptr = none := by
  have h := C13_capacity_invariant C13_array
    (rac_array.ReachableF.add true rac_array.empty 5 5 C13_array
      rac_array.ReachableF.empty rfl)
  exact ⟨h.1, h.2.2 true 5 rfl (by decide)⟩

/-! ## Registries: removing an absent item -/

/-- The scan of `rac_array_remove` for an item that is not stored ends without
a match. -/
theorem remove_scan_absent (array : rac_array) (item : Nat) (hv : array.Valid)
    (habs : item ∉ array.content) (fuel iter : Nat) (hf1 : 1 ≤ fuel)
    (hf : array.items + 1 ≤ fuel + iter) :
    rac_array_remove_scan array item fuel iter = some none := by
  induction fuel generalizing iter with
  | zero => omega
  | succ fuel ih =>
    by_cases hge : array.items ≤ iter
    · exact remove_scan_end array item fuel iter hge
    · have hlt : iter < array.items := by omega
      cases hp : array.ptr with
      | none => have := hv.1 hp; omega
      | some b =>
        rw [remove_scan_step array b item fuel iter hp hlt]
        have h0 : b.slot iter ≠ 0 := hv.2 b hp iter hlt
        have hne : b.slot iter ≠ item := by
          intro h
          apply habs
          rw [← h]
          exact mem_content_of_lt array b iter hp hlt
        rw [if_neg h0, if_pos hne]
        exact ih (iter + 1) (by omega) (by omega)

/-! ## Registries: the sizes of the accesses -/

/-- The shift of `rac_array_remove` at a match that is not the last item, with
the cursor at `iter`: it moves one word more than follow the match, reads the
slot of index `items`, and that word ends in the slot of index `items - 1`. -/
theorem remove_shift_reads (array : rac_array) (slot : Nat → Nat) (iter : Nat)
    (h1 : 1 ≤ iter) (hlt : iter < array.items) :
    rac_array_remove_count array iter / sizeof_intptr = (array.items - iter) + 1 ∧
      array.items ∈ memmove_reads iter (rac_array_remove_count array iter) ∧
      memmove slot (iter - 1) iter (rac_array_remove_count array iter) (array.items - 1)
        = slot array.items := by
  have hc : rac_array_remove_count array iter / sizeof_intptr = (array.items - iter) + 1 := by
    unfold rac_array_remove_count sizeof_intptr
    rw [Nat.mul_div_cancel _ (by norm_num : 0 < 8)]
    omega
  refine ⟨hc, ?_, ?_⟩
  · unfold memmove_reads
    rw [hc, List.mem_range']
    exact ⟨array.items - iter, by omega, by omega⟩
  · rw [memmove_remove array slot iter (array.items - 1) h1]
    have h2 : iter - 1 ≤ array.items - 1 ∧ array.items - 1 < array.items := by omega
    rw [if_pos h2]
    congr 1
    omega

/-- Claim C17.  Remove's shift moves one element too many.  At a match that is
not the last item (cursor `iter` with `1 ≤ iter < items`, match at index
`iter - 1`) the `memmove` of `rac_array_remove` copies `items - (iter - 1)`
words, one more than the `items - iter` words that follow the match, and so
reads the slot of index `items`, past the logical end.  The registry made by
adding the items 1 to 32 is full, 32 items in a block of 256 bytes; removing
its first item runs that `memmove` with 32 words, and the slot of index 32 it
reads lies outside the block. -/
theorem C17_shift_one_too_many :
    (∀ (array : rac_array) (slot : Nat → Nat) (iter : Nat), 1 ≤ iter → iter < array.items →
      rac_array_remove_count array iter / sizeof_intptr = (array.items - iter) + 1 ∧
      array.items ∈ memmove_reads iter (rac_array_remove_count array iter) ∧
      memmove slot (iter - 1) iter (rac_array_remove_count array iter) (array.items - 1)
        = slot array.items) ∧
    ∃ array b, full_array = some array ∧ array.ptr = some b ∧
      array.items = 32 ∧ array.allocated = 32 ∧ b.bytes = 256 ∧
      rac_array_remove_scan array 1 (array.items + 1) 0 = some (some 1) ∧
      (rac_array_remove_at array 1).ptr
        = some { b with slot := memmove b.slot 0 1 (rac_array_remove_count array 1) } ∧
      rac_array_remove_count array 1 = 32 * sizeof_intptr ∧
      array.items ∈ memmove_reads 1 (rac_array_remove_count array 1) ∧
      ¬ b.holds array.items := by
  refine ⟨remove_shift_reads, ?_⟩
  have hnum : (full_array.map fun a => (a.items, a.allocated, a.ptr.map rac_block.bytes,
      rac_array_remove_scan a 1 (a.items + 1) 0)) = some (32, 32, some 256, some (some 1)) := by
    decide
  cases ha : full_array with
  | none => simp [ha] at hnum
  | some a =>
    simp only [ha, Option.map_some', Option.some.injEq, Prod.mk.injEq] at hnum
    obtain ⟨hit, hal, hby, hscan⟩ := hnum
    cases hp : a.ptr with
    | none => simp [hp] at hby
    | some b =>
      simp only [hp, Option.map_some', Option.some.injEq] at hby
      obtain ⟨hcount, hreads, _⟩ := remove_shift_reads a b.slot 1 (by decide)
        (by rw [hit]; decide)
      refine ⟨a, b, rfl, hp, hit, hal, hby, hscan, ?_, ?_, hreads, ?_⟩
      · have hlt : 1 < a.items := by rw [hit]; decide
        have hpos : 0 < a.items := by omega
        simp [rac_array_remove_at, hlt, hp, hpos]
      · simp [rac_array_remove_count, hit]
      · unfold rac_block.holds
        rw [hit, hby]
        decide

/-- Witness of C17: the shift at a match at index 1 of the registry holding
5, 6, 7. -/
theorem C17_shift_one_too_many_witness :
    rac_array_remove_count sample_array 2 / sizeof_intptr = (sample_array.items - 2) + 1 ∧
      sample_array.items ∈ memmove_reads 2 (rac_array_remove_count sample_array 2) ∧
      memmove (fun j => j + 100) (2 - 1) 2 (rac_array_remove_count sample_array 2)
          (sample_array.items - 1)
        = (fun j => j + 100) sample_array.items :=
  C17_shift_one_too_many.1 sample_array (fun j => j + 100) 2 (by decide) (by decide)

/-- The size `rac_array_grow` requests is that of `allocated + 32` slots for
an empty registry only. -/
theorem grow_size_eq_iff (array : rac_array) :
    rac_array_grow_size array = (array.allocated + 32) * sizeof_intptr ↔
      array.allocated = 0 := by
  unfold rac_array_grow_size sizeof_intptr
  omega

set_option maxRecDepth 100000 in
/-- Claim C18, at a full first block.  The full registry made by adding the
items 1 to 32 (capacity 32): `rac_array_grow` asks `realloc` for
`32 + 32 * 8 = 288` bytes, not for the `(32 + 32) * 8 = 512` bytes of 64
slots; after the granted growth `allocated` is 64 and the block has 288 bytes,
so the slot of index 36, below `allocated`, lies outside the block.  In
general the requested size is that of `allocated + 32` slots only when
`allocated = 0`. -/
theorem C18_grow_size_at_full_block :
    (∃ array a1 b1, full_array = some array ∧ array.allocated = 32 ∧
      rac_array_grow_size array = 288 ∧ (array.allocated + 32) * sizeof_intptr = 512 ∧
      rac_array_grow true array = (true, a1) ∧ a1.allocated = 64 ∧
      a1.ptr = some b1 ∧ b1.bytes = 288 ∧ ¬ b1.holds 36) ∧
    ∀ array : rac_array,
      rac_array_grow_size array = (array.allocated + 32) * sizeof_intptr ↔
        array.allocated = 0 := by
  refine ⟨?_, grow_size_eq_iff⟩
  have hnum : (full_array.map fun a => a.allocated) = some 32 := by decide
  cases ha : full_array with
  | none => simp [ha] at hnum
  | some a =>
    simp only [ha, Option.map_some', Option.some.injEq] at hnum
    have hsize : rac_array_grow_size a = 288 := by
      simp [rac_array_grow_size, hnum, sizeof_intptr]
    refine ⟨a, { a with
        ptr := some { bytes := rac_array_grow_size a
                      slot := fun i => match a.ptr with
                                       | some b => b.slot i
                                       | none => 0 }
        allocated := a.allocated + 32 }, _, rfl, hnum, hsize, ?_, ?_, ?_, rfl, hsize, ?_⟩
    · rw [hnum]
      rfl
    · simp [rac_array_grow, realloc]
    · show a.allocated + 32 = 64
      rw [hnum]
    · unfold rac_block.holds
      show ¬ (36 + 1) * sizeof_intptr ≤ rac_array_grow_size a
      rw [hsize]
      decide

set_option maxRecDepth 100000 in
/-- Claim C19, at a capacity of nine blocks.  The registry with 256 items in a
capacity of 288 (the items 1 to 257 were added, the item 1 was removed):
removing the item 2 leaves 255 items, fewer than `288 - 32`, and triggers the
shrink; `rac_array_shrink` asks `realloc` for `288 - 32 * 8 = 32` bytes, not
for the `(288 - 32) * 8 = 2048` bytes of 256 slots; after the granted shrink
`allocated` is 256 and the block has 32 bytes, so the slot of index 4, one of
the 255 in use, lies outside the block.  With a capacity of 64 the size asked
for wraps around to `2 ^ 64 - 192` bytes. -/
theorem C19_shrink_size_at_nine_blocks :
    (∃ array a1 b1, nine_blocks_array = some array ∧
      array.items = 256 ∧ array.allocated = 288 ∧
      rac_array_remove_scan array 2 (array.items + 1) 0 = some (some 1) ∧
      (rac_array_remove_at array 1).items = 255 ∧
      (rac_array_remove_at array 1).items
        < size_t_sub (rac_array_remove_at array 1).allocated 32 ∧
      rac_array_shrink_size (rac_array_remove_at array 1) = 32 ∧
      ((rac_array_remove_at array 1).allocated - 32) * sizeof_intptr = 2048 ∧
      rac_array_remove true array 2 = some a1 ∧
      a1.items = 255 ∧ a1.allocated = 256 ∧ a1.ptr = some b1 ∧ b1.bytes = 32 ∧
      ¬ b1.holds 4) ∧
    rac_array_shrink_size { ptr := none, items := 31, allocated := 64 }
      = 18446744073709551424 := by
  refine ⟨?_, by decide⟩
  have hnum : (nine_blocks_array.map fun a => (a.items, a.allocated,
      rac_array_remove_scan a 2 (a.items + 1) 0))
      = some (256, 288, some (some 1)) := by
    decide
  have hnum1 : (nine_blocks_array.map fun a =>
      (rac_array_remove true a 2).map fun a1 =>
        (a1.items, a1.allocated, a1.ptr.map rac_block.bytes))
      = some (some (255, 256, some 32)) := by
    decide
  cases ha : nine_blocks_array with
  | none => simp [ha] at hnum
  | some a =>
    simp only [ha, Option.map_some', Option.some.injEq, Prod.mk.injEq] at hnum hnum1
    obtain ⟨hit, hal, hscan⟩ := hnum
    have hrem := hnum1
    cases hr : rac_array_remove true a 2 with
    | none => simp [hr] at hrem
    | some a1 =>
      simp only [hr, Option.map_some', Option.some.injEq, Prod.mk.injEq] at hrem
      obtain ⟨hit1, hal1, hby1⟩ := hrem
      cases hp1 : a1.ptr with
      | none => simp [hp1] at hby1
      | some b1 =>
        simp only [hp1, Option.map_some', Option.some.injEq] at hby1
        have hf := remove_at_fields a 1
        have hitems : (rac_array_remove_at a 1).items = 255 := by
          have hpos : 0 < a.items := by rw [hit]; decide
          have hlt : 1 < a.items := by rw [hit]; decide
          simp [rac_array_remove_at, hlt, hpos, hit]
        refine ⟨a, a1, b1, rfl, hit, hal, hscan, hitems, ?_, ?_, ?_, hr, hit1, hal1, hp1,
          hby1, ?_⟩
        · rw [hitems, hf.2, hal]
          decide
        · unfold rac_array_shrink_size
          rw [hf.2, hal]
          decide
        · rw [hf.2, hal]
          decide
        · unfold rac_block.holds
          rw [hby1]
          decide

/-! ## Registries: the runs with the size of the block enforced -/

theorem inBlock_valid (array : rac_array) (h : array.InBlock) : array.Valid := by
  rcases h with ⟨hp, hi, _⟩ | ⟨b, hp, _, _, _, hnz⟩
  · refine ⟨fun _ => hi, ?_⟩
    intro b hb
    rw [hp] at hb
    cases hb
  · refine ⟨fun h => (by rw [hp] at h; cases h), fun b1 hb1 i hi => ?_⟩
    rw [hp] at hb1
    cases hb1
    exact hnz i hi

/-- A registry the enforced runs keep holds at most 36 items, in a capacity of
at most 64. -/
theorem inBlock_bounds (array : rac_array) (h : array.InBlock) :
    array.items ≤ 36 ∧ array.allocated ≤ 64 ∧ array.items ≤ array.allocated := by
  rcases h with ⟨_, hi, ha⟩ | ⟨b, _, _, hb, hcap, _⟩
  · omega
  · simp only [sizeof_intptr] at hb
    omega

/-- The size `rac_array_shrink` asks for at a capacity of 64 is above
`PTRDIFF_MAX`, and `realloc` refuses it. -/
theorem realloc_checked_shrink_64 (ok : Bool) (array : rac_array) (h : array.allocated = 64) :
    realloc_checked ok array.ptr (rac_array_shrink_size array) = none := by
  have hs : rac_array_shrink_size array = 2 ^ 64 - 192 := by
    simp [rac_array_shrink_size, size_t_sub, h, sizeof_intptr]
  have hbig : ¬ (2 ^ 64 - 192 ≤ PTRDIFF_MAX) := by
    simp [PTRDIFF_MAX]
  unfold realloc_checked
  rw [hs, if_neg (fun h => hbig h.2)]

/-- The end of `rac_array_remove` on a registry with a block the enforced runs
keep: the flush of an empty registry, and nothing else, for the one shrink
that can be asked for is refused. -/
theorem remove_tail_checked_spec (ok : Bool) (array : rac_array) (b : rac_block)
    (hle : array.items ≤ array.allocated)
    (hcap : (array.allocated = 32 ∧ b.bytes = 256) ∨ (array.allocated = 64 ∧ b.bytes = 288)) :
    rac_array_remove_tail_checked ok array
      = some (if array.items = 0 then rac_array.empty else array) := by
  unfold rac_array_remove_tail_checked
  by_cases h0 : array.items = 0
  · simp [h0, rac_array_flush, rac_array.empty]
  · rw [if_neg h0, if_neg h0]
    rcases hcap with ⟨ha, _⟩ | ⟨ha, _⟩
    · have : size_t_sub array.allocated 32 = 0 := by simp [size_t_sub, ha]
      rw [this]
      simp
    · have hs : size_t_sub array.allocated 32 = 32 := by simp [size_t_sub, ha]
      rw [hs]
      by_cases hlt : array.items < 32
      · rw [if_pos hlt]
        unfold rac_array_shrink_checked
        rw [hs, if_pos (by omega), realloc_checked_shrink_64 ok array ha]
        rfl
      · rw [if_neg hlt]

theorem remove_at_bytes (array : rac_array) (k : Nat) :
    (rac_array_remove_at array k).ptr.map rac_block.bytes = array.ptr.map rac_block.bytes := by
  unfold rac_array_remove_at
  by_cases h1 : k < array.items
  · by_cases h2 : array.items > 0
    · cases hp : array.ptr <;> simp [h1, h2, hp]
    · cases hp : array.ptr <;> simp [h1, h2, hp]
  · by_cases h2 : array.items > 0
    · simp [h1, h2]
    · simp [h1, h2]

/-- Removing an item that is not stored, with the size of the block enforced,
leaves the registry as it is. -/
theorem remove_checked_absent (ok : Bool) (array : rac_array) (item : Nat)
    (h : array.InBlock) (hi : item ≠ 0) (habs : item ∉ array.content) :
    rac_array_remove_checked ok array item = some array := by
  have hscan := remove_scan_absent array item (inBlock_valid array h) habs
    (array.items + 1) 0 (by omega) (by omega)
  unfold rac_array_remove_checked
  rw [if_neg hi, hscan]
  show rac_array_remove_tail_checked ok array = some array
  rcases h with ⟨hp, hit, ha⟩ | ⟨b, hp, hpos, hb, hcap, _⟩
  · obtain ⟨p, i, a⟩ := array
    simp only at hp hit ha
    subst hp hit ha
    rfl
  · have hle : array.items ≤ array.allocated := by
      simp only [sizeof_intptr] at hb
      omega
    rw [remove_tail_checked_spec ok array b hle hcap, if_neg (by omega)]

/-- The enforced `rac_array_remove` keeps the registry inside its block. -/
theorem remove_checked_inBlock (ok : Bool) (array : rac_array) (item : Nat) (a1 : rac_array)
    (h : array.InBlock) (hr : rac_array_remove_checked ok array item = some a1) :
    a1.InBlock := by
  have hv := inBlock_valid array h
  unfold rac_array_remove_checked at hr
  by_cases hi : item = 0
  · simp [hi] at hr
  rw [if_neg hi] at hr
  rcases h with ⟨hp, hit, ha⟩ | ⟨b, hp, hpos, hb, hcap, hnz⟩
  · have hscan : rac_array_remove_scan array item (array.items + 1) 0 = some none := by
      rw [hit]
      simp [rac_array_remove_scan, rac_array_iter, hit]
    rw [hscan] at hr
    have : rac_array_remove_tail_checked ok array = some rac_array.empty := by
      simp [rac_array_remove_tail_checked, hit, rac_array_flush, rac_array.empty]
    rw [this] at hr
    cases hr
    exact Or.inl ⟨rfl, rfl, rfl⟩
  · have hle : array.items ≤ array.allocated := by
      simp only [sizeof_intptr] at hb
      omega
    obtain ⟨r, hscan, hk⟩ := remove_scan_result array b item hp (array.items + 1) 0
      (by omega) (by omega)
    rw [hscan] at hr
    cases r with
    | none =>
      have hr1 : rac_array_remove_tail_checked ok array = some a1 := hr
      rw [remove_tail_checked_spec ok array b hle hcap, if_neg (by omega)] at hr1
      cases hr1
      exact Or.inr ⟨b, hp, hpos, hb, hcap, hnz⟩
    | some k =>
      obtain ⟨hk0, hki⟩ := hk k rfl
      have hr1 : rac_array_remove_tail_checked ok (rac_array_remove_at array k) = some a1 := hr
      obtain ⟨b1, hp1, hit1, hal1, hslot⟩ := remove_at_spec array b k hp (by omega) hki
      have hbytes : b1.bytes = b.bytes := by
        have := remove_at_bytes array k
        rw [hp1, hp] at this
        simpa using this
      have hcap1 : ((rac_array_remove_at array k).allocated = 32 ∧ b1.bytes = 256) ∨
          ((rac_array_remove_at array k).allocated = 64 ∧ b1.bytes = 288) := by
        rw [hal1, hbytes]
        exact hcap
      rw [remove_tail_checked_spec ok _ b1 (by rw [hit1, hal1]; omega) hcap1] at hr1
      by_cases h0 : (rac_array_remove_at array k).items = 0
      · rw [if_pos h0] at hr1
        cases hr1
        exact Or.inl ⟨rfl, rfl, rfl⟩
      · rw [if_neg h0] at hr1
        cases hr1
        refine Or.inr ⟨b1, hp1, by omega, ?_, hcap1, ?_⟩
        · rw [hit1, hbytes]
          have : (array.items - 1) * sizeof_intptr ≤ array.items * sizeof_intptr :=
            Nat.mul_le_mul_right _ (by omega)
          omega
        · intro i hi1
          rw [hit1] at hi1
          rw [hslot i hi1]
          split_ifs
          · exact hnz (i + 1) (by omega)
          · exact hnz i (by omega)
/-- The enforced store on a registry whose slot of index `items` lies inside
the block. -/
theorem store_checked_spec (array : rac_array) (b : rac_block) (item : Nat)
    (hp : array.ptr = some b) (hfit : (array.items + 1) * sizeof_intptr ≤ b.bytes) :
    rac_array_store_checked array item = some { array with
      ptr := some { b with slot := fun j => if j = array.items then item else b.slot j }
      items := array.items + 1 } := by
  simp [rac_array_store_checked, hp, hfit]

/-- The enforced store on a registry whose slot of index `items` lies outside
the block does not return. -/
theorem store_checked_past_block (array : rac_array) (b : rac_block) (item : Nat)
    (hp : array.ptr = some b) (hfit : ¬ (array.items + 1) * sizeof_intptr ≤ b.bytes) :
    rac_array_store_checked array item = none := by
  simp [rac_array_store_checked, hp, hfit]

/-- A granted growth with the size of the block enforced. -/
theorem grow_checked_spec (array : rac_array) (hsz : rac_array_grow_size array ≤ PTRDIFF_MAX) :
    rac_array_grow_checked true array = (true, { array with
      ptr := some { bytes := rac_array_grow_size array
                    slot := fun i => match array.ptr with
                      | some b =>
                        if (i + 1) * sizeof_intptr ≤ b.bytes ∧
                            (i + 1) * sizeof_intptr ≤ rac_array_grow_size array
                        then b.slot i else 0
                      | none => 0 }
      allocated := array.allocated + 32 }) := by
  simp [rac_array_grow_checked, realloc_checked, hsz]

/-- What the enforced store leaves behind when the slot of index `items` lies
inside the block. -/
theorem store_checked_result (g : rac_array) (b : rac_block) (item : Nat)
    (hp : g.ptr = some b) (hfit : (g.items + 1) * sizeof_intptr ≤ b.bytes) :
    ∃ a1 b1, rac_array_store_checked g item = some a1 ∧ a1.ptr = some b1 ∧
      a1.items = g.items + 1 ∧ a1.allocated = g.allocated ∧ b1.bytes = b.bytes ∧
      b1.slot g.items = item ∧ ∀ j, j ≠ g.items → b1.slot j = b.slot j :=
  ⟨{ g with
      ptr := some { b with slot := fun j => if j = g.items then item else b.slot j }
      items := g.items + 1 },
    { b with slot := fun j => if j = g.items then item else b.slot j },
    store_checked_spec g b item hp hfit, rfl, rfl, rfl, rfl, by simp,
    fun j hj => by simp [hj]⟩

/-- What a granted growth leaves behind: a block of the size asked for, which
holds the words of the old block that lie inside both. -/
theorem grow_checked_result (array : rac_array)
    (hsz : rac_array_grow_size array ≤ PTRDIFF_MAX) :
    ∃ g bg, rac_array_grow_checked true array = (true, g) ∧ g.ptr = some bg ∧
      g.items = array.items ∧ g.allocated = array.allocated + 32 ∧
      bg.bytes = rac_array_grow_size array ∧
      ∀ b, array.ptr = some b → ∀ j, (j + 1) * sizeof_intptr ≤ b.bytes →
        (j + 1) * sizeof_intptr ≤ rac_array_grow_size array → bg.slot j = b.slot j :=
  ⟨{ array with
      ptr := some { bytes := rac_array_grow_size array
                    slot := fun i => match array.ptr with
                      | some b =>
                        if (i + 1) * sizeof_intptr ≤ b.bytes ∧
                            (i + 1) * sizeof_intptr ≤ rac_array_grow_size array
                        then b.slot i else 0
                      | none => 0 }
      allocated := array.allocated + 32 },
    { bytes := rac_array_grow_size array
      slot := fun i => match array.ptr with
        | some b =>
          if (i + 1) * sizeof_intptr ≤ b.bytes ∧
              (i + 1) * sizeof_intptr ≤ rac_array_grow_size array
          then b.slot i else 0
        | none => 0 },
    grow_checked_spec array hsz, rfl, rfl, rfl, rfl,
    fun b hb j h1 h2 => by simp [hb, h1, h2]⟩

/-- The enforced `rac_array_add` on a registry of fewer than 36 items that the
enforced runs keep: when growth is not needed or granted, the item is
appended. -/
theorem add_checked_spec (ok : Bool) (array : rac_array) (item : Nat)
    (h : array.InBlock) (hi : item ≠ 0) (h36 : array.items < 36)
    (hg : array.items < array.allocated ∨ ok = true) :
    ∃ array1 b1, rac_array_add_checked ok array item = some (item, array1) ∧
      array1.ptr = some b1 ∧ array1.items = array.items + 1 ∧
      b1.slot array.items = item ∧
      (∀ b, array.ptr = some b → ∀ j < array.items, b1.slot j = b.slot j) ∧
      (array.items < array.allocated → array1.allocated = array.allocated) ∧
      (¬ array.items < array.allocated → array1.allocated = array.allocated + 32) ∧
      array1.InBlock := by
  by_cases hlt : array.items < array.allocated
  · rcases h with ⟨_, hit, ha⟩ | ⟨b, hp, hpos, hb, hcap, hnz⟩
    · omega
    simp only [sizeof_intptr] at hb
    have hfit : (array.items + 1) * sizeof_intptr ≤ b.bytes := by
      simp only [sizeof_intptr]
      omega
    obtain ⟨a1, b1, hstore, hp1, hit1, hal1, hby1, hnew, hold⟩ :=
      store_checked_result array b item hp hfit
    refine ⟨a1, b1, ?_, hp1, hit1, hnew, ?_, fun _ => hal1, fun hn => absurd hlt hn, ?_⟩
    · unfold rac_array_add_checked
      rw [if_neg hi, if_neg (by omega), hstore]
      rfl
    · intro b' hb' j hj
      rw [hp] at hb'
      cases hb'
      exact hold j (by omega)
    · refine Or.inr ⟨b1, hp1, by omega, ?_, ?_, ?_⟩
      · rw [hit1, hby1]
        exact hfit
      · rw [hal1, hby1]
        exact hcap
      · intro i hi1
        by_cases hi0 : i = array.items
        · rw [hi0, hnew]
          exact hi
        · rw [hold i hi0]
          exact hnz i (by omega)
  · have hok : ok = true := by
      rcases hg with h | h
      · exact absurd h hlt
      · exact h
    subst hok
    have hfacts : (array.ptr = none ∧ array.items = 0 ∧ array.allocated = 0) ∨
        ∃ b, array.ptr = some b ∧ array.items = 32 ∧ array.allocated = 32 ∧ b.bytes = 256 ∧
          ∀ i < array.items, b.slot i ≠ 0 := by
      rcases h with h | ⟨b, hp, hpos, hb, hcap, hnz⟩
      · exact Or.inl h
      · simp only [sizeof_intptr] at hb
        exact Or.inr ⟨b, hp, by omega, by omega, by omega, hnz⟩
    have hsize : rac_array_grow_size array = array.allocated + 256 := by
      simp [rac_array_grow_size, sizeof_intptr]
    have hsz : rac_array_grow_size array ≤ PTRDIFF_MAX := by
      have : array.allocated ≤ 64 := (inBlock_bounds array h).2.1
      rw [hsize]
      simp only [PTRDIFF_MAX]
      omega
    obtain ⟨g, bg, hgrow, hpg, hitg, halg, hbyg, hkeep⟩ := grow_checked_result array hsz
    have hfit : (g.items + 1) * sizeof_intptr ≤ bg.bytes := by
      rw [hitg, hbyg, hsize]
      simp only [sizeof_intptr]
      rcases hfacts with ⟨_, hit, ha⟩ | ⟨_, _, hit, ha, _, _⟩ <;> omega
    obtain ⟨a1, b1, hstore, hp1, hit1, hal1, hby1, hnew, hold⟩ :=
      store_checked_result g bg item hpg hfit
    rw [hitg] at hit1 hnew hold
    have hslots : ∀ b, array.ptr = some b → ∀ j < array.items, b1.slot j = b.slot j := by
      intro b hb j hj
      rw [hold j (by omega)]
      apply hkeep b hb j
      · rcases hfacts with ⟨hp, _, _⟩ | ⟨b', hp, hit, _, hbytes, _⟩
        · rw [hp] at hb
          cases hb
        · rw [hp] at hb
          cases hb
          simp only [sizeof_intptr]
          omega
      · rw [hsize]
        simp only [sizeof_intptr]
        have := (inBlock_bounds array h).1
        omega
    refine ⟨a1, b1, ?_, hp1, hit1, hnew, hslots, fun hn => absurd hn hlt,
      fun _ => by rw [hal1, halg], ?_⟩
    · unfold rac_array_add_checked
      rw [if_neg hi, if_pos (by omega), hgrow]
      show (rac_array_store_checked g item).map _ = _
      rw [hstore]
      rfl
    · refine Or.inr ⟨b1, hp1, by omega, ?_, ?_, ?_⟩
      · rw [hit1, hby1, hbyg, hsize]
        simp only [sizeof_intptr]
        rcases hfacts with ⟨_, hit, ha⟩ | ⟨_, _, hit, ha, _, _⟩ <;> omega
      · rw [hal1, halg, hby1, hbyg, hsize]
        rcases hfacts with ⟨_, hit, ha⟩ | ⟨_, _, hit, ha, _, _⟩
        · exact Or.inl ⟨by omega, by omega⟩
        · exact Or.inr ⟨by omega, by omega⟩
      · intro i hi1
        by_cases hi0 : i = array.items
        · rw [hi0, hnew]
          exact hi
        · rcases hfacts with ⟨_, hit, _⟩ | ⟨b, hp, _, _, _, hnz⟩
          · omega
          · rw [hslots b hp i (by omega)]
            exact hnz i (by omega)

/-- The enforced `rac_array_add` on a registry of 36 items does not return:
the capacity is 64, no growth is asked for, and the slot of index 36 lies
outside the block of 288 bytes. -/
theorem add_checked_past_block (ok : Bool) (array : rac_array) (item : Nat)
    (h : array.InBlock) (hi : item ≠ 0) (h36 : array.items = 36) :
    array.items < array.allocated ∧ rac_array_add_checked ok array item = none := by
  rcases h with ⟨_, hit, _⟩ | ⟨b, hp, _, hb, hcap, _⟩
  · omega
  · simp only [sizeof_intptr] at hb
    have ha : array.allocated = 64 ∧ b.bytes = 288 := by omega
    refine ⟨by omega, ?_⟩
    unfold rac_array_add_checked
    rw [if_neg hi, if_neg (by omega),
      store_checked_past_block array b item hp (by simp only [sizeof_intptr]; omega)]
    rfl

/-- The enforced `rac_array_add` keeps the registry inside its block. -/
theorem add_checked_inBlock (ok : Bool) (array : rac_array) (item ret : Nat) (a1 : rac_array)
    (h : array.InBlock) (hr : rac_array_add_checked ok array item = some (ret, a1)) :
    a1.InBlock := by
  by_cases hi : item = 0
  · simp [rac_array_add_checked, hi] at hr
  by_cases h36 : array.items = 36
  · rw [(add_checked_past_block ok array item h hi h36).2] at hr
    cases hr
  have hlt : array.items < 36 := by
    have := (inBlock_bounds array h).1
    omega
  by_cases hg : array.items < array.allocated ∨ ok = true
  · obtain ⟨array1, _, hadd, _, _, _, _, _, _, hin⟩ := add_checked_spec ok array item h hi hlt hg
    rw [hadd] at hr
    cases hr
    exact hin
  · have hfull : array.allocated ≤ array.items := by omega
    have hok : ok = false := by
      cases ok
      · rfl
      · exact absurd (Or.inr rfl) hg
    subst hok
    have : rac_array_add_checked false array item = some (0, array) := by
      simp [rac_array_add_checked, hi, hfull, rac_array_grow_checked, realloc_checked]
    rw [this] at hr
    cases hr
    exact h

/-- Every registry the program can build lies inside its block. -/
theorem reachableChecked_inBlock (array : rac_array) (h : array.ReachableChecked) :
    array.InBlock := by
  induction h with
  | empty => exact Or.inl ⟨rfl, rfl, rfl⟩
  | add ok array item ret array1 _ hadd ih => exact add_checked_inBlock ok array item ret array1 ih hadd
  | remove ok array item array1 _ hrem ih => exact remove_checked_inBlock ok array item array1 ih hrem

theorem add_all_checked_reachable (l : List Nat) (array a1 : rac_array)
    (hr : array.ReachableChecked) (h : rac_array_add_all_checked array l = some a1) :
    a1.ReachableChecked := by
  induction l generalizing array with
  | nil =>
    simp only [rac_array_add_all_checked, Option.some.injEq] at h
    rw [← h]
    exact hr
  | cons x xs ih =>
    rw [rac_array_add_all_checked] at h
    cases hadd : rac_array_add_checked true array x with
    | none => simp [hadd] at h
    | some r =>
      obtain ⟨ret, a2⟩ := r
      simp only [hadd] at h
      exact ih a2 (rac_array.ReachableChecked.add true array x ret a2 hr hadd) h

theorem remove_all_checked_reachable (l : List Nat) (array a1 : rac_array)
    (hr : array.ReachableChecked) (h : rac_array_remove_all_checked array l = some a1) :
    a1.ReachableChecked := by
  induction l generalizing array with
  | nil =>
    simp only [rac_array_remove_all_checked, Option.some.injEq] at h
    rw [← h]
    exact hr
  | cons x xs ih =>
    rw [rac_array_remove_all_checked] at h
    cases hrem : rac_array_remove_checked true array x with
    | none => simp [hrem] at h
    | some a2 =>
      simp only [hrem] at h
      exact ih a2 (rac_array.ReachableChecked.remove true array x a2 hr hrem) h
theorem sample_array_reachableChecked : sample_array.ReachableChecked :=
  rac_array.ReachableChecked.add true _ 7 7 sample_array
    (rac_array.ReachableChecked.add true _ 6 6
      { ptr := some { bytes := 256, slot := fun j => if j = 1 then 6 else if j = 0 then 5 else 0 }
        items := 2, allocated := 32 }
      (rac_array.ReachableChecked.add true rac_array.empty 5 5
        { ptr := some { bytes := 256, slot := fun j => if j = 0 then 5 else 0 }
          items := 1, allocated := 32 }
        rac_array.ReachableChecked.empty rfl)
      rfl)
    rfl

set_option maxRecDepth 100000 in
/-- Claim C11, where the add leaves the block.  With the size of the block
enforced, the registry made by adding the items 1 to 36 has `items = 36` below
`allocated = 64`, so no growth is needed, in a block of 288 bytes, the size
`rac_array_grow` asked for; the slot of index 36 lies outside that block, and
`rac_array_add` of a further non-null item does not return an appended
registry: its store goes past the end of the block.  This is so for every
registry of 36 items the program can build, and no registry it can build holds
more.  Below 36 items the add is as the claim says: it returns the item,
`items` goes up by 1, the slot of index old `items` holds the item, the slots
below are unchanged, and `allocated` is unchanged or 32 more. -/
theorem C11_add_past_block :
    (∃ array b, last_slot_array = some array ∧ array.ReachableChecked ∧
      array.ptr = some b ∧ array.items = 36 ∧ array.allocated = 64 ∧ b.bytes = 288 ∧
      ¬ b.holds 36 ∧ ∀ ok, rac_array_add_checked ok array 37 = none) ∧
    (∀ (ok : Bool) (array : rac_array) (item : Nat), array.ReachableChecked → item ≠ 0 →
      array.items = 36 →
      array.items < array.allocated ∧ rac_array_add_checked ok array item = none) ∧
    (∀ array : rac_array, array.ReachableChecked → array.items ≤ 36) ∧
    (∀ (ok : Bool) (array : rac_array) (item : Nat), array.ReachableChecked → item ≠ 0 →
      array.items < 36 → (array.items < array.allocated ∨ ok = true) →
      ∃ array1 b1, rac_array_add_checked ok array item = some (item, array1) ∧
        array1.ptr = some b1 ∧ array1.items = array.items + 1 ∧
        b1.slot array.items = item ∧
        (∀ b, array.ptr = some b → ∀ j < array.items, b1.slot j = b.slot j) ∧
        (array.items < array.allocated → array1.allocated = array.allocated) ∧
        (¬ array.items < array.allocated → array1.allocated = array.allocated + 32)) := by
  refine ⟨?_, ?_, ?_, ?_⟩
  · have hnum : (last_slot_array.map fun a => (a.items, a.allocated, a.ptr.map rac_block.bytes))
        = some (36, 64, some 288) := by decide
    cases ha : last_slot_array with
    | none => simp [ha] at hnum
    | some a =>
      simp only [ha, Option.map_some', Option.some.injEq, Prod.mk.injEq] at hnum
      obtain ⟨hit, hal, hby⟩ := hnum
      have hreach : a.ReachableChecked :=
        add_all_checked_reachable _ _ a rac_array.ReachableChecked.empty ha
      cases hp : a.ptr with
      | none => simp [hp] at hby
      | some b =>
        simp only [hp, Option.map_some', Option.some.injEq] at hby
        refine ⟨a, b, rfl, hreach, hp, hit, hal, hby, ?_, ?_⟩
        · unfold rac_block.holds
          rw [hby]
          decide
        · intro ok
          exact (add_checked_past_block ok a 37 (reachableChecked_inBlock a hreach)
            (by decide) hit).2
  · intro ok array item hr hi h36
    exact add_checked_past_block ok array item (reachableChecked_inBlock array hr) hi h36
  · intro array hr
    exact (inBlock_bounds array (reachableChecked_inBlock array hr)).1
  · intro ok array item hr hi h36 hg
    obtain ⟨a1, b1, h1, h2, h3, h4, h5, h6, h7, _⟩ :=
      add_checked_spec ok array item (reachableChecked_inBlock array hr) hi h36 hg
    exact ⟨a1, b1, h1, h2, h3, h4, h5, h6, h7⟩

/-- Witness of C11: below 36 items the add appends, here the item 8 to the
registry holding 5, 6, 7. -/
theorem C11_add_past_block_witness :
    ∃ array1 b1, rac_array_add_checked true sample_array 8 = some (8, array1) ∧
      array1.ptr = some b1 ∧ array1.items = sample_array.items + 1 ∧
      b1.slot sample_array.items = 8 ∧
      (∀ b, sample_array.ptr = some b → ∀ j < sample_array.items, b1.slot j = b.slot j) ∧
      (sample_array.items < sample_array.allocated →
        array1.allocated = sample_array.allocated) ∧
      (¬ sample_array.items < sample_array.allocated →
        array1.allocated = sample_array.allocated + 32) :=
  C11_add_past_block.2.2.2 true sample_array 8 sample_array_reachableChecked (by decide)
    (by decide) (Or.inl (by decide))

/-- Claim C14.  Removing an absent item is a no-op: for every registry the
program can build by `rac_array_add` and `rac_array_remove` and every non-null
item not stored in it, `rac_array_remove` returns and leaves the registry as
it was: the stored sequence, `items`, `allocated` and the block.  The flush
branch runs on the empty registry only, which it leaves empty; the shrink
branch can be entered only at a capacity of 64, where the size it asks for is
`2 ^ 64 - 192` bytes, which `realloc` refuses, so that nothing changes. -/
theorem C14_remove_absent_noop (ok : Bool) (array : rac_array) (item : Nat)
    (hr : array.ReachableChecked) (hi : item ≠ 0) (habs : item ∉ array.content) :
    ∃ array1, rac_array_remove_checked ok array item = some array1 ∧
      array1.content = array.content ∧ array1.items = array.items ∧
      array1.allocated = array.allocated ∧ array1 = array := by
  have hin := reachableChecked_inBlock array hr
  exact ⟨array, remove_checked_absent ok array item hin hi habs, rfl, rfl, rfl, rfl⟩

set_option maxRecDepth 100000 in
/-- Witness of C14: the registry with a shrink pending, 31 items in a capacity
of 64 after 33 adds and 2 removals; removing the item 999, which is not
stored, leaves it as it is although the allocator has the memory. -/
theorem C14_remove_absent_noop_witness :
    ∃ a, pending_shrink_array = some a ∧ a.items = 31 ∧ a.allocated = 64 ∧
      a.items < size_t_sub a.allocated 32 ∧ 999 ∉ a.content ∧
      ∃ array1, rac_array_remove_checked true a 999 = some array1 ∧
        array1.content = a.content ∧ array1.items = a.items ∧
        array1.allocated = a.allocated ∧ array1 = a := by
  have hnum : (pending_shrink_array.map fun a =>
      (a.items, a.allocated, decide (999 ∈ a.content))) = some (31, 64, false) := by decide
  cases ha : pending_shrink_array with
  | none => simp [ha] at hnum
  | some a =>
    simp only [ha, Option.map_some', Option.some.injEq, Prod.mk.injEq] at hnum
    obtain ⟨hit, hal, hmem⟩ := hnum
    have habs : 999 ∉ a.content := by simpa using hmem
    have hreach : a.ReachableChecked := by
      unfold pending_shrink_array at ha
      obtain ⟨a2, h2, hr2⟩ := Option.bind_eq_some.mp ha
      exact remove_all_checked_reachable _ a2 a
        (add_all_checked_reachable _ _ a2 rac_array.ReachableChecked.empty h2) hr2
    refine ⟨a, rfl, hit, hal, ?_, habs, C14_remove_absent_noop true a 999 hreach (by decide) habs⟩
    rw [hit, hal]
    decide

/-! ## Registries: the enforced runs are runs of the plain functions

Every registry the program can build is, up to the words outside its items, a
registry the plain functions reach, with the same allocator answers for the
growths and the shrinks refused: what is proved of the registries the plain
functions reach holds of the registries the program can build. -/

theorem agree_ptr (a a1 : rac_array) (h : a.Agree a1) (b : rac_block) (hp : a.ptr = some b) :
    ∃ b1, a1.ptr = some b1 ∧ b1.bytes = b.bytes := by
  have h3 := h.2.2.1
  rw [hp] at h3
  cases hp1 : a1.ptr with
  | none => simp [hp1] at h3
  | some b1 => exact ⟨b1, rfl, by simpa [hp1] using h3⟩

theorem agree_ptr_none (a a1 : rac_array) (h : a.Agree a1) (hp : a.ptr = none) :
    a1.ptr = none := by
  have h3 := h.2.2.1
  rw [hp] at h3
  cases hp1 : a1.ptr with
  | none => rfl
  | some b1 => simp [hp1] at h3

theorem iter_agree (a a1 : rac_array) (h : a.Agree a1) (iter : Nat) :
    rac_array_iter a1 iter = rac_array_iter a iter := by
  unfold rac_array_iter
  rw [h.1]
  by_cases hge : iter ≥ a.items
  · rw [if_pos hge, if_pos hge]
  · rw [if_neg hge, if_neg hge]
    cases hp : a.ptr with
    | none => rw [agree_ptr_none a a1 h hp]
    | some b =>
      obtain ⟨b1, hp1, _⟩ := agree_ptr a a1 h b hp
      rw [hp1]
      simp only
      rw [h.2.2.2 b b1 hp hp1 iter (by omega)]

theorem scan_agree (a a1 : rac_array) (h : a.Agree a1) (item fuel iter : Nat) :
    rac_array_remove_scan a1 item fuel iter = rac_array_remove_scan a item fuel iter := by
  induction fuel generalizing iter with
  | zero => rfl
  | succ fuel ih =>
    rw [rac_array_remove_scan, rac_array_remove_scan, iter_agree a a1 h iter]
    cases rac_array_iter a iter with
    | none => rfl
    | some r =>
      obtain ⟨current, iter1⟩ := r
      simp only
      rw [ih iter1]

theorem remove_at_agree (a a1 : rac_array) (h : a.Agree a1) (b : rac_block)
    (hp : a.ptr = some b) (k : Nat) (hk : 1 ≤ k) (hki : k ≤ a.items) :
    (rac_array_remove_at a k).Agree (rac_array_remove_at a1 k) := by
  obtain ⟨b1, hp1, hby⟩ := agree_ptr a a1 h b hp
  obtain ⟨c, hc, hci, hca, hcs⟩ := remove_at_spec a b k hp hk hki
  obtain ⟨c1, hc1, hci1, hca1, hcs1⟩ := remove_at_spec a1 b1 k hp1 hk (by rw [h.1]; exact hki)
  refine ⟨by rw [hci1, hci, h.1], by rw [hca1, hca, h.2.1], ?_, ?_⟩
  · rw [remove_at_bytes, remove_at_bytes]
    exact h.2.2.1
  · intro d d1 hd hd1 j hj
    rw [hc] at hd
    rw [hc1] at hd1
    cases hd
    cases hd1
    rw [hci] at hj
    rw [hcs j hj, hcs1 j (by rw [h.1]; exact hj)]
    split_ifs
    · exact h.2.2.2 b b1 hp hp1 (j + 1) (by omega)
    · exact h.2.2.2 b b1 hp hp1 j (by omega)

/-- The end of `rac_array_remove` when the allocator refuses the shrink: the
flush of an empty registry, and nothing else. -/
theorem remove_tail_refused (a : rac_array) :
    rac_array_remove_tail false a = some (if a.items = 0 then rac_array.empty else a) := by
  unfold rac_array_remove_tail
  by_cases h0 : a.items = 0
  · simp [h0, rac_array_flush, rac_array.empty]
  · rw [if_neg h0, if_neg h0]
    by_cases hlt : a.items < size_t_sub a.allocated 32
    · rw [if_pos hlt]
      have hle : a.items ≤ size_t_sub a.allocated 32 := by omega
      simp [rac_array_shrink, hle, realloc]
    · rw [if_neg hlt]

theorem agree_refl (a : rac_array) : a.Agree a :=
  ⟨rfl, rfl, rfl, fun b b1 hb hb1 _ _ => by rw [hb] at hb1; cases hb1; rfl⟩

/-- A removal with the size of the block enforced is a removal by the plain
function with the shrink refused. -/
theorem remove_checked_agree (ok : Bool) (a a1 : rac_array) (item : Nat) (a2 : rac_array)
    (hin : a.InBlock) (h : a.Agree a1)
    (hr : rac_array_remove_checked ok a item = some a2) :
    ∃ a3, rac_array_remove false a1 item = some a3 ∧ a2.Agree a3 := by
  unfold rac_array_remove_checked at hr
  by_cases hi : item = 0
  · simp [hi] at hr
  rw [if_neg hi] at hr
  unfold rac_array_remove
  rw [if_neg hi, h.1, scan_agree a a1 h]
  rcases hin with ⟨hp, hit, ha⟩ | ⟨b, hp, hpos, hb, hcap, hnz⟩
  · have hscan : rac_array_remove_scan a item (a.items + 1) 0 = some none := by
      rw [hit]
      simp [rac_array_remove_scan, rac_array_iter, hit]
    rw [hscan] at hr ⊢
    have h2 : rac_array_remove_tail_checked ok a = some rac_array.empty := by
      simp [rac_array_remove_tail_checked, hit, rac_array_flush, rac_array.empty]
    have hr1 : rac_array_remove_tail_checked ok a = some a2 := hr
    rw [h2] at hr1
    cases hr1
    refine ⟨rac_array.empty, ?_, agree_refl _⟩
    show rac_array_remove_tail false a1 = _
    rw [remove_tail_refused, if_pos (by rw [h.1]; exact hit)]
  · have hle : a.items ≤ a.allocated := by
      simp only [sizeof_intptr] at hb
      omega
    obtain ⟨r, hscan, hk⟩ := remove_scan_result a b item hp (a.items + 1) 0
      (by omega) (by omega)
    rw [hscan] at hr ⊢
    cases r with
    | none =>
      have hr1 : rac_array_remove_tail_checked ok a = some a2 := hr
      rw [remove_tail_checked_spec ok a b hle hcap, if_neg (by omega)] at hr1
      cases hr1
      refine ⟨a1, ?_, h⟩
      show rac_array_remove_tail false a1 = _
      rw [remove_tail_refused, if_neg (by rw [h.1]; omega)]
    | some k =>
      obtain ⟨hk0, hki⟩ := hk k rfl
      have hr1 : rac_array_remove_tail_checked ok (rac_array_remove_at a k) = some a2 := hr
      have hag := remove_at_agree a a1 h b hp k (by omega) hki
      obtain ⟨c, hc, hci, hca, _⟩ := remove_at_spec a b k hp (by omega) hki
      have hbytes : c.bytes = b.bytes := by
        have := remove_at_bytes a k
        rw [hc, hp] at this
        simpa using this
      have hcap1 : ((rac_array_remove_at a k).allocated = 32 ∧ c.bytes = 256) ∨
          ((rac_array_remove_at a k).allocated = 64 ∧ c.bytes = 288) := by
        rw [hca, hbytes]
        exact hcap
      rw [remove_tail_checked_spec ok _ c (by rw [hci, hca]; omega) hcap1] at hr1
      show ∃ a3, rac_array_remove_tail false (rac_array_remove_at a1 k) = some a3 ∧ _
      rw [remove_tail_refused, hag.1]
      by_cases h0 : (rac_array_remove_at a k).items = 0
      · rw [if_pos h0] at hr1
        rw [if_pos h0]
        cases hr1
        exact ⟨_, rfl, agree_refl _⟩
      · rw [if_neg h0] at hr1
        rw [if_neg h0]
        cases hr1
        exact ⟨_, rfl, hag⟩

/-- The plain `rac_array_add` when growth is not needed or granted. -/
theorem add_spec (ok : Bool) (array : rac_array) (item : Nat)
    (hi : item ≠ 0) (hp : array.ptr = none → array.allocated ≤ array.items)
    (hg : array.items < array.allocated ∨ ok = true) :
    ∃ array1 b1, rac_array_add ok array item = some (item, array1) ∧
      array1.ptr = some b1 ∧ array1.items = array.items + 1 ∧
      b1.slot array.items = item ∧
      (∀ b, array.ptr = some b → ∀ j < array.items, b1.slot j = b.slot j) ∧
      (array.items < array.allocated →
        array1.allocated = array.allocated ∧ ∀ b, array.ptr = some b → b1.bytes = b.bytes) ∧
      (¬ array.items < array.allocated →
        array1.allocated = array.allocated + 32 ∧ b1.bytes = rac_array_grow_size array) := by
  by_cases hlt : array.items < array.allocated
  · have hnf : ¬ array.allocated ≤ array.items := by omega
    cases hb : array.ptr with
    | none => have := hp hb; omega
    | some b =>
      refine ⟨{ array with
          ptr := some { b with slot := fun j => if j = array.items then item else b.slot j }
          items := array.items + 1 },
        { b with slot := fun j => if j = array.items then item else b.slot j },
        by simp [rac_array_add, hi, hnf, store_spec array b item hb], rfl, rfl,
        by simp, ?_, fun _ => ⟨rfl, fun b' hb' => by cases hb'; rfl⟩, fun h => absurd hlt h⟩
      intro b' hb' j hj
      cases hb'
      have : j ≠ array.items := by omega
      simp [this]
  · have hfull : array.allocated ≤ array.items := by omega
    have hok : ok = true := by
      rcases hg with h | h
      · exact absurd h hlt
      · exact h
    subst hok
    refine ⟨{ ptr := some { bytes := rac_array_grow_size array
                            slot := fun j => if j = array.items then item
                              else match array.ptr with
                                   | some b => b.slot j
                                   | none => 0 }
              items := array.items + 1
              allocated := array.allocated + 32 },
      { bytes := rac_array_grow_size array
        slot := fun j => if j = array.items then item
          else match array.ptr with
               | some b => b.slot j
               | none => 0 },
      by simp [rac_array_add, hi, hfull, rac_array_grow, realloc, rac_array_store],
      rfl, rfl, by simp, ?_, fun h => absurd h hlt, fun _ => ⟨rfl, rfl⟩⟩
    intro b hb j hj
    have : j ≠ array.items := by omega
    simp [this, hb]

/-- The block of a registry the enforced runs keep has the size that goes with
its capacity. -/
theorem inBlock_bytes (a : rac_array) (h : a.InBlock) (b : rac_block) (hp : a.ptr = some b) :
    b.bytes = a.allocated + 224 := by
  rcases h with ⟨hn, _, _⟩ | ⟨b', hp', _, _, hcap, _⟩
  · rw [hn] at hp
    cases hp
  · rw [hp] at hp'
    cases hp'
    omega

/-- An add with the size of the block enforced is an add by the plain
function, with the same answer of the allocator. -/
theorem add_checked_agree (ok : Bool) (a a1 : rac_array) (item ret : Nat) (a2 : rac_array)
    (hin : a.InBlock) (h : a.Agree a1)
    (hr : rac_array_add_checked ok a item = some (ret, a2)) :
    ∃ a3, rac_array_add ok a1 item = some (ret, a3) ∧ a2.Agree a3 := by
  by_cases hi : item = 0
  · simp [rac_array_add_checked, hi] at hr
  by_cases h36 : a.items = 36
  · rw [(add_checked_past_block ok a item hin hi h36).2] at hr
    cases hr
  have hlt36 : a.items < 36 := by
    have := (inBlock_bounds a hin).1
    omega
  by_cases hg : a.items < a.allocated ∨ ok = true
  · obtain ⟨c, cb, hadd, hcp, hci, hcnew, hcold, hca1, hca2, hcin⟩ :=
      add_checked_spec ok a item hin hi hlt36 hg
    rw [hadd] at hr
    cases hr
    have hp1 : a1.ptr = none → a1.allocated ≤ a1.items := by
      intro hn
      rw [h.1, h.2.1]
      rcases hin with ⟨_, hit, ha⟩ | ⟨b, hp, _, _, _, _⟩
      · omega
      · obtain ⟨b1, hb1, _⟩ := agree_ptr a a1 h b hp
        rw [hn] at hb1
        cases hb1
    obtain ⟨d, db, hadd1, hdp, hdi, hdnew, hdold, hda1, hda2⟩ :=
      add_spec ok a1 item hi hp1 (by rw [h.1, h.2.1]; exact hg)
    refine ⟨d, hadd1, by rw [hdi, hci, h.1], ?_, ?_, ?_⟩
    · by_cases hlt : a.items < a.allocated
      · rw [(hda1 (by rw [h.1, h.2.1]; exact hlt)).1, hca1 hlt, h.2.1]
      · rw [(hda2 (by rw [h.1, h.2.1]; exact hlt)).1, hca2 hlt, h.2.1]
    · rw [hdp, hcp]
      simp only [Option.map_some', Option.some.injEq]
      rw [inBlock_bytes a2 hcin cb hcp]
      by_cases hlt : a.items < a.allocated
      · rw [hca1 hlt]
        rcases hin with ⟨_, hit, ha⟩ | ⟨b, hp, hrest⟩
        · omega
        · obtain ⟨b1, hb1, hby1⟩ := agree_ptr a a1 h b hp
          rw [(hda1 (by rw [h.1, h.2.1]; exact hlt)).2 b1 hb1, hby1,
            inBlock_bytes a (Or.inr ⟨b, hp, hrest⟩) b hp]
      · rw [hca2 hlt, (hda2 (by rw [h.1, h.2.1]; exact hlt)).2]
        simp only [rac_array_grow_size, sizeof_intptr, h.2.1]
    · intro e e1 he he1 j hj
      rw [hcp] at he
      rw [hdp] at he1
      cases he
      cases he1
      rw [hci] at hj
      by_cases hj0 : j = a.items
      · rw [hj0, hcnew]
        rw [← h.1, hdnew]
      · have hjlt : j < a.items := by omega
        rcases hin with ⟨_, hit, _⟩ | ⟨b, hp, _⟩
        · omega
        · obtain ⟨b1, hb1, _⟩ := agree_ptr a a1 h b hp
          rw [hcold b hp j hjlt, hdold b1 hb1 j (by rw [h.1]; exact hjlt)]
          exact h.2.2.2 b b1 hp hb1 j hjlt
  · have hfull : a.allocated ≤ a.items := by omega
    have hok : ok = false := by
      cases ok
      · rfl
      · exact absurd (Or.inr rfl) hg
    subst hok
    have h1 : rac_array_add_checked false a item = some (0, a) := by
      simp [rac_array_add_checked, hi, hfull, rac_array_grow_checked, realloc_checked]
    rw [h1] at hr
    cases hr
    refine ⟨a1, ?_, h⟩
    have hfull1 : a1.allocated ≤ a1.items := by rw [h.1, h.2.1]; exact hfull
    simp [rac_array_add, hi, hfull1, rac_array_grow, realloc]

/-- Every registry the program can build agrees with a registry the plain
functions reach. -/
theorem reachableChecked_reachable (a : rac_array) (h : a.ReachableChecked) :
    ∃ a1, a1.Reachable ∧ a.Agree a1 := by
  induction h with
  | empty => exact ⟨rac_array.empty, rac_array.Reachable.empty, agree_refl _⟩
  | add ok array item ret array1 hreach hadd ih =>
    obtain ⟨a1, hr1, hag⟩ := ih
    obtain ⟨a3, hadd1, hag1⟩ := add_checked_agree ok array a1 item ret array1
      (reachableChecked_inBlock array hreach) hag hadd
    exact ⟨a3, rac_array.Reachable.add ok a1 item ret a3 hr1 hadd1, hag1⟩
  | remove ok array item array1 hreach hrem ih =>
    obtain ⟨a1, hr1, hag⟩ := ih
    obtain ⟨a3, hrem1, hag1⟩ := remove_checked_agree ok array a1 item array1
      (reachableChecked_inBlock array hreach) hag hrem
    exact ⟨a3, rac_array.Reachable.remove false a1 item a3 hr1 hrem1, hag1⟩

/-! ## Cascaded emits -/

/-- Witness of C12: an add to the empty registry when the allocator refuses
the growth. -/
theorem C12_failed_add_atomic_witness :
    ∃ ret array1, rac_array_add false rac_array.empty 5 = some (ret, array1) ∧
      ret = 0 ∧ array1 = rac_array.empty := by
  obtain ⟨ret, a1, h1, h2, h3, _⟩ := C12_failed_add_atomic false rac_array.empty 5
    (by decide) (fun _ => Nat.le_refl _)
  have hret : ret = 0 := h2.mpr ⟨Nat.le_refl _, rfl⟩
  exact ⟨ret, a1, h1, hret, h3 hret⟩

/-- Witness of C15: the traversal of the registry holding 5, 6, 7. -/
theorem C15_iteration_witness :
    rac_array_iter sample_array 3 = some (0, 3) ∧
    rac_array_traverse sample_array 4 0 = some ([5, 6, 7], 4) := by
  obtain ⟨_, h2, h3⟩ := C15_iteration sample_array (reachable_valid _ sample_array_reachable)
  exact ⟨h2, h3⟩

/-- Witness of C16: the emit `rac_emit(s, ch)` of the demo, the character
`y`. -/
theorem C16_emit_value_round_trip_witness :
    rac_signal_value (fun _ => 0)
        (rac_signal_emit { current := .addr 0, old := 0, emit := 0, size := 0 } 121 1)
      = Ptr.emit ∧
    (rac_signal_emit { current := .addr 0, old := 0, emit := 0, size := 0 } 121 1).currentBytes
        (fun _ => 0) 1 = [121] := by
  obtain ⟨h1, h2⟩ := (C16_emit_value_round_trip (fun _ => 0)
    { current := .addr 0, old := 0, emit := 0, size := 0 } 121 1 (by norm_num)).2.1
    (by decide)
  exact ⟨h1, by rw [(h2 (by decide)).1]; decide⟩

end Reactivec
